import Mathlib

/-!
# ccproducers: a producer graph and its execution

A shallow embedding of `error.h`, `value.h`, `input.h`, `output.h`, `node.h`,
`node.cc` and `producer_graph.h`.

Conventions of the embedding.

* The template parameter `T` of `Value<T>`, `Input<T>`, `Output<T>`, `Node<T>`
  is one type `α` of produced values for the whole graph; the `static_cast`
  from `NodeBase*` to `Node<T>*` is then the identity.
* A pointer to a node is the position of the node in `ProducerGraph.nodes_`
  (the vector that owns the nodes). `std::set<NodeBase*>` is a list without
  repetition; the iteration order of such a set is the order of the pointer
  values, of which nothing is assumed: wherever the code iterates over a set
  while other threads run, the step relation may take the elements in any
  order.
* A call that can throw returns `Except Exception`; dereferencing a null
  pointer or failing an `assert` is `undefined`/`aborted`.
* Threads are interleaved at the granularity of the critical sections of
  `node.cc`; see `Label`.
-/

set_option autoImplicit false

namespace ccproducers

/-! ## error.h, value.h, input.h, output.h -/

/-- Failure record of `error.h`: the pointer `cause_` to a causal error (`none`
for `nullptr`) and the text `message_`. -/
inductive Error where
  | mk (cause_ : Option Error) (message_ : String)

/-- Method `Error::ToString` (error.h:16-25): the text streamed into `stream`,
`std::endl` being a newline. -/
def Error.ToString : Error → String
  | .mk none message_ => "Producer error with message: " ++ "\n" ++ message_ ++ "\n"
  | .mk (some cause_) message_ =>
      "Producer error with message: " ++ "\n" ++ message_ ++ "\n" ++
        ("Caused by: " ++ "\n" ++ cause_.ToString ++ "\n")

/-- Objects thrown by C++ code. `std what` is an object of a class derived from
`std::exception` (`std::runtime_error`, `std::out_of_range`,
`std::future_error`, ...); `other tag` is any other thrown object, such as the
`int` of `throw 42;`. A handler `catch (std::exception&)` matches the first
kind only. -/
inductive Exception where
  | std (what : String)
  | other (tag : Nat)
deriving DecidableEq, Repr

/-- Holder of an immutable value, `value.h`. -/
structure Value (α : Type) where
  content_ : α
deriving DecidableEq, Repr

/-- Accessor `Value<T>::get`. -/
def Value.get {α : Type} (v : Value α) : α := v.content_

/-- Class `Input<T>` of `input.h`: exactly one of the pointers `value_` and
`error_` is set (input.h:36), which the two constructors
`Input(const Value<T>*)` and `Input(const Error*)` establish. -/
inductive Input (α : Type) where
  | ofValue (value_ : Value α)
  | ofError (error_ : Error)

/-- Predicate `Input<T>::IsError`: `error_ != nullptr`. -/
def Input.IsError {α : Type} : Input α → Bool
  | .ofValue _ => false
  | .ofError _ => true

/-- Predicate `Input<T>::IsValue`: `value_ != nullptr`. -/
def Input.IsValue {α : Type} : Input α → Bool
  | .ofValue _ => true
  | .ofError _ => false

/-- Accessor `Input<T>::get`: throws `std::runtime_error("hi")` when the input
is an error, and returns the content of the value otherwise. -/
def Input.get {α : Type} : Input α → Except Exception α
  | .ofError _ => .error (.std "hi")
  | .ofValue v => .ok v.get

/-- Class `Output<T>` of `output.h`: exactly one of the owning pointers `value_`
and `error_` is set (output.h:59), which the constructors `Output(T&&)` and
`Output(Error&&)` establish. -/
inductive Output (α : Type) where
  | ofValue (value_ : Value α)
  | ofError (error_ : Error)

/-- Constructor `Output(T&& content)`. -/
def Output.ofContent {α : Type} (content : α) : Output α := .ofValue ⟨content⟩

/-- Predicate `Output<T>::IsError`. -/
def Output.IsError {α : Type} : Output α → Bool
  | .ofValue _ => false
  | .ofError _ => true

/-- Predicate `Output<T>::IsValue`. -/
def Output.IsValue {α : Type} : Output α → Bool
  | .ofValue _ => true
  | .ofError _ => false

/-- Accessor `Output<T>::get`: `assert(IsValue())`, then the content of the
value; `none` is the failed assertion. -/
def Output.get {α : Type} : Output α → Option α
  | .ofValue v => some v.get
  | .ofError _ => none

/-- Conversion `Output<T>::AsInput`. -/
def Output.AsInput {α : Type} (o : Output α) : Input α :=
  match o with
  | .ofError e => Input.ofError e
  | .ofValue v => Input.ofValue v

/-! ## Calls, closures and promises -/

/-- Result of invoking a bound closure: it returns, it throws, or its behaviour
is undefined (it dereferenced the null `GetOutput()` of a node that has not run). -/
inductive Outcome (β : Type) where
  | returned (b : β)
  | threw (e : Exception)
  | undefined

/-- Sequencing of calls. -/
def Outcome.bind {β γ : Type} (x : Outcome β) (k : β → Outcome γ) : Outcome γ :=
  match x with
  | .returned b => k b
  | .threw e => .threw e
  | .undefined => .undefined

/-- A call that returns or throws, seen as an `Outcome`. -/
def Outcome.ofExcept {β : Type} : Except Exception β → Outcome β
  | .ok b => .returned b
  | .error e => .threw e

/-- A user producer function `Output<R>(Input<P>...)`, given the list of its
arguments in declared order. It returns an `Output` or throws. -/
abbrev ProducerFn (α : Type) := List (Input α) → Except Exception (Output α)

/-- What a bound closure can read through its captured pointer `nodes_by_id`:
for a node id, `none` when the id is not a key of the map (`std::map::at` then
throws `std::out_of_range`), and otherwise `GetOutput()` of the node, `none` being
the null pointer. -/
abbrev View (α : Type) := Nat → Option (Option (Output α))

/-- The zero-argument closure `std::function<Output<T>()>` stored in
`Node<T>::producer_`. -/
abbrev Closure (α : Type) := View α → Outcome (Output α)

/-- The expression `nodes_by_id->at(node_id)->GetOutput()->AsInput()`. -/
def boundInput {α : Type} (view : View α) (node_id : Nat) : Outcome (Input α) :=
  match view node_id with
  | none => .threw (.std "map::at")
  | some none => .undefined
  | some (some o) => .returned o.AsInput

/-- State shared by a `std::promise` and its future: how it was resolved. -/
inductive Resolution (α : Type) where
  | value (v : α)
  | exception (e : Exception)
deriving DecidableEq, Repr

/-- A `std::promise<const T&>`: its shared state, `none` while unresolved. -/
structure Promise (α : Type) where
  shared : Option (Resolution α)
deriving DecidableEq, Repr

/-- Call `std::promise::set_value`: stores the value, or throws
`std::future_error` when the shared state is already resolved. -/
def Promise.set_value {α : Type} (p : Promise α) (v : α) : Except Exception (Promise α) :=
  match p.shared with
  | none => .ok ⟨some (.value v)⟩
  | some _ => .error (.std "promise already satisfied")

/-- Call `std::promise::set_exception`: stores the exception, or throws
`std::future_error` when the shared state is already resolved. -/
def Promise.set_exception {α : Type} (p : Promise α) (e : Exception) :
    Except Exception (Promise α) :=
  match p.shared with
  | none => .ok ⟨some (.exception e)⟩
  | some _ => .error (.std "promise already satisfied")

/-! ## node.h, node.cc -/

/-- The states of a node, `enum class NodeState`. -/
inductive NodeState where
  | BLOCKED
  | RUNNING
  | FINISHED
deriving DecidableEq, Repr

/-- Where the asynchronous task `std::async(&NodeBase::Run, this)` held by
`async_future_` stands. -/
inductive Async where
  /-- No task: the future is default constructed. -/
  | idle
  /-- Task launched, `Run` has not yet passed `RunProducer()`. -/
  | atRunProducer
  /-- `RunProducer()` returned, `SetFinished()` is next. -/
  | atSetFinished
  /-- In the loop over `rdeps_`, the listed reverse dependencies are still to be told. -/
  | reporting (todo : List Nat)
  /-- An exception left `Run`; the task ended and the future holds it. -/
  | escaped (e : Exception)
  /-- An `assert` failed or a null pointer was dereferenced. -/
  | aborted
deriving DecidableEq, Repr

/-- Fields of `NodeBase` and `Node<T>`. The two counters are not in the source:
`launches` counts the calls of `std::async` in `Start`, `invocations` the calls
of `producer_` in `RunProducer`. -/
structure Node (α : Type) where
  id_ : Nat
  name_ : String
  async_future_ : Async
  deps_ : List Nat
  rdeps_ : List Nat
  state_ : NodeState
  finished_deps_ : List Nat
  result_ : Option (Output α)
  producer_ : Closure α
  result_promise_ : Promise α
  launches : Nat
  invocations : Nat

/-- Insertion into a `std::set`. -/
def setInsert (x : Nat) (s : List Nat) : List Nat :=
  if x ∈ s then s else s ++ [x]

/-- Constructor `Node<T>::Node` without the loop over `deps` of
`NodeBase::NodeBase`, which `AddProducer` performs on the graph. -/
def Node.new {α : Type} (id : Nat) (name : String) (producer : Closure α)
    (deps : List Nat) : Node α :=
  { id_ := id, name_ := name, async_future_ := .idle, deps_ := deps, rdeps_ := [],
    state_ := .BLOCKED, finished_deps_ := [], result_ := none, producer_ := producer,
    result_promise_ := ⟨none⟩, launches := 0, invocations := 0 }

/-- Method `Node<T>::GetOutput`. -/
def Node.GetOutput {α : Type} (n : Node α) : Option (Output α) := n.result_

/-- Method `NodeBase::IsDone`. -/
def Node.IsDone {α : Type} (n : Node α) : Bool :=
  n.state_ == .FINISHED

/-- Method `NodeBase::CanRun`. -/
def Node.CanRun {α : Type} (n : Node α) : Bool :=
  n.deps_.length == n.finished_deps_.length

/-- Method `NodeBase::TrySetRunning`. -/
def Node.TrySetRunning {α : Type} (n : Node α) : Bool × Node α :=
  if n.state_ = .BLOCKED then (true, { n with state_ := .RUNNING })
  else (false, n)

/-- The tail of `NodeBase::Start` after `CanRun()` returned true. -/
def Node.StartAfterCanRun {α : Type} (n : Node α) : Node α :=
  let r := n.TrySetRunning
  if !r.1 then r.2
  else { r.2 with async_future_ := .atRunProducer, launches := r.2.launches + 1 }

/-- Method `NodeBase::Start`. -/
def Node.Start {α : Type} (n : Node α) : Node α :=
  if !n.CanRun then n
  else n.StartAfterCanRun

/-- Method `NodeBase::SetFinished`; `none` is the failed
`assert(state_ == NodeState::RUNNING)`. -/
def Node.SetFinished {α : Type} (n : Node α) : Option (Node α) :=
  if n.state_ = .RUNNING then some { n with state_ := .FINISHED } else none

/-- Method `NodeBase::AddReverseDep`. -/
def Node.AddReverseDep {α : Type} (n : Node α) (rdep : Nat) : Node α :=
  { n with rdeps_ := setInsert rdep n.rdeps_ }

/-- Method `NodeBase::ReportFinished`; `none` is the failed
`assert(deps_.find(node) != deps_.end())`. The lock on `finished_deps_` is held
from the insertion to the end of `Start`. -/
def Node.ReportFinished {α : Type} (n : Node α) (node : Nat) : Option (Node α) :=
  if node ∈ n.deps_ then
    let n1 := { n with finished_deps_ := setInsert node n.finished_deps_ }
    if n1.CanRun then some n1.Start else some n1
  else none

/-- How a method that may be left by an exception ends: it returns (`normal`),
an exception leaves it (`escaped`, with the object as it was left), or its
behaviour is undefined. -/
inductive Exit (σ : Type) where
  | normal (s : σ)
  | escaped (e : Exception) (s : σ)
  | undefined

/-- First `try` block of `Node<T>::RunProducer` (node.h:138-143): run the
producer; `catch (std::exception&)` replaces a caught exception by an error. -/
def Node.tryProducer {α : Type} (n : Node α) (view : View α) : Exit (Node α) :=
  let n1 := { n with invocations := n.invocations + 1 }
  match n.producer_ view with
  | .returned o => .normal { n1 with result_ := some o }
  | .threw (.std _) =>
      .normal { n1 with
        result_ := some (.ofError (.mk none "Exception while running producer")) }
  | .threw (.other t) => .escaped (.other t) n1
  | .undefined => .undefined

/-- Body of the second `try` block of `Node<T>::RunProducer` (node.h:147-151). -/
def Node.resolveBody {α : Type} (n : Node α) (o : Output α) : Outcome (Promise α) :=
  if o.IsError then .threw (.std "Producer ran and produced an error")
  else
    match o.get with
    | none => .undefined
    | some v => Outcome.ofExcept (n.result_promise_.set_value v)

/-- Second `try` block of `Node<T>::RunProducer` (node.h:146-156): resolve the
promise; the handler stores the caught `std::exception` with `set_exception`. -/
def Node.resolvePromise {α : Type} (n : Node α) : Exit (Node α) :=
  match n.result_ with
  | none => .undefined
  | some o =>
    match n.resolveBody o with
    | .returned p => .normal { n with result_promise_ := p }
    | .threw (.std w) =>
        match n.result_promise_.set_exception (.std w) with
        | .ok p => .normal { n with result_promise_ := p }
        | .error e => .escaped e n
    | .threw (.other t) => .escaped (.other t) n
    | .undefined => .undefined

/-- Method `Node<T>::RunProducer`. -/
def Node.RunProducer {α : Type} (n : Node α) (view : View α) : Exit (Node α) :=
  match n.tryProducer view with
  | .normal n1 => n1.resolvePromise
  | .escaped e n1 => .escaped e n1
  | .undefined => .undefined

/-! ## producer_graph.h -/

/-- Fields of `ProducerGraph`. `nodes_by_id_` maps a node id to the pointer to
the node, the latest entry for an id first; a handle `NodeHandle<T>*` is the id
it carries. -/
structure ProducerGraph (α : Type) where
  next_id_ : Nat
  nodes_by_id_ : List (Nat × Nat)
  nodes_ : List (Node α)
  node_handles_ : List Nat

/-- Constructor `ProducerGraph()`. -/
def ProducerGraph.new {α : Type} : ProducerGraph α :=
  { next_id_ := 0, nodes_by_id_ := [], nodes_ := [], node_handles_ := [] }

/-- The pointer stored in `nodes_by_id_` for an id, `none` when the id is not a key. -/
def ProducerGraph.lookup {α : Type} (g : ProducerGraph α) (node_id : Nat) : Option Nat :=
  g.nodes_by_id_.lookup node_id

/-- The node a pointer points to. -/
def ProducerGraph.node {α : Type} (g : ProducerGraph α) (p : Nat) : Option (Node α) :=
  g.nodes_[p]?

/-- Assignment to the node a pointer points to. -/
def ProducerGraph.setNode {α : Type} (g : ProducerGraph α) (p : Nat) (n : Node α) :
    ProducerGraph α :=
  { g with nodes_ := g.nodes_.set p n }

/-- The set `deps_` of the node at a pointer. -/
def ProducerGraph.depsOf {α : Type} (g : ProducerGraph α) (p : Nat) : List Nat :=
  match g.node p with
  | some n => n.deps_
  | none => []

/-- What the closures of the graph read, see `View`. -/
def ProducerGraph.view {α : Type} (g : ProducerGraph α) : View α := fun node_id =>
  match g.lookup node_id with
  | none => none
  | some p =>
    match g.node p with
    | none => some none
    | some n => some n.GetOutput

/-- Function `CreateNodeName` of producer_graph.h. -/
def CreateNodeName (id : Nat) : String :=
  "unnamed" ++ "-" ++ toString id

/-- Overloads of `ProducerGraph::BindRecursive`: `node_id :: tail` are the ids of
the handles. With one handle the closure looks the node up and calls `f`; with
more, the first argument of `f` is bound to the first handle and the rest is
bound recursively. The functions bound on the way read the graph when they are
called, hence their argument `View`. -/
def BindRecursive {α : Type} (f : View α → List (Input α) → Outcome (Output α)) :
    Nat → List Nat → Closure α
  | node_id, [] => fun view =>
      (boundInput view node_id).bind fun i => f view [i]
  | node_id, t :: tail =>
      BindRecursive
        (fun view rest => (boundInput view node_id).bind fun i => f view (i :: rest))
        t tail

/-- Overload `AddProducer(std::string name, std::function<Output<ReturnType>()> f)`
(producer_graph.h:59-82). Returns the graph and the id of the new handle. -/
def ProducerGraph.AddProducerRoot {α : Type} (g : ProducerGraph α) (name : String)
    (f : ProducerFn α) : ProducerGraph α × Nat :=
  let id := g.next_id_
  let name1 := if name.isEmpty then CreateNodeName id else name
  let result : Node α := Node.new id name1 (fun _ => Outcome.ofExcept (f [])) []
  ({ next_id_ := id + 1,
     nodes_by_id_ := (id, g.nodes_.length) :: g.nodes_by_id_,
     nodes_ := g.nodes_ ++ [result],
     node_handles_ := g.node_handles_ ++ [id] }, id)

/-- Loop of the constructor `NodeBase::NodeBase`: `dep->AddReverseDep(this)` for
every `dep` of `deps`. -/
def addReverseDeps {α : Type} (this : Nat) : List Nat → List (Node α) → List (Node α)
  | [], nodes => nodes
  | dep :: deps, nodes =>
      match nodes[dep]? with
      | some n => addReverseDeps this deps (nodes.set dep (n.AddReverseDep this))
      | none => addReverseDeps this deps nodes

/-- Loop of producer_graph.h:102-106 over the handles: the node
`nodes_by_id_[handle_node_id]` of each handle is inserted into the set `nodes`.
`none` stands for a handle whose id is not a key of `nodes_by_id_`: `operator[]`
then yields a null pointer, which the constructor of the node dereferences. -/
def ProducerGraph.handleNodes {α : Type} (g : ProducerGraph α) :
    List Nat → List Nat → Option (List Nat)
  | [], nodes => some nodes
  | handle :: rest, nodes =>
      match g.lookup handle with
      | none => none
      | some handle_node => g.handleNodes rest (setInsert handle_node nodes)

/-- Overload `AddProducer(std::string name, std::function<Output<ReturnType>(Input<Params>...)> f,
NodeHandle<Params>*... node_handles)` (producer_graph.h:92-123), for the handles
`h :: tail`. Returns the graph and the id of the new handle, or `none` when a
handle is not of this graph (see `handleNodes`). -/
def ProducerGraph.AddProducerBound {α : Type} (g : ProducerGraph α) (name : String)
    (f : ProducerFn α) (h : Nat) (tail : List Nat) : Option (ProducerGraph α × Nat) :=
  let other := BindRecursive (fun _ ins => Outcome.ofExcept (f ins)) h tail
  match g.handleNodes (h :: tail) [] with
  | none => none
  | some nodes =>
    let id := g.next_id_
    let this := g.nodes_.length
    let result : Node α := Node.new id name other nodes
    some ({ next_id_ := id + 1,
            nodes_by_id_ := (id, this) :: g.nodes_by_id_,
            nodes_ := addReverseDeps this nodes g.nodes_ ++ [result],
            node_handles_ := g.node_handles_ ++ [id] }, id)

/-- Method `ProducerGraph::AddProducer`: overload resolution on the number of handles. -/
def ProducerGraph.AddProducer {α : Type} (g : ProducerGraph α) (name : String)
    (f : ProducerFn α) (node_handles : List Nat) : Option (ProducerGraph α × Nat) :=
  match node_handles with
  | [] => some (g.AddProducerRoot name f)
  | h :: tail => g.AddProducerBound name f h tail

/-- Method `NodeBase::TransitiveDepsInternal`, called on the node at pointer
`this` with the set `result`. The first argument bounds the depth of the
recursion; `TransitiveDeps` supplies more than the number of nodes. -/
def ProducerGraph.TransitiveDepsInternal {α : Type} (g : ProducerGraph α) :
    Nat → Nat → List Nat → List Nat
  | 0, _, result => result
  | fuel + 1, this, result =>
      if this ∈ result then result
      else
        (g.depsOf this).foldl (fun acc dep => g.TransitiveDepsInternal fuel dep acc)
          (setInsert this result)

/-- Method `NodeBase::TransitiveDeps` of the node at pointer `p`. -/
def ProducerGraph.TransitiveDeps {α : Type} (g : ProducerGraph α) (p : Nat) : List Nat :=
  g.TransitiveDepsInternal (g.nodes_.length + 1) p []

/-! ## Execution -/

/-- A graph in execution. `pending` holds the nodes on which a loop of `Execute`
has yet to call `Start()`. `checked` holds the nodes on which such a call of
`Start()` has seen `CanRun()` return true and has yet to call `TrySetRunning()`. -/
structure Sys (α : Type) where
  graph : ProducerGraph α
  pending : List Nat
  checked : List Nat

/-- A freshly built graph on which nothing has been executed. -/
def Sys.fresh {α : Type} (g : ProducerGraph α) : Sys α :=
  { graph := g, pending := [], checked := [] }

/-- Method `ProducerGraph::Execute` up to its loop: the node of the handle is
looked up, and `Start()` is to be called on each node of its `TransitiveDeps()`.
`none` stands for a handle whose id is not a key of `nodes_by_id_` (a null
pointer is dereferenced). The future returned is the read end of
`result_promise_` of the node. -/
def Execute {α : Type} (s : Sys α) (node_id : Nat) : Option (Sys α) :=
  match s.graph.lookup node_id with
  | none => none
  | some node => some { s with pending := s.pending ++ s.graph.TransitiveDeps node }

/-- The atomic steps of an execution.

* `execute id`: a caller enters `Execute` on the handle with that id.
* `startCanRun p`: in a loop of `Execute`, `Start()` of node `p` evaluates `CanRun()`.
* `startTrySetRunning p`: that call of `Start()` goes on with `TrySetRunning()` and the launch.
* `runProducer p`: the task of node `p` executes `Run` up to the end of `RunProducer()`.
* `setFinished p`: the task of node `p` executes `SetFinished()`.
* `reportFinished p r`: the task of node `p` calls `r->ReportFinished(this)`. -/
inductive Label where
  | execute (node_id : Nat)
  | startCanRun (p : Nat)
  | startTrySetRunning (p : Nat)
  | runProducer (p : Nat)
  | setFinished (p : Nat)
  | reportFinished (p r : Nat)
deriving DecidableEq, Repr

/-- The task of node `p` between its launch and the end of `RunProducer()`:
`assert(!IsDone()); assert(CanRun()); RunProducer();` of `NodeBase::Run`. -/
def runProducerStep {α : Type} (g : ProducerGraph α) (n : Node α) : Node α :=
  if n.IsDone || !n.CanRun then { n with async_future_ := .aborted }
  else
    match n.RunProducer g.view with
    | .normal n1 => { n1 with async_future_ := .atSetFinished }
    | .escaped e n1 => { n1 with async_future_ := .escaped e }
    | .undefined => { n with async_future_ := .aborted }

/-- The task of a node at `SetFinished();` of `NodeBase::Run`; the loop over
`rdeps_` is next. -/
def setFinishedStep {α : Type} (n : Node α) : Node α :=
  match n.SetFinished with
  | some n1 => { n1 with async_future_ := .reporting n1.rdeps_ }
  | none => { n with async_future_ := .aborted }

/-- One atomic step; `none` when the step is not enabled. -/
def step {α : Type} (l : Label) (s : Sys α) : Option (Sys α) :=
  match l with
  | .execute node_id => Execute s node_id
  | .startCanRun p =>
      if p ∈ s.pending then
        match s.graph.node p with
        | none => none
        | some n =>
            some { s with
              pending := s.pending.erase p,
              checked := if n.CanRun then p :: s.checked else s.checked }
      else none
  | .startTrySetRunning p =>
      if p ∈ s.checked then
        match s.graph.node p with
        | none => none
        | some n =>
            some { s with
              checked := s.checked.erase p,
              graph := s.graph.setNode p n.StartAfterCanRun }
      else none
  | .runProducer p =>
      match s.graph.node p with
      | none => none
      | some n =>
          if n.async_future_ = .atRunProducer then
            some { s with graph := s.graph.setNode p (runProducerStep s.graph n) }
          else none
  | .setFinished p =>
      match s.graph.node p with
      | none => none
      | some n =>
          if n.async_future_ = .atSetFinished then
            some { s with graph := s.graph.setNode p (setFinishedStep n) }
          else none
  | .reportFinished p r =>
      match s.graph.node p with
      | none => none
      | some n =>
          match n.async_future_ with
          | .reporting todo =>
              if r ∈ todo then
                match s.graph.node r with
                | none => none
                | some nr =>
                    match nr.ReportFinished p with
                    | none =>
                        some { s with
                          graph := s.graph.setNode p { n with async_future_ := .aborted } }
                    | some nr1 =>
                        let g1 := s.graph.setNode r nr1
                        match g1.node p with
                        | none => none
                        | some n1 =>
                            some { s with
                              graph :=
                                g1.setNode p
                                  { n1 with async_future_ := .reporting (todo.erase r) } }
              else none
          | _ => none

/-- Steps taken by the tasks and by the loops of `Execute` already entered: every
label but `execute`. -/
def Label.internal : Label → Bool
  | .execute _ => false
  | _ => true

/-- Run a list of steps in order. -/
def runSteps {α : Type} : List Label → Sys α → Option (Sys α)
  | [], s => some s
  | l :: ls, s =>
      match step l s with
      | none => none
      | some s1 => runSteps ls s1

/-- The states an execution can reach from `s` by steps of the tasks and of the
loops of `Execute` already entered. -/
inductive Run {α : Type} : Sys α → Sys α → Prop where
  | refl (s : Sys α) : Run s s
  | tail {s t u : Sys α} (l : Label) : Run s t → l.internal = true → step l t = some u → Run s u

/-- The states reachable from a freshly built graph under any interleaving of
calls of `Execute` and of steps. -/
inductive Reach {α : Type} (g : ProducerGraph α) : Sys α → Prop where
  | fresh : Reach g (Sys.fresh g)
  | tail {t u : Sys α} (l : Label) : Reach g t → step l t = some u → Reach g u

/-- No step but a new call of `Execute` is enabled. -/
def Quiescent {α : Type} (s : Sys α) : Prop :=
  ∀ l : Label, l.internal = true → step l s = none

/-! ## Building a graph -/

/-- One call of `AddProducer`: the name, the function and the ids of the handles. -/
structure Registration (α : Type) where
  name : String
  f : ProducerFn α
  node_handles : List Nat

/-- The graph after a sequence of calls of `AddProducer` on the graph `g`; `none`
when a call is given a handle whose id the graph has not issued. -/
def buildFrom {α : Type} (g : ProducerGraph α) : List (Registration α) → Option (ProducerGraph α)
  | [] => some g
  | r :: rs =>
      match g.AddProducer r.name r.f r.node_handles with
      | none => none
      | some (g1, _) => buildFrom g1 rs

/-- The graph after a sequence of calls of `AddProducer` on a new graph. -/
def build {α : Type} (rs : List (Registration α)) : Option (ProducerGraph α) :=
  buildFrom ProducerGraph.new rs

/-! ## producers_integration_test.cc -/

/-- The output types of the producers of `BasicGraph`, `ErrorGraph` and
`ThrowingGraph`: `int` and `std::string`. -/
inductive TestVal where
  | int (i : Int)
  | str (s : String)
deriving DecidableEq, Repr

/-- The values read by calling `get()` on each input in turn; the exception of the
first `get()` that throws. -/
def getAll {α : Type} : List (Input α) → Except Exception (List α)
  | [] => .ok []
  | i :: rest =>
      match i.get with
      | .error e => .error e
      | .ok v =>
          match getAll rest with
          | .error e => .error e
          | .ok vs => .ok (v :: vs)

/-- A producer that reads its inputs with `get()` and returns a value computed
from what it read: it returns no `Error` and throws nothing of its own. -/
def valueProducer {α : Type} (compute : List α → α) : ProducerFn α := fun ins =>
  match getAll ins with
  | .error e => .error e
  | .ok vs => .ok (Output.ofContent (compute vs))

/-- Producer `ExpensiveProduceNumber`: `return 7;`. -/
def ExpensiveProduceNumber : ProducerFn TestVal :=
  valueProducer fun _ => .int 7

/-- Producer `ProduceOtherNumber`: `return 10;`. -/
def ProduceOtherNumber : ProducerFn TestVal :=
  valueProducer fun _ => .int 10

/-- Producer `ErrorProducer`: `return Error();`. -/
def ErrorProducer : ProducerFn TestVal := fun _ =>
  .ok (Output.ofError (.mk none ""))

/-- Producer `ThrowingProducer`. -/
def ThrowingProducer : ProducerFn TestVal := fun _ =>
  .error (.std "ThrowingProducer says hi")

/-- What `ExpensiveAdd` computes from the values of `left` and `right`, which are
`int` by the types of the handles: their sum, taken in the integers (the test
adds 7 and 10). -/
def addNumbers : List TestVal → TestVal
  | [.int left, .int right] => .int (left + right)
  | _ => .int 0

/-- Producer `ExpensiveAdd(Input<int> left, Input<int> right)`:
`return left.get() + right.get();`. -/
def ExpensiveAdd : ProducerFn TestVal :=
  valueProducer addNumbers

/-- What `MessageForNumber` computes from the value of `number`, an `int` by the
type of the handle: the text streamed into `stream`. -/
def messageText : List TestVal → TestVal
  | [.int number] => .str ("Hello world, number: " ++ toString number)
  | _ => .str ""

/-- Producer `MessageForNumber(Input<int> number)`. -/
def MessageForNumber : ProducerFn TestVal :=
  valueProducer messageText

/-- The calls of `AddProducer` of `TEST(ProducerGraphTest, BasicGraph)`:
`left`, `right`, `sum` and `message` get the ids 0, 1, 2 and 3. -/
def BasicGraph : List (Registration TestVal) :=
  [ ⟨"", ExpensiveProduceNumber, []⟩,
    ⟨"", ProduceOtherNumber, []⟩,
    ⟨"", ExpensiveAdd, [0, 1]⟩,
    ⟨"", MessageForNumber, [2]⟩ ]
/-- The calls of `AddProducer` of `TEST(ProducerGraphTest, ErrorGraph)`: `f` and
`g` get the ids 0 and 1. -/
def ErrorGraph : List (Registration TestVal) :=
  [ ⟨"", ErrorProducer, []⟩,
    ⟨"", MessageForNumber, [0]⟩ ]

/-- The calls of `AddProducer` of `TEST(ProducerGraphTest, ThrowingGraph)`: `f`
and `g` get the ids 0 and 1. -/
def ThrowingGraph : List (Registration TestVal) :=
  [ ⟨"", ThrowingProducer, []⟩,
    ⟨"", MessageForNumber, [0]⟩ ]

/-! ## Notions used to state the properties -/

/-- The output `RunProducer` records for an outcome of the producer, when it
records one: the returned output, or the error that replaces a caught
`std::exception`. -/
def recorded {α : Type} : Outcome (Output α) → Option (Output α)
  | .returned o => some o
  | .threw (.std _) => some (.ofError (.mk none "Exception while running producer"))
  | .threw (.other _) => none
  | .undefined => none

/-- The resolution of the promise that `RunProducer` stores for a recorded output. -/
def resolutionOf {α : Type} : Output α → Resolution α
  | .ofValue v => .value v.get
  | .ofError _ => .exception (.std "Producer ran and produced an error")

/-- The closure `AddProducer` stores in the node for a function and its handles. -/
def bindClosure {α : Type} (f : ProducerFn α) : List Nat → Closure α
  | [] => fun _ => Outcome.ofExcept (f [])
  | h :: tail => BindRecursive (fun _ ins => Outcome.ofExcept (f ins)) h tail

/-- Well-formed topology: ids are positions, the id map is the identity on the
nodes, dependencies point to earlier nodes, and `rdeps_` mirrors `deps_`. -/
structure Topo {α : Type} (g : ProducerGraph α) : Prop where
  next : g.next_id_ = g.nodes_.length
  lookup : ∀ id, g.lookup id = if id < g.nodes_.length then some id else none
  id : ∀ p n, g.node p = some n → n.id_ = p
  deps_lt : ∀ p n, g.node p = some n → ∀ d ∈ n.deps_, d < p
  deps_nodup : ∀ p n, g.node p = some n → n.deps_.Nodup
  rdeps_nodup : ∀ p n, g.node p = some n → n.rdeps_.Nodup
  rdeps_iff : ∀ p n r, g.node p = some n →
    (r ∈ n.rdeps_ ↔ ∃ nr, g.node r = some nr ∧ p ∈ nr.deps_)

/-- The nodes of the graph hold the closures and dependencies of the registrations. -/
structure Wired {α : Type} (rs : List (Registration α)) (g : ProducerGraph α) : Prop where
  len : g.nodes_.length = rs.length
  wired : ∀ p n, g.node p = some n → ∃ r, rs[p]? = some r ∧
    n.producer_ = bindClosure r.f r.node_handles ∧ (∀ x, x ∈ n.deps_ ↔ x ∈ r.node_handles)

/-- No node of the graph has been touched by an execution. -/
def Fresh {α : Type} (g : ProducerGraph α) : Prop :=
  ∀ p n, g.node p = some n →
    n.state_ = .BLOCKED ∧ n.async_future_ = .idle ∧ n.finished_deps_ = [] ∧
    n.result_ = none ∧ n.result_promise_.shared = none ∧ n.launches = 0 ∧ n.invocations = 0

/-- The graph is the result of the calls `rs` of `AddProducer` on a new graph,
as far as its nodes go. -/
structure Built {α : Type} (rs : List (Registration α)) (g : ProducerGraph α) : Prop where
  topo : Topo g
  wired : Wired rs g
  fresh : Fresh g

/-- The graph `AddProducer` returns, given the set `nodes` of the handles. -/
def extend {α : Type} (g : ProducerGraph α) (name : String) (c : Closure α)
    (nodes : List Nat) : ProducerGraph α :=
  { next_id_ := g.next_id_ + 1,
    nodes_by_id_ := (g.next_id_, g.nodes_.length) :: g.nodes_by_id_,
    nodes_ := addReverseDeps g.nodes_.length nodes g.nodes_ ++
      [Node.new g.next_id_ name c nodes],
    node_handles_ := g.node_handles_ ++ [g.next_id_] }

/-- Node `a` has node `b` in its set `deps_`. -/
def Dep {α : Type} (g : ProducerGraph α) (a b : Nat) : Prop := b ∈ g.depsOf a

/-- Node `b` is `a` or is reachable from `a` by following dependency edges. -/
def Reaches {α : Type} (g : ProducerGraph α) : Nat → Nat → Prop :=
  Relation.ReflTransGen (Dep g)

/-- Every member of `v` below `n` has its dependencies in `v`. -/
def ClosedLt {α : Type} (g : ProducerGraph α) (n : Nat) (v : List Nat) : Prop :=
  ∀ m, m ∈ v → m < n → ∀ d, Dep g m d → d ∈ v

/-- Table of the values `F tbl k` for `k` below a bound, each computed from the
table of the values before it. -/
def memoTable {β : Type} (F : List β → Nat → β) : Nat → List β
  | 0 => []
  | k + 1 => memoTable F k ++ [F (memoTable F k) k]

/-- The outputs of the nodes of a list of handles, in order, when each has one. -/
def gather {β : Type} (val : Nat → Option β) : List Nat → Option (List β)
  | [] => some []
  | h :: t =>
      match val h, gather val t with
      | some o, some os => some (o :: os)
      | _, _ => none

/-- The output that node `k` records, from the outputs `tbl` that the nodes
before it record: its function applied to the inputs made of the outputs of its
handles, in declared order. `none` when some handle records no output, or when
the function throws an object that is not a `std::exception`. -/
def denoteStep {α : Type} (rs : List (Registration α)) (tbl : List (Option (Output α)))
    (k : Nat) : Option (Output α) :=
  match rs[k]? with
  | none => none
  | some r =>
      match gather (fun h => (tbl[h]?).join) r.node_handles with
      | none => none
      | some outs => recorded (Outcome.ofExcept (r.f (outs.map Output.AsInput)))

/-- Compositional evaluation of the graph of the registrations `rs`: the output
that node `p` records when it runs, `none` when it cannot record one. -/
def denote {α : Type} (rs : List (Registration α)) (p : Nat) : Option (Output α) :=
  denoteStep rs (memoTable (denoteStep rs) p) p

/-- Node `d` has finished and has called `ReportFinished` on node `q`: its task
is in the loop over `rdeps_` and `q` is no longer to be told. -/
def Reported {α : Type} (g : ProducerGraph α) (d q : Nat) : Prop :=
  ∃ nd todo, g.node d = some nd ∧ nd.async_future_ = .reporting todo ∧ q ∉ todo

/-- What holds of the node `n` at pointer `p` in every state of an execution of
the graph of the registrations `rs`. -/
structure NodeInv {α : Type} (rs : List (Registration α)) (g : ProducerGraph α) (p : Nat)
    (n : Node α) : Prop where
  coh_blocked : n.state_ = .BLOCKED ↔ n.async_future_ = .idle
  coh_finished : n.state_ = .FINISHED ↔ ∃ todo, n.async_future_ = .reporting todo
  not_aborted : n.async_future_ ≠ .aborted
  fin_iff : ∀ d, d ∈ n.finished_deps_ ↔ d ∈ n.deps_ ∧ Reported g d p
  fin_nodup : n.finished_deps_.Nodup
  canrun : n.state_ ≠ .BLOCKED → n.CanRun = true
  started : n.deps_ ≠ [] → n.CanRun = true → n.state_ ≠ .BLOCKED
  todo_ok : ∀ todo, n.async_future_ = .reporting todo →
    todo.Nodup ∧ ∀ r, r ∈ todo → r ∈ n.rdeps_
  result_iff : n.result_.isSome = true ↔
    (n.async_future_ = .atSetFinished ∨ ∃ todo, n.async_future_ = .reporting todo)
  promise : n.result_promise_.shared = n.result_.map resolutionOf
  launches : n.launches = if n.state_ = .BLOCKED then 0 else 1
  invocations : n.invocations =
    if n.async_future_ = .idle ∨ n.async_future_ = .atRunProducer then 0 else 1
  value : ∀ o, n.result_ = some o → denote rs p = some o
  escaped : ∀ e, n.async_future_ = .escaped e → denote rs p = none ∧ n.result_ = none

/-- What holds in every state of an execution of the graph of the registrations `rs`. -/
structure Inv {α : Type} (rs : List (Registration α)) (s : Sys α) : Prop where
  topo : Topo s.graph
  wired : Wired rs s.graph
  nodes : ∀ p n, s.graph.node p = some n → NodeInv rs s.graph p n
  pending : ∀ p, p ∈ s.pending → p < s.graph.nodes_.length
  checked : ∀ p, p ∈ s.checked → ∃ n, s.graph.node p = some n ∧ n.CanRun = true

/-- The fields of a node that an execution does not change. -/
def SameStatic {α : Type} (n n1 : Node α) : Prop :=
  n1.id_ = n.id_ ∧ n1.name_ = n.name_ ∧ n1.deps_ = n.deps_ ∧ n1.rdeps_ = n.rdeps_ ∧
    n1.producer_ = n.producer_

/-- The node a report leaves at the reverse dependency: the reporting node is
added to `finished_deps_`, and the node is launched when that was the last one. -/
def reportedNode {α : Type} (nr : Node α) (p : Nat) : Node α :=
  if ({ nr with finished_deps_ := nr.finished_deps_ ++ [p] } : Node α).CanRun = true then
    { nr with finished_deps_ := nr.finished_deps_ ++ [p], state_ := .RUNNING,
              async_future_ := .atRunProducer, launches := nr.launches + 1 }
  else { nr with finished_deps_ := nr.finished_deps_ ++ [p] }

/-- The graph after node `p`, with `todo` to tell, has reported to `r`. -/
def afterReport {α : Type} (g : ProducerGraph α) (p r : Nat) (n nr : Node α)
    (todo : List Nat) : ProducerGraph α :=
  (g.setNode r (reportedNode nr p)).setNode p
    { n with async_future_ := .reporting (todo.erase r) }

/-- The internal steps as they happen in a state that satisfies the invariant:
`Effect s l u` describes the state `u` after the step `l` from `s`. -/
inductive Effect {α : Type} (s : Sys α) : Label → Sys α → Prop where
  | startCanRun (p : Nat) (n : Node α) :
      p ∈ s.pending → s.graph.node p = some n →
      Effect s (.startCanRun p)
        { s with pending := s.pending.erase p,
                 checked := if n.CanRun = true then p :: s.checked else s.checked }
  | startLaunch (p : Nat) (n : Node α) :
      p ∈ s.checked → s.graph.node p = some n → n.CanRun = true →
      n.state_ = .BLOCKED → n.async_future_ = .idle →
      Effect s (.startTrySetRunning p)
        { s with checked := s.checked.erase p,
                 graph := s.graph.setNode p
                   { n with state_ := .RUNNING, async_future_ := .atRunProducer,
                            launches := n.launches + 1 } }
  | startNoop (p : Nat) (n : Node α) :
      p ∈ s.checked → s.graph.node p = some n → n.state_ ≠ .BLOCKED →
      Effect s (.startTrySetRunning p)
        { s with checked := s.checked.erase p, graph := s.graph.setNode p n }
  | produced (p : Nat) (n : Node α) (o : Output α) :
      s.graph.node p = some n → n.async_future_ = .atRunProducer → n.state_ = .RUNNING →
      recorded (n.producer_ s.graph.view) = some o →
      Effect s (.runProducer p)
        { s with graph := s.graph.setNode p
                   { n with invocations := n.invocations + 1, result_ := some o,
                            result_promise_ := ⟨some (resolutionOf o)⟩,
                            async_future_ := .atSetFinished } }
  | escaped (p : Nat) (n : Node α) (t : Nat) :
      s.graph.node p = some n → n.async_future_ = .atRunProducer → n.state_ = .RUNNING →
      n.producer_ s.graph.view = .threw (.other t) →
      Effect s (.runProducer p)
        { s with graph := s.graph.setNode p
                   { n with invocations := n.invocations + 1,
                            async_future_ := .escaped (.other t) } }
  | setFinished (p : Nat) (n : Node α) :
      s.graph.node p = some n → n.async_future_ = .atSetFinished → n.state_ = .RUNNING →
      Effect s (.setFinished p)
        { s with graph := s.graph.setNode p
                   { n with state_ := .FINISHED, async_future_ := .reporting n.rdeps_ } }
  | report (p r : Nat) (n nr : Node α) (todo : List Nat) :
      s.graph.node p = some n → n.async_future_ = .reporting todo → r ∈ todo →
      s.graph.node r = some nr → p < r → p ∈ nr.deps_ → p ∉ nr.finished_deps_ →
      nr.state_ = .BLOCKED → nr.async_future_ = .idle →
      Effect s (.reportFinished p r) { s with graph := afterReport s.graph p r n nr todo }

/-- Number of steps the task of a node can still take, plus one while the node
can still be launched. -/
def nodeMeasure {α : Type} (n : Node α) : Nat :=
  match n.async_future_ with
  | .idle => n.rdeps_.length + 4
  | .atRunProducer => n.rdeps_.length + 3
  | .atSetFinished => n.rdeps_.length + 2
  | .reporting todo => todo.length + 1
  | .escaped _ => 0
  | .aborted => 0

/-- A bound on the number of internal steps an execution can still take. -/
def measure {α : Type} (s : Sys α) : Nat :=
  2 * s.pending.length + s.checked.length + (s.graph.nodes_.map nodeMeasure).sum

/-- What holds, besides `Inv`, while the loop of one call of `Execute` runs over
the set `T` of nodes: `Start()` is only called on nodes of `T`, a node without
dependencies is launched only from that loop, and the loop has yet to reach
every such node of `T` that is still blocked. -/
structure RunInv {α : Type} (T : List Nat) (s : Sys α) : Prop where
  pending : ∀ p, p ∈ s.pending → p ∈ T
  checked : ∀ p, p ∈ s.checked → p ∈ T
  root_waits : ∀ p n, s.graph.node p = some n → n.deps_ = [] → p ∈ T →
    n.state_ = .BLOCKED → p ∈ s.pending ∨ p ∈ s.checked
  root_launched : ∀ p n, s.graph.node p = some n → n.deps_ = [] →
    n.state_ ≠ .BLOCKED → p ∈ T

/-- Node `p` finishes in an execution that calls `Start()` on the nodes of `T`:
it is launched (it is a node of `T` when it has no handles, and all the nodes of
its handles finish) and its producer yields an output that is recorded. -/
inductive Finishes {α : Type} (rs : List (Registration α)) (T : List Nat) : Nat → Prop where
  | mk (p : Nat) (r : Registration α) : rs[p]? = some r →
      (r.node_handles = [] → p ∈ T) →
      (∀ h, h ∈ r.node_handles → Finishes rs T h) →
      (denote rs p).isSome = true → Finishes rs T p

/-- Node `p` is launched in an execution that calls `Start()` on the nodes of `T`. -/
def Launched {α : Type} (rs : List (Registration α)) (T : List Nat) (p : Nat) : Prop :=
  ∃ r, rs[p]? = some r ∧ (r.node_handles = [] → p ∈ T) ∧
    ∀ h, h ∈ r.node_handles → Finishes rs T h

/-- The task of the node takes no further step: it was never launched, or it
ended, by the end of the loop over `rdeps_`, by an exception or by an abort. -/
def Node.ended {α : Type} (n : Node α) : Bool :=
  match n.async_future_ with
  | .idle => true
  | .reporting [] => true
  | .escaped _ => true
  | .aborted => true
  | _ => false

/-! ## Graphs whose producers return values -/

/-- One call of `AddProducer` with a producer that reads its inputs with `get()`
and returns the value `compute` yields from them. -/
structure ValueRegistration (α : Type) where
  name : String
  compute : List α → α
  node_handles : List Nat

/-- The call of `AddProducer` of a `ValueRegistration`. -/
def ValueRegistration.toRegistration {α : Type} (r : ValueRegistration α) : Registration α :=
  { name := r.name, f := valueProducer r.compute, node_handles := r.node_handles }

/-- The value of node `k` from the values `tbl` of the nodes before it: its
function applied to the values of the nodes of its handles, in declared order. -/
def valueStep {α : Type} (vrs : List (ValueRegistration α)) (tbl : List (Option α))
    (k : Nat) : Option α :=
  match vrs[k]? with
  | none => none
  | some r => (gather (fun h => (tbl[h]?).join) r.node_handles).map r.compute

/-- Compositional evaluation `value(n) = f_n(value(d1), ..., value(dk))`, where
`d1 .. dk` are the nodes of the handles supplied at the registration of `n`, in
that order. -/
def value {α : Type} (vrs : List (ValueRegistration α)) (p : Nat) : Option α :=
  valueStep vrs (memoTable (valueStep vrs) p) p

/-- The calls of `BasicGraph` as calls with producers that return values. -/
def BasicGraphValues : List (ValueRegistration TestVal) :=
  [ ⟨"", fun _ => .int 7, []⟩,
    ⟨"", fun _ => .int 10, []⟩,
    ⟨"", addNumbers, [0, 1]⟩,
    ⟨"", messageText, [2]⟩ ]

/-! ## Inputs used to exercise the code -/

/-- A producer `Output<int> P()` whose body is `throw 42;`: it throws an object
that is not a `std::exception`. -/
def ThrowingInt : ProducerFn TestVal := fun _ =>
  .error (.other 42)

/-- The calls `f = AddProducer(&ThrowingInt)` and `g = AddProducer(&MessageForNumber, f)`:
the graph of `ThrowingGraph` with a root that throws an `int`. -/
def ThrowingIntGraph : List (Registration TestVal) :=
  [ ⟨"", ThrowingInt, []⟩,
    ⟨"", MessageForNumber, [0]⟩ ]

/-- The calls `a = AddProducer(&ExpensiveProduceNumber)`, `b = AddProducer(&MessageForNumber, a)`
and `c = AddProducer(&MessageForNumber, a)`: two consumers of one root. -/
def SharedRootGraph : List (Registration TestVal) :=
  [ ⟨"", ExpensiveProduceNumber, []⟩,
    ⟨"", MessageForNumber, [0]⟩,
    ⟨"", MessageForNumber, [0]⟩ ]

/-- The graph built from a list of calls of `AddProducer` that is known to
succeed; the new graph otherwise. -/
def builtGraph {α : Type} (rs : List (Registration α)) : ProducerGraph α :=
  (build rs).getD ProducerGraph.new

/-- The state after a list of steps from a fresh graph; the fresh graph when a
step of the list is not enabled. -/
def stateAfter {α : Type} (g : ProducerGraph α) (ls : List Label) : Sys α :=
  (runSteps ls (Sys.fresh g)).getD (Sys.fresh g)

/-- The node at a pointer that is known to be valid; a new node otherwise. -/
def nodeAt {α : Type} (s : Sys α) (p : Nat) : Node α :=
  (s.graph.node p).getD (Node.new 0 "" (fun _ => .undefined) [])

/-- An execution of `BasicGraph` after `Execute(message)`, up to the launch of
`sum` by the report of `right`. -/
def basicStepsToSum : List Label :=
  [.execute 3, .startCanRun 3, .startCanRun 2, .startCanRun 0, .startTrySetRunning 0,
   .runProducer 0, .setFinished 0, .reportFinished 0 2, .startCanRun 1,
   .startTrySetRunning 1, .runProducer 1, .setFinished 1, .reportFinished 1 2]

/-- The steps of a whole execution of `BasicGraph` after `Execute(message)`. -/
def basicStepsToEnd : List Label :=
  [.startCanRun 3, .startCanRun 2, .startCanRun 0, .startTrySetRunning 0,
   .runProducer 0, .setFinished 0, .reportFinished 0 2, .startCanRun 1,
   .startTrySetRunning 1, .runProducer 1, .setFinished 1, .reportFinished 1 2,
   .runProducer 2, .setFinished 2, .reportFinished 2 3, .runProducer 3, .setFinished 3]

/-- An execution of `SharedRootGraph` with `Execute(b)`, up to the reports of
the root `a` to its two reverse dependencies `b` and `c`. -/
def sharedSteps : List Label :=
  [.execute 1, .startCanRun 0, .startTrySetRunning 0, .startCanRun 1, .runProducer 0,
   .setFinished 0, .reportFinished 0 1, .reportFinished 0 2]

/-- A whole execution of `ThrowingIntGraph` with `Execute(g)`: the loop of
`Execute` visits both nodes, the root is launched and its producer throws. -/
def throwingIntSteps : List Label :=
  [.execute 1, .startCanRun 1, .startCanRun 0, .startTrySetRunning 0, .runProducer 0]

/-! ## Unchecked readers and registrations that differ at one call -/

/-- The function `f` calls `get()` on its input number `i` and does not catch
what that call throws: when `get()` on that input throws, the exception leaves
`f`. -/
def ReadsUnchecked {α : Type} (f : ProducerFn α) (i : Nat) : Prop :=
  ∀ (ins : List (Input α)) (x : Input α) (e : Exception),
    ins[i]? = some x → x.get = .error e → f ins = .error e

/-- Node `p` ends a chain of unchecked readers that starts at a root whose
function returns an `Error`: every node of the chain after the root calls
`get()` without a check on the input bound to the node before it. -/
inductive Poisoned {α : Type} (rs : List (Registration α)) : Nat → Prop where
  | root (p : Nat) (r : Registration α) (err : Error) : rs[p]? = some r →
      r.node_handles = [] → r.f [] = .ok (Output.ofError err) → Poisoned rs p
  | reader (p : Nat) (r : Registration α) (i h : Nat) : rs[p]? = some r →
      r.node_handles[i]? = some h → ReadsUnchecked r.f i → Poisoned rs h → Poisoned rs p

/-- The node has not run its producer yet: no output, promise unresolved. -/
def Node.unresolved {α : Type} (n : Node α) : Prop :=
  n.result_ = none ∧ n.result_promise_.shared = none

/-- The node holds an `Error` and its promise holds the exception that
`RunProducer` stores for an `Error`. -/
def Node.failed {α : Type} (n : Node α) : Prop :=
  ∃ o, n.result_ = some o ∧ o.IsError = true ∧
    n.result_promise_.shared = some (.exception (.std "Producer ran and produced an error"))

/-- The task of the node has not ended by an exception that left `Run()` or by
an abort. -/
def Node.intact {α : Type} (n : Node α) : Prop :=
  n.async_future_ ≠ .aborted ∧ ∀ e, n.async_future_ ≠ .escaped e

/-- No producer of the nodes of `T` throws an object that is not a
`std::exception`, whatever its inputs. -/
def NoForeignFault {α : Type} (rs : List (Registration α)) (T : List Nat) : Prop :=
  ∀ q, q ∈ T → ∀ (r : Registration α), rs[q]? = some r →
    ∀ (ins : List (Input α)) (tag : Nat), r.f ins ≠ .error (.other tag)

/-- The calls `rs1` and `rs2` of `AddProducer` are the same but for the function
of call number `x`. -/
def SameExceptAt {α : Type} (rs1 rs2 : List (Registration α)) (x : Nat) : Prop :=
  rs1.length = rs2.length ∧
    ∀ (q : Nat) (r1 r2 : Registration α), rs1[q]? = some r1 → rs2[q]? = some r2 →
      r1.name = r2.name ∧ r1.node_handles = r2.node_handles ∧ (q ≠ x → r1.f = r2.f)

/-- The calls of `BasicGraph` with `ErrorProducer` in the place of the producer
of `left`. -/
def BasicGraphWithError : List (Registration TestVal) :=
  [ ⟨"", ErrorProducer, []⟩,
    ⟨"", ProduceOtherNumber, []⟩,
    ⟨"", ExpensiveAdd, [0, 1]⟩,
    ⟨"", MessageForNumber, [2]⟩ ]

/-! ## Causal chains, operations on one node, handles returned by `AddProducer` -/

/-- The errors of the causal chain of an error: the error itself, its cause, the
cause of its cause, and so on. -/
def Error.causes : Error → List Error
  | .mk none message_ => [.mk none message_]
  | .mk (some cause_) message_ => .mk (some cause_) message_ :: cause_.causes

/-- The position of a state in the order `BLOCKED`, `RUNNING`, `FINISHED`. -/
def NodeState.rank : NodeState → Nat
  | .BLOCKED => 0
  | .RUNNING => 1
  | .FINISHED => 2

/-- A call of one of the methods of `NodeBase` that read or write `state_`. -/
inductive NodeOp where
  | TrySetRunning
  | Start
  | SetFinished
  | ReportFinished (node : Nat)
deriving DecidableEq, Repr

/-- The node after a call of a method; `none` when an `assert` of the method fails. -/
def NodeOp.apply {α : Type} (op : NodeOp) (n : Node α) : Option (Node α) :=
  match op with
  | .TrySetRunning => some n.TrySetRunning.2
  | .Start => some n.Start
  | .SetFinished => n.SetFinished
  | .ReportFinished node => n.ReportFinished node

/-- The node after a sequence of calls of methods. -/
def applyOps {α : Type} : List NodeOp → Node α → Option (Node α)
  | [], n => some n
  | op :: ops, n =>
      match op.apply n with
      | none => none
      | some n1 => applyOps ops n1

/-- The graph after a sequence of calls of `AddProducer` on the graph `g`, with
the ids of the handles the calls return, in order. -/
def registerFrom {α : Type} (g : ProducerGraph α) :
    List (Registration α) → Option (ProducerGraph α × List Nat)
  | [] => some (g, [])
  | r :: rs =>
      match g.AddProducer r.name r.f r.node_handles with
      | none => none
      | some (g1, id) =>
          match registerFrom g1 rs with
          | none => none
          | some (g2, ids) => some (g2, id :: ids)

/-- The graph after a sequence of calls of `AddProducer` on a new graph, with the
ids of the handles the calls return. -/
def register {α : Type} (rs : List (Registration α)) : Option (ProducerGraph α × List Nat) :=
  registerFrom ProducerGraph.new rs

/-- Method `NodeBase::TransitiveDepsInternal` with a log that is not in the
source: `log` lists, in order, the nodes on which the call got past the check
`result->find(this) != result->end()` and executed `result->insert(this)`. -/
def ProducerGraph.TransitiveDepsLogged {α : Type} (g : ProducerGraph α) :
    Nat → Nat → List Nat × List Nat → List Nat × List Nat
  | 0, _, st => st
  | fuel + 1, this, (result, log) =>
      if this ∈ result then (result, log)
      else
        (g.depsOf this).foldl (fun acc dep => g.TransitiveDepsLogged fuel dep acc)
          (setInsert this result, log ++ [this])

/-- The calls `e = AddProducer(&ErrorProducer)`, `t = AddProducer(&ThrowingInt)` and
`r = AddProducer(&ExpensiveAdd, e, t)`: a reader of an `Error` that has a second
dependency, whose producer throws an `int`. -/
def ErrorAndThrowingIntGraph : List (Registration TestVal) :=
  [ ⟨"", ErrorProducer, []⟩,
    ⟨"", ThrowingInt, []⟩,
    ⟨"", ExpensiveAdd, [0, 1]⟩ ]

/-- An execution of `ErrorAndThrowingIntGraph` with `Execute(r)`, to its end:
`e` records its `Error` and reports to `r`, and the producer of `t` throws. -/
def errorAndThrowingIntSteps : List Label :=
  [.execute 2, .startCanRun 2, .startCanRun 0, .startCanRun 1, .startTrySetRunning 0,
   .startTrySetRunning 1, .runProducer 0, .setFinished 0, .reportFinished 0 2,
   .runProducer 1]

/-- A diamond: `d`; `b = ExpensiveAdd(d, d)`; `c = ExpensiveAdd(d, d)`;
`a = ExpensiveAdd(b, c)`, with the ids 0, 1, 2 and 3. -/
def DiamondGraph : List (Registration TestVal) :=
  [ ⟨"", ExpensiveProduceNumber, []⟩,
    ⟨"", ExpensiveAdd, [0, 0]⟩,
    ⟨"", ExpensiveAdd, [0, 0]⟩,
    ⟨"", ExpensiveAdd, [1, 2]⟩ ]

/-! ## `RunProducer` -/

theorem resolvePromise_fresh {α : Type} (n : Node α) (o : Output α)
    (hres : n.result_ = some o) (hfresh : n.result_promise_.shared = none) :
    n.resolvePromise = .normal { n with result_promise_ := ⟨some (resolutionOf o)⟩ } := by
  cases o with
  | ofValue v =>
      simp [Node.resolvePromise, hres, Node.resolveBody, Output.IsError, Output.get,
        Promise.set_value, hfresh, Outcome.ofExcept, resolutionOf]
  | ofError e =>
      simp [Node.resolvePromise, hres, Node.resolveBody, Output.IsError,
        Promise.set_exception, hfresh, resolutionOf]

theorem RunProducer_fresh {α : Type} (n : Node α) (view : View α)
    (hfresh : n.result_promise_.shared = none) :
    n.RunProducer view =
      match n.producer_ view with
      | .undefined => .undefined
      | .threw (.other t) => .escaped (.other t) { n with invocations := n.invocations + 1 }
      | out =>
        match recorded out with
        | some o => .normal { n with invocations := n.invocations + 1, result_ := some o,
                                     result_promise_ := ⟨some (resolutionOf o)⟩ }
        | none => .undefined := by
  unfold Node.RunProducer Node.tryProducer
  cases hout : n.producer_ view with
  | undefined => simp
  | threw e =>
      cases e with
      | other t => simp
      | std w =>
          simp only [recorded]
          exact resolvePromise_fresh _ _ rfl hfresh
  | returned o =>
      simp only [recorded]
      exact resolvePromise_fresh _ _ rfl hfresh

theorem RunProducer_recorded {α : Type} (n : Node α) (view : View α) (o : Output α)
    (hfresh : n.result_promise_.shared = none) (h : recorded (n.producer_ view) = some o) :
    n.RunProducer view =
      .normal { n with invocations := n.invocations + 1, result_ := some o,
                       result_promise_ := ⟨some (resolutionOf o)⟩ } := by
  rw [RunProducer_fresh n view hfresh]
  cases hout : n.producer_ view with
  | undefined => rw [hout] at h; simp [recorded] at h
  | threw e =>
      cases e with
      | other t => rw [hout] at h; simp [recorded] at h
      | std w => rw [hout] at h; simp only [h]
  | returned o1 => rw [hout] at h; simp only [h]

theorem RunProducer_other {α : Type} (n : Node α) (view : View α) (t : Nat)
    (hfresh : n.result_promise_.shared = none) (h : n.producer_ view = .threw (.other t)) :
    n.RunProducer view = .escaped (.other t) { n with invocations := n.invocations + 1 } := by
  rw [RunProducer_fresh n view hfresh, h]

/-! ## Access to the nodes -/

theorem node_lt {α : Type} {g : ProducerGraph α} {p : Nat} {n : Node α}
    (h : g.node p = some n) : p < g.nodes_.length := by
  unfold ProducerGraph.node at h
  exact (List.getElem?_eq_some_iff.mp h).1

theorem node_of_lt {α : Type} {g : ProducerGraph α} {p : Nat}
    (h : p < g.nodes_.length) : ∃ n, g.node p = some n := by
  unfold ProducerGraph.node
  exact ⟨g.nodes_[p], List.getElem?_eq_getElem h⟩

theorem node_setNode {α : Type} (g : ProducerGraph α) (p q : Nat) (n : Node α)
    (h : p < g.nodes_.length) :
    (g.setNode p n).node q = if q = p then some n else g.node q := by
  unfold ProducerGraph.node ProducerGraph.setNode
  simp only [List.getElem?_set]
  by_cases hq : q = p
  · subst hq; simp [h]
  · have : ¬ p = q := fun e => hq e.symm
    simp [hq, this]

theorem length_setNode {α : Type} (g : ProducerGraph α) (p : Nat) (n : Node α) :
    (g.setNode p n).nodes_.length = g.nodes_.length := by
  simp [ProducerGraph.setNode]

theorem lookup_setNode {α : Type} (g : ProducerGraph α) (p : Nat) (n : Node α) (id : Nat) :
    (g.setNode p n).lookup id = g.lookup id := rfl

theorem mem_setInsert {x y : Nat} {s : List Nat} : y ∈ setInsert x s ↔ y = x ∨ y ∈ s := by
  unfold setInsert
  split
  · constructor
    · intro h; exact Or.inr h
    · rintro (h | h)
      · subst h; assumption
      · exact h
  · simp [or_comm]

theorem nodup_setInsert {x : Nat} {s : List Nat} (h : s.Nodup) : (setInsert x s).Nodup := by
  unfold setInsert
  split
  · exact h
  · rw [List.nodup_append]
    refine ⟨h, by simp, ?_⟩
    intro a ha hb
    simp at hb
    subst hb
    contradiction

/-! ## Graphs built by `AddProducer` -/

theorem length_addReverseDeps {α : Type} (this : Nat) (deps : List Nat) (nodes : List (Node α)) :
    (addReverseDeps this deps nodes).length = nodes.length := by
  induction deps generalizing nodes with
  | nil => rfl
  | cons d ds ih =>
      unfold addReverseDeps
      split
      · rw [ih]; simp
      · exact ih _

theorem getElem?_addReverseDeps {α : Type} (this : Nat) (deps : List Nat)
    (nodes : List (Node α)) (q : Nat) :
    ∃ extra : List Nat, (∀ x, x ∈ extra → x = this) ∧ (q ∈ deps → q < nodes.length → this ∈ extra) ∧
      (q ∉ deps → extra = []) ∧
      (addReverseDeps this deps nodes)[q]? =
        (nodes[q]?).map (fun n => { n with rdeps_ := extra.foldl (fun s x => setInsert x s) n.rdeps_ }) := by
  induction deps generalizing nodes with
  | nil =>
      refine ⟨[], by simp, by simp, by simp, ?_⟩
      unfold addReverseDeps
      cases nodes[q]? <;> simp
  | cons d ds ih =>
      unfold addReverseDeps
      cases hd : nodes[d]? with
      | none =>
          obtain ⟨extra, h1, h2, h3, h4⟩ := ih nodes
          refine ⟨extra, h1, ?_, ?_, h4⟩
          · intro hq hlt
            rcases List.mem_cons.mp hq with e | e
            · subst e
              have := (List.getElem?_eq_none_iff.mp hd)
              omega
            · exact h2 e hlt
          · intro hq
            exact h3 (fun e => hq (List.mem_cons_of_mem _ e))
      | some n =>
          obtain ⟨extra, h1, h2, h3, h4⟩ := ih (nodes.set d (n.AddReverseDep this))
          simp only
          by_cases hqd : q = d
          · subst hqd
            refine ⟨this :: extra, ?_, ?_, ?_, ?_⟩
            · intro x hx
              rcases List.mem_cons.mp hx with e | e
              · exact e
              · exact h1 x e
            · intro _ _; simp
            · intro hq; simp at hq
            · rw [h4]
              have hlt := (List.getElem?_eq_some_iff.mp hd).1
              simp [List.getElem?_set, hlt, hd, Node.AddReverseDep]
          · refine ⟨extra, h1, ?_, ?_, ?_⟩
            · intro hq hlt
              rcases List.mem_cons.mp hq with e | e
              · exact absurd e hqd
              · exact h2 e (by simpa using hlt)
            · intro hq
              exact h3 (fun e => hq (List.mem_cons_of_mem _ e))
            · rw [h4]
              have : ¬ d = q := fun e => hqd e.symm
              simp [List.getElem?_set, this]

theorem foldl_setInsert_same (this : Nat) (extra : List Nat) (h : ∀ x, x ∈ extra → x = this)
    (s : List Nat) :
    (∀ r, r ∈ extra.foldl (fun s x => setInsert x s) s ↔ r ∈ s ∨ (r = this ∧ extra ≠ [])) ∧
    (s.Nodup → (extra.foldl (fun s x => setInsert x s) s).Nodup) := by
  induction extra generalizing s with
  | nil => simp
  | cons e es ih =>
      have he : e = this := h e (List.mem_cons_self _ _)
      have hes : ∀ x, x ∈ es → x = this := fun x hx => h x (List.mem_cons_of_mem _ hx)
      obtain ⟨h1, h2⟩ := ih hes (setInsert e s)
      constructor
      · intro r
        rw [List.foldl_cons, h1, mem_setInsert, he]
        constructor
        · rintro ((h | h) | ⟨h, _⟩)
          · exact Or.inr ⟨h, by simp⟩
          · exact Or.inl h
          · exact Or.inr ⟨h, by simp⟩
        · rintro (h | ⟨h, _⟩)
          · exact Or.inl (Or.inr h)
          · exact Or.inl (Or.inl h)
      · intro hs
        exact h2 (nodup_setInsert hs)

theorem addReverseDeps_spec {α : Type} (this : Nat) (deps : List Nat)
    (nodes : List (Node α)) (q : Nat) (n : Node α) (hq : nodes[q]? = some n) :
    ∃ rd : List Nat, (addReverseDeps this deps nodes)[q]? = some { n with rdeps_ := rd } ∧
      (∀ r, r ∈ rd ↔ r ∈ n.rdeps_ ∨ (r = this ∧ q ∈ deps)) ∧ (n.rdeps_.Nodup → rd.Nodup) := by
  obtain ⟨extra, h1, h2, h3, h4⟩ := getElem?_addReverseDeps this deps nodes q
  have hlt := (List.getElem?_eq_some_iff.mp hq).1
  obtain ⟨f1, f2⟩ := foldl_setInsert_same this extra h1 n.rdeps_
  refine ⟨_, by rw [h4, hq]; rfl, ?_, f2⟩
  intro r
  rw [f1]
  constructor
  · rintro (h | ⟨h, hne⟩)
    · exact Or.inl h
    · refine Or.inr ⟨h, ?_⟩
      by_contra hc
      exact hne (h3 hc)
  · rintro (h | ⟨h, hd⟩)
    · exact Or.inl h
    · refine Or.inr ⟨h, ?_⟩
      have := h2 hd hlt
      intro e; rw [e] at this; simp at this

theorem handleNodes_spec {α : Type} (g : ProducerGraph α)
    (hl : ∀ id, g.lookup id = if id < g.nodes_.length then some id else none)
    (ids acc nodes : List Nat) (h : g.handleNodes ids acc = some nodes) :
    (∀ id, id ∈ ids → id < g.nodes_.length) ∧ (∀ x, x ∈ nodes ↔ x ∈ acc ∨ x ∈ ids) ∧
      (acc.Nodup → nodes.Nodup) := by
  induction ids generalizing acc with
  | nil =>
      simp [ProducerGraph.handleNodes] at h
      subst h
      simp
  | cons id ids ih =>
      unfold ProducerGraph.handleNodes at h
      rw [hl id] at h
      by_cases hid : id < g.nodes_.length
      · simp only [hid, if_true] at h
        obtain ⟨h1, h2, h3⟩ := ih _ h
        refine ⟨?_, ?_, ?_⟩
        · intro x hx
          rcases List.mem_cons.mp hx with e | e
          · subst e; exact hid
          · exact h1 x e
        · intro x
          rw [h2, mem_setInsert]
          simp only [List.mem_cons]
          tauto
        · intro ha
          exact h3 (nodup_setInsert ha)
      · simp [hid] at h

theorem node_extend_old {α : Type} (g : ProducerGraph α) (name : String) (c : Closure α)
    (nodes : List Nat) (q : Nat) (n0 : Node α) (h : g.node q = some n0) :
    ∃ rd : List Nat, (extend g name c nodes).node q = some { n0 with rdeps_ := rd } ∧
      (∀ r, r ∈ rd ↔ r ∈ n0.rdeps_ ∨ (r = g.nodes_.length ∧ q ∈ nodes)) ∧
      (n0.rdeps_.Nodup → rd.Nodup) := by
  obtain ⟨rd, h1, h2, h3⟩ := addReverseDeps_spec g.nodes_.length nodes g.nodes_ q n0 h
  refine ⟨rd, ?_, h2, h3⟩
  unfold ProducerGraph.node extend
  simp only
  rw [List.getElem?_append_left]
  · exact h1
  · rw [length_addReverseDeps]; exact node_lt h

theorem node_extend_new {α : Type} (g : ProducerGraph α) (name : String) (c : Closure α)
    (nodes : List Nat) :
    (extend g name c nodes).node g.nodes_.length = some (Node.new g.next_id_ name c nodes) := by
  unfold ProducerGraph.node extend
  simp only
  rw [List.getElem?_append_right (by rw [length_addReverseDeps])]
  simp [length_addReverseDeps]

theorem node_extend_cases {α : Type} (g : ProducerGraph α) (name : String) (c : Closure α)
    (nodes : List Nat) (q : Nat) (n : Node α) (h : (extend g name c nodes).node q = some n) :
    (q = g.nodes_.length ∧ n = Node.new g.next_id_ name c nodes) ∨
    (q < g.nodes_.length ∧ ∃ n0 rd, g.node q = some n0 ∧ n = { n0 with rdeps_ := rd } ∧
      (∀ r, r ∈ rd ↔ r ∈ n0.rdeps_ ∨ (r = g.nodes_.length ∧ q ∈ nodes)) ∧
      (n0.rdeps_.Nodup → rd.Nodup)) := by
  have hlt := node_lt h
  have hlen : (extend g name c nodes).nodes_.length = g.nodes_.length + 1 := by
    simp [extend, length_addReverseDeps]
  rw [hlen] at hlt
  rcases Nat.lt_succ_iff_lt_or_eq.mp hlt with hq | hq
  · right
    obtain ⟨n0, hn0⟩ := node_of_lt hq
    obtain ⟨rd, h1, h2, h3⟩ := node_extend_old g name c nodes q n0 hn0
    rw [h1] at h
    exact ⟨hq, n0, rd, hn0, (Option.some.inj h).symm, h2, h3⟩
  · left
    subst hq
    rw [node_extend_new] at h
    exact ⟨rfl, (Option.some.inj h).symm⟩

theorem built_extend {α : Type} (rs : List (Registration α)) (g : ProducerGraph α)
    (hb : Built rs g) (r : Registration α) (name : String) (nodes : List Nat)
    (hlt : ∀ x, x ∈ nodes → x < g.nodes_.length) (hnd : nodes.Nodup)
    (hmem : ∀ x, x ∈ nodes ↔ x ∈ r.node_handles) :
    Built (rs ++ [r]) (extend g name (bindClosure r.f r.node_handles) nodes) := by
  obtain ⟨ht, hw, hf⟩ := hb
  have hlen : (extend g name (bindClosure r.f r.node_handles) nodes).nodes_.length
      = g.nodes_.length + 1 := by
    simp [extend, length_addReverseDeps]
  refine ⟨⟨?_, ?_, ?_, ?_, ?_, ?_, ?_⟩, ⟨?_, ?_⟩, ?_⟩
  · rw [hlen]; simp [extend, ht.next]
  · intro id
    rw [hlen]
    have h0 := ht.lookup id
    unfold ProducerGraph.lookup at h0 ⊢
    simp only [extend, List.lookup_cons, ht.next]
    by_cases hid : id = g.nodes_.length
    · subst hid; simp
    · have : (id == g.nodes_.length) = false := by simpa using hid
      rw [this, h0]
      by_cases h1 : id < g.nodes_.length
      · have : id < g.nodes_.length + 1 := by omega
        simp [h1, this]
      · have : ¬ id < g.nodes_.length + 1 := by omega
        simp [h1, this]
  · intro p n hn
    rcases node_extend_cases _ _ _ _ _ _ hn with ⟨hp, he⟩ | ⟨_, n0, rd, h0, he, _, _⟩
    · subst he; rw [hp]; simp [Node.new, ht.next]
    · subst he; exact ht.id p n0 h0
  · intro p n hn d hd
    rcases node_extend_cases _ _ _ _ _ _ hn with ⟨hp, he⟩ | ⟨_, n0, rd, h0, he, _, _⟩
    · subst he; rw [hp]; exact hlt d hd
    · subst he; exact ht.deps_lt p n0 h0 d hd
  · intro p n hn
    rcases node_extend_cases _ _ _ _ _ _ hn with ⟨hp, he⟩ | ⟨_, n0, rd, h0, he, _, _⟩
    · subst he; exact hnd
    · subst he; exact ht.deps_nodup p n0 h0
  · intro p n hn
    rcases node_extend_cases _ _ _ _ _ _ hn with ⟨hp, he⟩ | ⟨_, n0, rd, h0, he, _, h3⟩
    · subst he; simp [Node.new]
    · subst he; exact h3 (ht.rdeps_nodup p n0 h0)
  · intro p n r' hn
    rcases node_extend_cases _ _ _ _ _ _ hn with ⟨hp, he⟩ | ⟨hplt, n0, rd, h0, he, h2, _⟩
    · subst he
      simp only [Node.new, List.not_mem_nil, false_iff]
      rintro ⟨nr, hnr, hpr⟩
      rcases node_extend_cases _ _ _ _ _ _ hnr with ⟨hr, he⟩ | ⟨hrlt, nr0, rd, hr0, he, _, _⟩
      · subst he
        have := hlt p hpr
        omega
      · subst he
        have := ht.deps_lt r' nr0 hr0 p hpr
        omega
    · subst he
      simp only
      rw [h2, ht.rdeps_iff p n0 r' h0]
      constructor
      · rintro (⟨nr0, hr0, hp0⟩ | ⟨hr, hpn⟩)
        · obtain ⟨rd', h1', _, _⟩ := node_extend_old g name (bindClosure r.f r.node_handles)
            nodes r' nr0 hr0
          exact ⟨_, h1', hp0⟩
        · subst hr
          exact ⟨_, node_extend_new _ _ _ _, hpn⟩
      · rintro ⟨nr, hnr, hpr⟩
        rcases node_extend_cases _ _ _ _ _ _ hnr with ⟨hr, he⟩ | ⟨hrlt, nr0, rd', hr0, he, _, _⟩
        · subst he
          exact Or.inr ⟨hr, hpr⟩
        · subst he
          exact Or.inl ⟨nr0, hr0, hpr⟩
  · rw [hlen, hw.len]; simp
  · intro p n hn
    rcases node_extend_cases _ _ _ _ _ _ hn with ⟨hp, he⟩ | ⟨hplt, n0, rd, h0, he, _, _⟩
    · subst he
      refine ⟨r, ?_, rfl, hmem⟩
      rw [hp, hw.len]
      simp
    · subst he
      obtain ⟨r0, hr0, hc, hd⟩ := hw.wired p n0 h0
      refine ⟨r0, ?_, hc, hd⟩
      rw [List.getElem?_append_left (by rw [← hw.len]; exact hplt)]
      exact hr0
  · intro p n hn
    rcases node_extend_cases _ _ _ _ _ _ hn with ⟨hp, he⟩ | ⟨hplt, n0, rd, h0, he, _, _⟩
    · subst he; simp [Node.new]
    · subst he; exact hf p n0 h0

theorem AddProducer_built {α : Type} (rs : List (Registration α)) (g : ProducerGraph α)
    (hb : Built rs g) (r : Registration α) (g1 : ProducerGraph α) (id : Nat)
    (h : g.AddProducer r.name r.f r.node_handles = some (g1, id)) :
    Built (rs ++ [r]) g1 ∧ id = rs.length := by
  have hnext : g.next_id_ = rs.length := by rw [hb.topo.next, hb.wired.len]
  unfold ProducerGraph.AddProducer at h
  cases hh : r.node_handles with
  | nil =>
      rw [hh] at h
      simp only [ProducerGraph.AddProducerRoot, Option.some.injEq, Prod.mk.injEq] at h
      obtain ⟨h1, h2⟩ := h
      refine ⟨?_, by rw [← h2, hnext]⟩
      have := built_extend rs g hb r (if r.name.isEmpty = true then CreateNodeName g.next_id_
        else r.name) [] (by simp) (by simp) (by simp [hh])
      rw [hh] at this
      rw [← h1]
      exact this
  | cons a tail =>
      rw [hh] at h
      simp only [ProducerGraph.AddProducerBound] at h
      cases hn : g.handleNodes (a :: tail) [] with
      | none => rw [hn] at h; simp at h
      | some nodes =>
          rw [hn] at h
          simp only [Option.some.injEq, Prod.mk.injEq] at h
          obtain ⟨h1, h2⟩ := h
          refine ⟨?_, by rw [← h2, hnext]⟩
          obtain ⟨f1, f2, f3⟩ := handleNodes_spec g hb.topo.lookup _ _ _ hn
          have := built_extend rs g hb r r.name nodes
            (fun x hx => f1 x (by simpa using (f2 x).mp hx)) (f3 (by simp))
            (by intro x; rw [f2 x, hh]; simp)
          rw [hh] at this
          rw [← h1]
          exact this

theorem buildFrom_built {α : Type} (rs : List (Registration α)) :
    ∀ (rs0 : List (Registration α)) (g0 g : ProducerGraph α), Built rs0 g0 →
      buildFrom g0 rs = some g → Built (rs0 ++ rs) g := by
  induction rs with
  | nil =>
      intro rs0 g0 g hb h
      simp [buildFrom] at h
      subst h
      simpa using hb
  | cons r rs ih =>
      intro rs0 g0 g hb h
      unfold buildFrom at h
      cases ha : g0.AddProducer r.name r.f r.node_handles with
      | none => rw [ha] at h; simp at h
      | some x =>
          obtain ⟨g1, id⟩ := x
          rw [ha] at h
          simp only at h
          have := ih (rs0 ++ [r]) g1 g (AddProducer_built rs0 g0 hb r g1 id ha).1 h
          simpa using this

theorem built_new {α : Type} : Built ([] : List (Registration α)) ProducerGraph.new := by
  refine ⟨⟨rfl, ?_, ?_, ?_, ?_, ?_, ?_⟩, ⟨rfl, ?_⟩, ?_⟩ <;>
    simp [ProducerGraph.new, ProducerGraph.node, ProducerGraph.lookup, Fresh]

theorem build_built {α : Type} (rs : List (Registration α)) (g : ProducerGraph α)
    (h : build rs = some g) : Built rs g := by
  have := buildFrom_built rs [] ProducerGraph.new g built_new h
  simpa using this

/-! ## `TransitiveDeps` -/

theorem dep_iff {α : Type} {g : ProducerGraph α} {a b : Nat} :
    Dep g a b ↔ ∃ n, g.node a = some n ∧ b ∈ n.deps_ := by
  unfold Dep ProducerGraph.depsOf
  cases g.node a <;> simp

theorem dep_lt {α : Type} {g : ProducerGraph α} (ht : Topo g) {a b : Nat} (h : Dep g a b) :
    b < a := by
  obtain ⟨n, hn, hb⟩ := dep_iff.mp h
  exact ht.deps_lt a n hn b hb

theorem reaches_le {α : Type} {g : ProducerGraph α} (ht : Topo g) {a b : Nat}
    (h : Reaches g a b) : b ≤ a := by
  induction h with
  | refl => exact le_refl _
  | tail _ hd ih => exact le_trans (le_of_lt (dep_lt ht hd)) ih

theorem closedLt_reaches {α : Type} {g : ProducerGraph α} (ht : Topo g) {n : Nat}
    {v : List Nat} (hc : ClosedLt g n v) {m x : Nat} (hm : m ∈ v) (hlt : m < n)
    (h : Reaches g m x) : x ∈ v := by
  induction h with
  | refl => exact hm
  | @tail b c hab hbc ih =>
      exact hc b ih (lt_of_le_of_lt (reaches_le ht hab) hlt) c hbc

theorem fold_spec {α : Type} {g : ProducerGraph α} (n fuel : Nat)
    (ih : ∀ d, d < n → ∀ v, ClosedLt g (d + 1) v →
      ∀ x, x ∈ g.TransitiveDepsInternal fuel d v ↔ x ∈ v ∨ Reaches g d x)
    (ds : List Nat) :
    ∀ acc : List Nat, (∀ d, d ∈ ds → d < n) → ClosedLt g n acc →
      (∀ x, x ∈ ds.foldl (fun acc dep => g.TransitiveDepsInternal fuel dep acc) acc ↔
        x ∈ acc ∨ ∃ d, d ∈ ds ∧ Reaches g d x) ∧
      ClosedLt g n (ds.foldl (fun acc dep => g.TransitiveDepsInternal fuel dep acc) acc) := by
  induction ds with
  | nil => intro acc _ hc; simpa using hc
  | cons d ds ihds =>
      intro acc hds hc
      have hd : d < n := hds d (List.mem_cons_self _ _)
      have hcd : ClosedLt g (d + 1) acc := fun m hm hlt => hc m hm (by omega)
      have hspec := ih d hd acc hcd
      have hc' : ClosedLt g n (g.TransitiveDepsInternal fuel d acc) := by
        intro m hm hlt e he
        rw [hspec] at hm ⊢
        rcases hm with hm | hm
        · exact Or.inl (hc m hm hlt e he)
        · exact Or.inr (Relation.ReflTransGen.tail hm he)
      obtain ⟨h1, h2⟩ := ihds (g.TransitiveDepsInternal fuel d acc)
        (fun e he => hds e (List.mem_cons_of_mem _ he)) hc'
      refine ⟨?_, h2⟩
      intro x
      rw [List.foldl_cons, h1, hspec]
      simp only [List.mem_cons, exists_eq_or_imp]
      tauto

theorem dfs_spec {α : Type} {g : ProducerGraph α} (ht : Topo g) :
    ∀ n fuel v, n < fuel → ClosedLt g (n + 1) v →
      ∀ x, x ∈ g.TransitiveDepsInternal fuel n v ↔ x ∈ v ∨ Reaches g n x := by
  intro n
  induction n using Nat.strong_induction_on with
  | _ n ih =>
    intro fuel v hfuel hc x
    obtain ⟨f, rfl⟩ : ∃ f, fuel = f + 1 := ⟨fuel - 1, by omega⟩
    unfold ProducerGraph.TransitiveDepsInternal
    by_cases hn : n ∈ v
    · simp only [hn, if_true]
      constructor
      · exact Or.inl
      · rintro (h | h)
        · exact h
        · exact closedLt_reaches ht hc hn (by omega) h
    · simp only [hn, if_false]
      have hc0 : ClosedLt g n (setInsert n v) := by
        intro m hm hlt d hd
        rw [mem_setInsert] at hm ⊢
        rcases hm with hm | hm
        · omega
        · exact Or.inr (hc m hm (by omega) d hd)
      obtain ⟨h1, _⟩ := fold_spec n f
        (fun d hd v' hv' => ih d hd f v' (by omega) hv') (g.depsOf n) (setInsert n v)
        (fun d hd => dep_lt ht hd) hc0
      rw [h1, mem_setInsert]
      constructor
      · rintro ((h | h) | ⟨d, hd, hr⟩)
        · subst h; exact Or.inr Relation.ReflTransGen.refl
        · exact Or.inl h
        · exact Or.inr (Relation.ReflTransGen.head hd hr)
      · rintro (h | h)
        · exact Or.inl (Or.inr h)
        · rcases Relation.ReflTransGen.cases_head h with e | ⟨d, hd, hr⟩
          · exact Or.inl (Or.inl e.symm)
          · exact Or.inr ⟨d, hd, hr⟩

theorem mem_TransitiveDeps {α : Type} {g : ProducerGraph α} (ht : Topo g) (p x : Nat)
    (hp : p < g.nodes_.length) : x ∈ g.TransitiveDeps p ↔ Reaches g p x := by
  unfold ProducerGraph.TransitiveDeps
  rw [dfs_spec ht p _ [] (by omega) (by intro m hm; simp at hm)]
  simp

/-! ## Bound closures and the compositional evaluation -/

theorem BindRecursive_eq {α : Type} (tail : List Nat) :
    ∀ (f : View α → List (Input α) → Outcome (Output α)) (h : Nat) (view : View α)
      (outs : Nat → Output α),
      (∀ id, id ∈ h :: tail → view id = some (some (outs id))) →
      BindRecursive f h tail view = f view ((h :: tail).map fun id => (outs id).AsInput) := by
  induction tail with
  | nil =>
      intro f h view outs hv
      simp [BindRecursive, boundInput, hv h (List.mem_cons_self _ _), Outcome.bind]
  | cons t tail ih =>
      intro f h view outs hv
      unfold BindRecursive
      rw [ih _ t view outs (fun id hid => hv id (List.mem_cons_of_mem _ hid))]
      simp [boundInput, hv h (List.mem_cons_self _ _), Outcome.bind]

theorem bindClosure_eq {α : Type} (f : ProducerFn α) (handles : List Nat) (view : View α)
    (outs : Nat → Output α) (hv : ∀ id, id ∈ handles → view id = some (some (outs id))) :
    bindClosure f handles view =
      Outcome.ofExcept (f (handles.map fun id => (outs id).AsInput)) := by
  cases handles with
  | nil => rfl
  | cons h tail =>
      show BindRecursive _ h tail view = _
      rw [BindRecursive_eq tail _ h view outs hv]

theorem length_memoTable {β : Type} (F : List β → Nat → β) (k : Nat) :
    (memoTable F k).length = k := by
  induction k with
  | zero => rfl
  | succ k ih => simp [memoTable, ih]

theorem memoTable_get {β : Type} (F : List β → Nat → β) (k p : Nat) (h : p < k) :
    (memoTable F k)[p]? = some (F (memoTable F p) p) := by
  induction k with
  | zero => omega
  | succ k ih =>
      rw [show memoTable F (k + 1) = memoTable F k ++ [F (memoTable F k) k] from rfl]
      rcases Nat.lt_succ_iff_lt_or_eq.mp h with hlt | heq
      · rw [List.getElem?_append_left (by rw [length_memoTable]; exact hlt)]
        exact ih hlt
      · subst heq
        rw [List.getElem?_append_right (by rw [length_memoTable])]
        simp [length_memoTable]

theorem gather_congr {β : Type} (v1 v2 : Nat → Option β) (l : List Nat)
    (h : ∀ x, x ∈ l → v1 x = v2 x) : gather v1 l = gather v2 l := by
  induction l with
  | nil => rfl
  | cons a l ih =>
      unfold gather
      rw [h a (List.mem_cons_self _ _), ih (fun x hx => h x (List.mem_cons_of_mem _ hx))]

theorem gather_eq_some {β : Type} (v : Nat → Option β) (l : List Nat)
    (outs : Nat → β) (h : ∀ x, x ∈ l → v x = some (outs x)) :
    gather v l = some (l.map outs) := by
  induction l with
  | nil => rfl
  | cons a l ih =>
      unfold gather
      rw [h a (List.mem_cons_self _ _), ih (fun x hx => h x (List.mem_cons_of_mem _ hx))]
      rfl

theorem gather_eq_none {β : Type} (v : Nat → Option β) (l : List Nat)
    (x : Nat) (hx : x ∈ l) (h : v x = none) : gather v l = none := by
  induction l with
  | nil => simp at hx
  | cons a l ih =>
      unfold gather
      rcases List.mem_cons.mp hx with e | e
      · subst e; rw [h]
      · rw [ih e]; cases v a <;> rfl

theorem denote_unfold {α : Type} (rs : List (Registration α)) (p : Nat) (r : Registration α)
    (hr : rs[p]? = some r) (hlt : ∀ h, h ∈ r.node_handles → h < p) :
    denote rs p =
      match gather (denote rs) r.node_handles with
      | none => none
      | some outs => recorded (Outcome.ofExcept (r.f (outs.map Output.AsInput))) := by
  have h1 : denote rs p = denoteStep rs (memoTable (denoteStep rs) p) p := rfl
  have h2 : gather (fun h => ((memoTable (denoteStep rs) p)[h]?).join) r.node_handles
      = gather (denote rs) r.node_handles := by
    apply gather_congr
    intro x hx
    simp only [memoTable_get _ _ _ (hlt x hx)]
    rfl
  rw [h1, denoteStep, hr]
  simp only
  rw [h2]

/-! ## Updates of a node that keep the topology -/

theorem topo_setNode {α : Type} {g : ProducerGraph α} (ht : Topo g) (p : Nat) (n n1 : Node α)
    (hn : g.node p = some n) (hs : SameStatic n n1) : Topo (g.setNode p n1) := by
  have hlt := node_lt hn
  obtain ⟨h1, _, h3, h4, _⟩ := hs
  have key : ∀ q m, (g.setNode p n1).node q = some m →
      ∃ m0, g.node q = some m0 ∧ m.id_ = m0.id_ ∧ m.deps_ = m0.deps_ ∧ m.rdeps_ = m0.rdeps_ := by
    intro q m hm
    rw [node_setNode g p q n1 hlt] at hm
    by_cases hq : q = p
    · subst hq
      simp only [if_true, Option.some.injEq] at hm
      subst hm
      exact ⟨n, hn, h1, h3, h4⟩
    · simp only [hq, if_false] at hm
      exact ⟨m, hm, rfl, rfl, rfl⟩
  have key2 : ∀ q m0, g.node q = some m0 →
      ∃ m, (g.setNode p n1).node q = some m ∧ m.deps_ = m0.deps_ := by
    intro q m0 hm0
    rw [node_setNode g p q n1 hlt]
    by_cases hq : q = p
    · subst hq
      rw [hn] at hm0
      have := Option.some.inj hm0
      subst this
      exact ⟨n1, by simp, h3⟩
    · exact ⟨m0, by simp [hq, hm0], rfl⟩
  refine ⟨?_, ?_, ?_, ?_, ?_, ?_, ?_⟩
  · rw [length_setNode]; exact ht.next
  · intro id; rw [lookup_setNode, length_setNode]; exact ht.lookup id
  · intro q m hm
    obtain ⟨m0, h0, e1, _, _⟩ := key q m hm
    rw [e1]; exact ht.id q m0 h0
  · intro q m hm d hd
    obtain ⟨m0, h0, _, e2, _⟩ := key q m hm
    rw [e2] at hd; exact ht.deps_lt q m0 h0 d hd
  · intro q m hm
    obtain ⟨m0, h0, _, e2, _⟩ := key q m hm
    rw [e2]; exact ht.deps_nodup q m0 h0
  · intro q m hm
    obtain ⟨m0, h0, _, _, e3⟩ := key q m hm
    rw [e3]; exact ht.rdeps_nodup q m0 h0
  · intro q m r hm
    obtain ⟨m0, h0, _, _, e3⟩ := key q m hm
    rw [e3, ht.rdeps_iff q m0 r h0]
    constructor
    · rintro ⟨nr, hnr, hq⟩
      obtain ⟨nr1, hnr1, e⟩ := key2 r nr hnr
      exact ⟨nr1, hnr1, by rw [e]; exact hq⟩
    · rintro ⟨nr, hnr, hq⟩
      obtain ⟨nr0, hnr0, _, e, _⟩ := key r nr hnr
      exact ⟨nr0, hnr0, by rw [← e]; exact hq⟩

theorem wired_setNode {α : Type} {rs : List (Registration α)} {g : ProducerGraph α}
    (hw : Wired rs g) (p : Nat) (n n1 : Node α)
    (hn : g.node p = some n) (hs : SameStatic n n1) : Wired rs (g.setNode p n1) := by
  have hlt := node_lt hn
  obtain ⟨_, _, h3, _, h5⟩ := hs
  refine ⟨by rw [length_setNode]; exact hw.len, ?_⟩
  intro q m hm
  rw [node_setNode g p q n1 hlt] at hm
  by_cases hq : q = p
  · subst hq
    simp only [if_true, Option.some.injEq] at hm
    subst hm
    rw [h3, h5]
    exact hw.wired q n hn
  · simp only [hq, if_false] at hm
    exact hw.wired q m hm

theorem view_eq {α : Type} {g : ProducerGraph α} (ht : Topo g) (h : Nat) (nh : Node α)
    (hn : g.node h = some nh) : g.view h = some nh.result_ := by
  unfold ProducerGraph.view
  rw [ht.lookup h]
  simp [node_lt hn, hn, Node.GetOutput]

theorem subset_of_nodup_length {l1 l2 : List Nat} (h1 : l1.Nodup) (hsub : ∀ x, x ∈ l1 → x ∈ l2)
    (hlen : l2.length ≤ l1.length) : ∀ x, x ∈ l2 → x ∈ l1 := by
  have hp := (List.subperm_of_subset h1 hsub).perm_of_length_le hlen
  intro x hx
  exact hp.symm.subset hx

theorem length_eq_of_nodup_mem_iff {l1 l2 : List Nat} (h1 : l1.Nodup) (h2 : l2.Nodup)
    (h : ∀ x, x ∈ l1 ↔ x ∈ l2) : l1.length = l2.length :=
  ((List.perm_ext_iff_of_nodup h1 h2).mpr h).length_eq

theorem canRun_iff {α : Type} {rs : List (Registration α)} {g : ProducerGraph α}
    (ht : Topo g) (p : Nat) (n : Node α) (hn : g.node p = some n) (hi : NodeInv rs g p n) :
    n.CanRun = true ↔ ∀ d, d ∈ n.deps_ → d ∈ n.finished_deps_ := by
  unfold Node.CanRun
  simp only [beq_iff_eq]
  constructor
  · intro hlen
    exact subset_of_nodup_length hi.fin_nodup (fun x hx => ((hi.fin_iff x).mp hx).1)
      (le_of_eq hlen)
  · intro hall
    exact length_eq_of_nodup_mem_iff (ht.deps_nodup p n hn) hi.fin_nodup
      (fun x => ⟨hall x, fun hx => ((hi.fin_iff x).mp hx).1⟩)

/-! ## Preservation of the invariant -/

theorem reported_setNode {α : Type} (g : ProducerGraph α) (p : Nat) (n n1 : Node α)
    (hn : g.node p = some n) (d q : Nat) :
    Reported (g.setNode p n1) d q ↔
      if d = p then (∃ todo, n1.async_future_ = .reporting todo ∧ q ∉ todo)
      else Reported g d q := by
  unfold Reported
  rw [node_setNode g p d n1 (node_lt hn)]
  by_cases hd : d = p
  · simp only [hd, if_true]
    constructor
    · rintro ⟨nd, todo, h1, h2, h3⟩
      have := Option.some.inj h1
      subst this
      exact ⟨todo, h2, h3⟩
    · rintro ⟨todo, h2, h3⟩
      exact ⟨n1, todo, rfl, h2, h3⟩
  · simp only [hd, if_false]

theorem nodeInv_frame {α : Type} {rs : List (Registration α)} {g g1 : ProducerGraph α}
    {q : Nat} {nq : Node α} (hi : NodeInv rs g q nq)
    (hrep : ∀ d, d ∈ nq.deps_ → (Reported g d q ↔ Reported g1 d q)) : NodeInv rs g1 q nq :=
  { hi with
    fin_iff := by
      intro d
      rw [hi.fin_iff d]
      constructor
      · rintro ⟨h1, h2⟩; exact ⟨h1, (hrep d h1).mp h2⟩
      · rintro ⟨h1, h2⟩; exact ⟨h1, (hrep d h1).mpr h2⟩ }

/-- Update of one node: the invariant of the nodes carries over when the new
node satisfies it and no other node sees a change in what was reported to it. -/
theorem nodes_setNode {α : Type} {rs : List (Registration α)} {g : ProducerGraph α}
    (ht : Topo g) (hnodes : ∀ p n, g.node p = some n → NodeInv rs g p n)
    (p : Nat) (n n1 : Node α) (hn : g.node p = some n) (hs : SameStatic n n1)
    (hself : NodeInv rs g p n1)
    (hrep : ∀ q nq, q ≠ p → g.node q = some nq → p ∈ nq.deps_ →
      ((∃ todo, n.async_future_ = .reporting todo ∧ q ∉ todo) ↔
       (∃ todo, n1.async_future_ = .reporting todo ∧ q ∉ todo))) :
    ∀ q m, (g.setNode p n1).node q = some m → NodeInv rs (g.setNode p n1) q m := by
  intro q m hm
  rw [node_setNode g p q n1 (node_lt hn)] at hm
  by_cases hq : q = p
  · subst hq
    simp only [if_true, Option.some.injEq] at hm
    subst hm
    apply nodeInv_frame hself
    intro d hd
    rw [reported_setNode g q n n1 hn]
    have : d ≠ q := by
      have := ht.deps_lt q n hn d (by rw [← hs.2.2.1]; exact hd)
      omega
    simp [this]
  · simp only [hq, if_false] at hm
    apply nodeInv_frame (hnodes q m hm)
    intro d hd
    rw [reported_setNode g p n n1 hn]
    by_cases hdp : d = p
    · subst hdp
      simp only [if_true]
      rw [← hrep q m hq hm hd]
      unfold Reported
      constructor
      · rintro ⟨nd, todo, h1, h2, h3⟩
        rw [hn] at h1
        have := Option.some.inj h1
        subst this
        exact ⟨todo, h2, h3⟩
      · rintro ⟨todo, h2, h3⟩
        exact ⟨n, todo, hn, h2, h3⟩
    · simp [hdp]

theorem sameStatic_refl {α : Type} (n : Node α) : SameStatic n n :=
  ⟨rfl, rfl, rfl, rfl, rfl⟩

theorem inv_startCanRun {α : Type} {rs : List (Registration α)} {s u : Sys α}
    (hinv : Inv rs s) (p : Nat) (h : step (.startCanRun p) s = some u) : Inv rs u := by
  simp only [step] at h
  split at h
  · cases hn : s.graph.node p with
    | none => rw [hn] at h; simp at h
    | some n =>
        rw [hn] at h
        simp only [Option.some.injEq] at h
        subst h
        refine ⟨hinv.topo, hinv.wired, hinv.nodes, ?_, ?_⟩
        · intro q hq
          exact hinv.pending q (List.mem_of_mem_erase hq)
        · intro q hq
          simp only at hq
          split at hq
          · rcases List.mem_cons.mp hq with e | e
            · subst e; exact ⟨n, hn, by assumption⟩
            · exact hinv.checked q e
          · exact hinv.checked q hq
  · simp at h

theorem inv_setNode {α : Type} {rs : List (Registration α)} {s : Sys α}
    (hinv : Inv rs s) (p : Nat) (n n1 : Node α) (hn : s.graph.node p = some n)
    (hs : SameStatic n n1) (hself : NodeInv rs s.graph p n1)
    (hrep : ∀ q nq, q ≠ p → s.graph.node q = some nq → p ∈ nq.deps_ →
      ((∃ todo, n.async_future_ = .reporting todo ∧ q ∉ todo) ↔
       (∃ todo, n1.async_future_ = .reporting todo ∧ q ∉ todo)))
    (hcr : n.CanRun = true → n1.CanRun = true) (pending1 checked1 : List Nat)
    (hp : ∀ x, x ∈ pending1 → x ∈ s.pending) (hc : ∀ x, x ∈ checked1 → x ∈ s.checked) :
    Inv rs { graph := s.graph.setNode p n1, pending := pending1, checked := checked1 } := by
  refine ⟨topo_setNode hinv.topo p n n1 hn hs, wired_setNode hinv.wired p n n1 hn hs,
    nodes_setNode hinv.topo hinv.nodes p n n1 hn hs hself hrep, ?_, ?_⟩
  · intro x hx
    simp only [length_setNode]
    exact hinv.pending x (hp x hx)
  · intro x hx
    obtain ⟨nx, hnx, hcx⟩ := hinv.checked x (hc x hx)
    simp only [node_setNode s.graph p x n1 (node_lt hn)]
    by_cases hxp : x = p
    · subst hxp
      rw [hn] at hnx
      have := Option.some.inj hnx
      subst this
      exact ⟨n1, by simp, hcr hcx⟩
    · exact ⟨nx, by simp [hxp, hnx], hcx⟩

theorem StartAfterCanRun_eq {α : Type} (n : Node α) :
    n.StartAfterCanRun =
      if n.state_ = .BLOCKED then
        { n with state_ := .RUNNING, async_future_ := .atRunProducer,
                 launches := n.launches + 1 }
      else n := by
  unfold Node.StartAfterCanRun Node.TrySetRunning
  by_cases h : n.state_ = .BLOCKED <;> simp [h]

theorem nodeInv_launch {α : Type} {rs : List (Registration α)} {g : ProducerGraph α}
    {p : Nat} {n : Node α} (hi : NodeInv rs g p n) (hb : n.state_ = .BLOCKED)
    (hc : n.CanRun = true) :
    NodeInv rs g p { n with state_ := .RUNNING, async_future_ := .atRunProducer,
                            launches := n.launches + 1 } := by
  have hidle : n.async_future_ = .idle := hi.coh_blocked.mp hb
  have hres : n.result_ = none := by
    have := hi.result_iff
    rw [hidle] at this
    simp at this
    exact this
  refine ⟨by simp, by simp, by simp, hi.fin_iff, hi.fin_nodup, fun _ => hc, by simp,
    by simp, ?_, hi.promise, ?_, ?_, hi.value, by simp⟩
  · simp [hres]
  · have := hi.launches
    simp [hb] at this
    simp [this]
  · have := hi.invocations
    simp [hidle] at this
    simp [this]

theorem inv_startTrySetRunning {α : Type} {rs : List (Registration α)} {s u : Sys α}
    (hinv : Inv rs s) (p : Nat) (h : step (.startTrySetRunning p) s = some u) : Inv rs u := by
  simp only [step] at h
  split at h
  · rename_i hp
    cases hn : s.graph.node p with
    | none => rw [hn] at h; simp at h
    | some n =>
        rw [hn] at h
        simp only [Option.some.injEq] at h
        subst h
        obtain ⟨n0, hn0, hcan⟩ := hinv.checked p hp
        rw [hn] at hn0
        have := Option.some.inj hn0
        subst this
        have hi := hinv.nodes p n hn
        rw [StartAfterCanRun_eq]
        by_cases hb : n.state_ = .BLOCKED
        · simp only [hb, if_true]
          have hidle : n.async_future_ = .idle := hi.coh_blocked.mp hb
          refine inv_setNode hinv p n _ hn ?_ (nodeInv_launch hi hb hcan) ?_ ?_ _ _ ?_ ?_
          · exact ⟨rfl, rfl, rfl, rfl, rfl⟩
          · intro q nq _ _ _
            simp [hidle]
          · intro hc; exact hc
          · intro x hx; exact hx
          · intro x hx; exact List.mem_of_mem_erase hx
        · simp only [hb, if_false]
          apply inv_setNode hinv p n n hn (sameStatic_refl n) hi
          · intro q nq _ _ _; rfl
          · intro hc; exact hc
          · intro x hx; exact hx
          · intro x hx; exact List.mem_of_mem_erase hx
  · simp at h

theorem state_running_of {α : Type} {rs : List (Registration α)} {g : ProducerGraph α}
    {p : Nat} {n : Node α} (hi : NodeInv rs g p n) (h1 : n.async_future_ ≠ .idle)
    (h2 : ∀ todo, n.async_future_ ≠ .reporting todo) : n.state_ = .RUNNING := by
  have hb : n.state_ ≠ .BLOCKED := fun e => h1 (hi.coh_blocked.mp e)
  have hf : n.state_ ≠ .FINISHED := fun e => by
    obtain ⟨todo, ht⟩ := hi.coh_finished.mp e
    exact h2 todo ht
  cases hs : n.state_ <;> simp_all

theorem inv_setFinished {α : Type} {rs : List (Registration α)} {s u : Sys α}
    (hinv : Inv rs s) (p : Nat) (h : step (.setFinished p) s = some u) : Inv rs u := by
  simp only [step] at h
  cases hn : s.graph.node p with
  | none => rw [hn] at h; simp at h
  | some n =>
      rw [hn] at h
      simp only at h
      split at h
      · rename_i ha
        simp only [Option.some.injEq] at h
        subst h
        have hi := hinv.nodes p n hn
        have hrun : n.state_ = .RUNNING := state_running_of hi (by simp [ha]) (by simp [ha])
        have hres : n.result_.isSome = true := hi.result_iff.mpr (Or.inl ha)
        have hstep : setFinishedStep n =
            { n with state_ := .FINISHED, async_future_ := .reporting n.rdeps_ } := by
          simp [setFinishedStep, Node.SetFinished, hrun]
        rw [hstep]
        refine inv_setNode hinv p n _ hn ?_ ?_ ?_ ?_ _ _ ?_ ?_
        · exact ⟨rfl, rfl, rfl, rfl, rfl⟩
        · refine ⟨by simp, by simp, by simp, hi.fin_iff, hi.fin_nodup, ?_, by simp, ?_, ?_,
            hi.promise, ?_, ?_, hi.value, by simp⟩
          · intro _
            exact hi.canrun (by simp [hrun])
          · intro todo ht
            simp only [Async.reporting.injEq] at ht
            subst ht
            exact ⟨hinv.topo.rdeps_nodup p n hn, fun r hr => hr⟩
          · simp [hres]
          · have := hi.launches
            simp [hrun] at this
            simp [this]
          · have := hi.invocations
            simp [ha] at this
            simp [this]
        · intro q nq _ hq hpq
          have hqr : q ∈ n.rdeps_ := (hinv.topo.rdeps_iff p n q hn).mpr ⟨nq, hq, hpq⟩
          simp [ha, hqr]
        · intro hc; exact hc
        · intro x hx; exact hx
        · intro x hx; exact hx
      · simp at h

/-- The outputs read by the closure of a node whose dependencies have all
reported: each handle has an output, which is the one of the compositional
evaluation. -/
theorem handles_ready {α : Type} {rs : List (Registration α)} {s : Sys α}
    (hinv : Inv rs s) (p : Nat) (n : Node α) (hn : s.graph.node p = some n)
    (hcan : n.CanRun = true) :
    ∃ r, rs[p]? = some r ∧ n.producer_ = bindClosure r.f r.node_handles ∧
      (∀ h, h ∈ r.node_handles → h < p) ∧
      ∃ outs : Nat → Output α, ∀ h, h ∈ r.node_handles →
        s.graph.view h = some (some (outs h)) ∧ denote rs h = some (outs h) := by
  obtain ⟨r, hr, hc, hd⟩ := hinv.wired.wired p n hn
  have hi := hinv.nodes p n hn
  refine ⟨r, hr, hc, fun h hh => hinv.topo.deps_lt p n hn h ((hd h).mpr hh), ?_⟩
  refine ⟨fun h => ((s.graph.view h).join).getD (.ofError (.mk none "")), ?_⟩
  intro h hh
  have hdep : h ∈ n.deps_ := (hd h).mpr hh
  have hfin := (canRun_iff hinv.topo p n hn hi).mp hcan h hdep
  obtain ⟨_, nd, todo, hnd, hrep, _⟩ := (hi.fin_iff h).mp hfin
  have hid := hinv.nodes h nd hnd
  have hres : nd.result_.isSome = true := hid.result_iff.mpr (Or.inr ⟨todo, hrep⟩)
  obtain ⟨o, ho⟩ := Option.isSome_iff_exists.mp hres
  have hv := view_eq hinv.topo h nd hnd
  rw [ho] at hv
  simp only [hv, Option.join, Option.getD, true_and]
  constructor
  · rfl
  · exact hid.value o ho

theorem producer_eq {α : Type} {rs : List (Registration α)} {s : Sys α}
    (hinv : Inv rs s) (p : Nat) (n : Node α) (hn : s.graph.node p = some n)
    (hcan : n.CanRun = true) :
    ∃ out : Outcome (Output α), n.producer_ s.graph.view = out ∧ out ≠ .undefined ∧
      denote rs p = recorded out := by
  obtain ⟨r, hr, hc, hlt, outs, houts⟩ := handles_ready hinv p n hn hcan
  refine ⟨_, rfl, ?_, ?_⟩
  · rw [hc, bindClosure_eq r.f r.node_handles s.graph.view outs (fun id hid => (houts id hid).1)]
    cases r.f (List.map (fun id => (outs id).AsInput) r.node_handles) <;>
      simp [Outcome.ofExcept]
  · rw [hc, bindClosure_eq r.f r.node_handles s.graph.view outs (fun id hid => (houts id hid).1),
      denote_unfold rs p r hr hlt,
      gather_eq_some (denote rs) r.node_handles outs (fun x hx => (houts x hx).2)]
    simp only [List.map_map]
    rfl

/-- The node left by the task at `runProducer`, in a state that satisfies the
invariant: the producer is invoked once; either its output is recorded and the
promise resolved, or an exception that is not a `std::exception` ends the task. -/
theorem runProducerStep_eq {α : Type} {rs : List (Registration α)} {s : Sys α}
    (hinv : Inv rs s) (p : Nat) (n : Node α) (hn : s.graph.node p = some n)
    (ha : n.async_future_ = .atRunProducer) :
    (∃ o, recorded (n.producer_ s.graph.view) = some o ∧ denote rs p = some o ∧
      runProducerStep s.graph n =
        { n with invocations := n.invocations + 1, result_ := some o,
                 result_promise_ := ⟨some (resolutionOf o)⟩,
                 async_future_ := .atSetFinished }) ∨
    (∃ t, n.producer_ s.graph.view = .threw (.other t) ∧ denote rs p = none ∧
      runProducerStep s.graph n =
        { n with invocations := n.invocations + 1, async_future_ := .escaped (.other t) }) := by
  have hi := hinv.nodes p n hn
  have hrun : n.state_ = .RUNNING := state_running_of hi (by simp [ha]) (by simp [ha])
  have hcan : n.CanRun = true := hi.canrun (by simp [hrun])
  have hres : n.result_ = none := by
    have := hi.result_iff
    rw [ha] at this
    simp at this
    exact this
  have hfresh : n.result_promise_.shared = none := by rw [hi.promise, hres]; rfl
  obtain ⟨out, hout, hundef, hden⟩ := producer_eq hinv p n hn hcan
  have hdone : n.IsDone = false := by simp [Node.IsDone, hrun]
  cases hrec : recorded out with
  | some o =>
      left
      refine ⟨o, by rw [hout]; exact hrec, by rw [hden]; exact hrec, ?_⟩
      unfold runProducerStep
      rw [RunProducer_recorded n s.graph.view o hfresh (by rw [hout]; exact hrec)]
      simp [hdone, hcan]
  | none =>
      right
      cases out with
      | returned o => simp [recorded] at hrec
      | undefined => exact absurd rfl hundef
      | threw e =>
          cases e with
          | std w => simp [recorded] at hrec
          | other t =>
              refine ⟨t, hout, by rw [hden]; rfl, ?_⟩
              unfold runProducerStep
              rw [RunProducer_other n s.graph.view t hfresh hout]
              simp [hdone, hcan]

theorem inv_runProducer {α : Type} {rs : List (Registration α)} {s u : Sys α}
    (hinv : Inv rs s) (p : Nat) (h : step (.runProducer p) s = some u) : Inv rs u := by
  simp only [step] at h
  cases hn : s.graph.node p with
  | none => rw [hn] at h; simp at h
  | some n =>
      rw [hn] at h
      simp only at h
      split at h
      · rename_i ha
        simp only [Option.some.injEq] at h
        subst h
        have hi := hinv.nodes p n hn
        have hrun : n.state_ = .RUNNING := state_running_of hi (by simp [ha]) (by simp [ha])
        have hinvoc : n.invocations = 0 := by
          have := hi.invocations
          simp [ha] at this
          exact this
        rcases runProducerStep_eq hinv p n hn ha with ⟨o, _, hden, hstep⟩ | ⟨t, _, hden, hstep⟩
        · rw [hstep]
          refine inv_setNode hinv p n _ hn ?_ ?_ ?_ ?_ _ _ ?_ ?_
          · exact ⟨rfl, rfl, rfl, rfl, rfl⟩
          · refine ⟨by simp [hrun], by simp [hrun], by simp, hi.fin_iff, hi.fin_nodup,
              hi.canrun, hi.started, by simp, by simp, by simp, hi.launches, ?_, ?_, by simp⟩
            · simp [hinvoc]
            · intro o1 ho1
              simp only [Option.some.injEq] at ho1
              subst ho1
              exact hden
          · intro q nq _ _ _
            simp [ha]
          · intro hc; exact hc
          · intro x hx; exact hx
          · intro x hx; exact hx
        · rw [hstep]
          have hres : n.result_ = none := by
            have := hi.result_iff
            rw [ha] at this
            simp at this
            exact this
          refine inv_setNode hinv p n _ hn ?_ ?_ ?_ ?_ _ _ ?_ ?_
          · exact ⟨rfl, rfl, rfl, rfl, rfl⟩
          · refine ⟨by simp [hrun], by simp [hrun], by simp, hi.fin_iff, hi.fin_nodup,
              hi.canrun, hi.started, by simp, ?_, hi.promise, hi.launches, ?_, hi.value, ?_⟩
            · simp [hres]
            · simp [hinvoc]
            · intro e _
              exact ⟨hden, hres⟩
          · intro q nq _ _ _
            simp [ha]
          · intro hc; exact hc
          · intro x hx; exact hx
          · intro x hx; exact hx
      · simp at h

theorem report_facts {α : Type} {rs : List (Registration α)} {s : Sys α}
    (hinv : Inv rs s) (p r : Nat) (n : Node α) (todo : List Nat)
    (hn : s.graph.node p = some n) (ha : n.async_future_ = .reporting todo) (hr : r ∈ todo) :
    ∃ nr, s.graph.node r = some nr ∧ p < r ∧ p ∈ nr.deps_ ∧ p ∉ nr.finished_deps_ ∧
      nr.state_ = .BLOCKED ∧ nr.async_future_ = .idle ∧ nr.CanRun = false ∧
      nr.ReportFinished p = some (reportedNode nr p) := by
  have hi := hinv.nodes p n hn
  have hrd : r ∈ n.rdeps_ := (hi.todo_ok todo ha).2 r hr
  obtain ⟨nr, hnr, hp⟩ := (hinv.topo.rdeps_iff p n r hn).mp hrd
  have hir := hinv.nodes r nr hnr
  have hnot : p ∉ nr.finished_deps_ := by
    intro hc
    obtain ⟨_, nd, todo1, h1, h2, h3⟩ := (hir.fin_iff p).mp hc
    rw [hn] at h1
    have := Option.some.inj h1
    subst this
    rw [ha] at h2
    simp only [Async.reporting.injEq] at h2
    subst h2
    exact h3 hr
  have hcan : nr.CanRun = false := by
    cases hc : nr.CanRun with
    | false => rfl
    | true => exact absurd ((canRun_iff hinv.topo r nr hnr hir).mp hc p hp) hnot
  have hb : nr.state_ = .BLOCKED := by
    by_contra hc
    rw [hir.canrun hc] at hcan
    simp at hcan
  refine ⟨nr, hnr, hinv.topo.deps_lt r nr hnr p hp, hp, hnot, hb, hir.coh_blocked.mp hb, hcan, ?_⟩
  unfold Node.ReportFinished reportedNode Node.Start
  simp only [hp, if_true, setInsert, hnot, if_false, StartAfterCanRun_eq, hb]
  split <;> simp_all

theorem step_report_eq {α : Type} {rs : List (Registration α)} {s : Sys α}
    (hinv : Inv rs s) (p r : Nat) (n : Node α) (todo : List Nat)
    (hn : s.graph.node p = some n) (ha : n.async_future_ = .reporting todo) (hr : r ∈ todo) :
    ∃ nr, s.graph.node r = some nr ∧
      step (.reportFinished p r) s =
        some { s with graph := afterReport s.graph p r n nr todo } := by
  obtain ⟨nr, hnr, hlt, _, _, _, _, _, hrep⟩ := report_facts hinv p r n todo hn ha hr
  refine ⟨nr, hnr, ?_⟩
  have hne : p ≠ r := by omega
  simp only [step, hn, ha, hr, if_true, hnr, hrep,
    node_setNode s.graph r p _ (node_lt hnr), hne, if_false, afterReport]

theorem reportedNode_static {α : Type} (nr : Node α) (p : Nat) :
    SameStatic nr (reportedNode nr p) := by
  unfold reportedNode
  split <;> exact ⟨rfl, rfl, rfl, rfl, rfl⟩

theorem reportedNode_async {α : Type} (nr : Node α) (p : Nat) (hidle : nr.async_future_ = .idle) :
    ∀ todo, (reportedNode nr p).async_future_ ≠ .reporting todo := by
  intro todo
  unfold reportedNode
  split <;> simp [hidle]

theorem node_afterReport {α : Type} (g : ProducerGraph α) (p r : Nat) (n nr : Node α)
    (todo : List Nat) (hn : g.node p = some n) (hnr : g.node r = some nr)
    (q : Nat) :
    (afterReport g p r n nr todo).node q =
      if q = p then some { n with async_future_ := .reporting (todo.erase r) }
      else if q = r then some (reportedNode nr p) else g.node q := by
  unfold afterReport
  rw [node_setNode _ p q _ (by rw [length_setNode]; exact node_lt hn),
    node_setNode g r q _ (node_lt hnr)]

theorem reported_afterReport {α : Type} (g : ProducerGraph α) (p r : Nat) (n nr : Node α)
    (todo : List Nat) (hn : g.node p = some n) (hnr : g.node r = some nr) (hne : p ≠ r)
    (hidle : nr.async_future_ = .idle) (d q : Nat) :
    Reported (afterReport g p r n nr todo) d q ↔
      if d = p then q ∉ todo.erase r else if d = r then False else Reported g d q := by
  unfold Reported
  rw [node_afterReport g p r n nr todo hn hnr d]
  by_cases hd : d = p
  · simp only [hd, if_true]
    constructor
    · rintro ⟨nd, todo1, h1, h2, h3⟩
      have := Option.some.inj h1
      subst this
      simp only [Async.reporting.injEq] at h2
      subst h2
      exact h3
    · intro h
      exact ⟨_, _, rfl, rfl, h⟩
  · by_cases hdr : d = r
    · subst hdr
      simp only [hd, if_false, if_true, iff_false]
      rintro ⟨nd, todo1, h1, h2, _⟩
      have := Option.some.inj h1
      subst this
      exact reportedNode_async nr p hidle todo1 h2
    · simp only [hd, hdr, if_false]

theorem step_report_enabled {α : Type} {s u : Sys α} (p r : Nat)
    (h : step (.reportFinished p r) s = some u) :
    ∃ n todo, s.graph.node p = some n ∧ n.async_future_ = .reporting todo ∧ r ∈ todo := by
  simp only [step] at h
  cases hn : s.graph.node p with
  | none => rw [hn] at h; simp at h
  | some n =>
      rw [hn] at h
      simp only at h
      cases ha : n.async_future_ with
      | reporting todo =>
          rw [ha] at h
          simp only at h
          by_cases hr : r ∈ todo
          · exact ⟨n, todo, rfl, ha, hr⟩
          · simp [hr] at h
      | _ => rw [ha] at h; simp at h

theorem inv_reportFinished {α : Type} {rs : List (Registration α)} {s u : Sys α}
    (hinv : Inv rs s) (p r : Nat) (h : step (.reportFinished p r) s = some u) : Inv rs u := by
  obtain ⟨n, todo, hn, ha, hr⟩ := step_report_enabled p r h
  obtain ⟨nr, hnr, hlt, hp, hnot, hb, hidle, hcan, _⟩ := report_facts hinv p r n todo hn ha hr
  obtain ⟨nr0, hnr0, heq⟩ := step_report_eq hinv p r n todo hn ha hr
  rw [hnr] at hnr0
  have := Option.some.inj hnr0
  subst this
  rw [heq] at h
  simp only [Option.some.injEq] at h
  subst h
  have hne : p ≠ r := by omega
  have hi := hinv.nodes p n hn
  have hir := hinv.nodes r nr hnr
  have htodo := hi.todo_ok todo ha
  have hn1 : (s.graph.setNode r (reportedNode nr p)).node p = some n := by
    rw [node_setNode _ r p _ (node_lt hnr)]; simp [hne, hn]
  have ht1 := topo_setNode hinv.topo r nr _ hnr (reportedNode_static nr p)
  have hw1 := wired_setNode hinv.wired r nr _ hnr (reportedNode_static nr p)
  have hrep := reported_afterReport s.graph p r n nr todo hn hnr hne hidle
  have hnode := node_afterReport s.graph p r n nr todo hn hnr
  have hres : nr.result_ = none := by
    have := hir.result_iff
    rw [hidle] at this
    simp at this
    exact this
  refine ⟨topo_setNode ht1 p n _ hn1 ⟨rfl, rfl, rfl, rfl, rfl⟩,
    wired_setNode hw1 p n _ hn1 ⟨rfl, rfl, rfl, rfl, rfl⟩, ?_, ?_, ?_⟩
  · intro q m hm
    simp only at hm
    rw [hnode q] at hm
    by_cases hqp : q = p
    · subst hqp
      simp only [if_true, Option.some.injEq] at hm
      subst hm
      have hframe : NodeInv rs (afterReport s.graph q r n nr todo) q n := by
        apply nodeInv_frame hi
        intro d hd
        have hdq := hinv.topo.deps_lt q n hn d hd
        rw [hrep d q, if_neg (by omega), if_neg (by omega)]
      exact { hframe with
        coh_blocked := by simpa [ha] using hframe.coh_blocked
        coh_finished := by simpa [ha] using hframe.coh_finished
        not_aborted := by simp
        todo_ok := by
          intro todo1 h1
          simp only [Async.reporting.injEq] at h1
          subst h1
          exact ⟨htodo.1.erase r, fun x hx => htodo.2 x (List.mem_of_mem_erase hx)⟩
        result_iff := by simpa [ha] using hframe.result_iff
        invocations := by simpa [ha] using hframe.invocations
        escaped := by simp }
    · by_cases hqr : q = r
      · subst hqr
        simp only [hqp, if_false, if_true, Option.some.injEq] at hm
        subst hm
        have hfin : ∀ d, d ∈ nr.finished_deps_ ++ [p] ↔
            d ∈ nr.deps_ ∧ Reported (afterReport s.graph p q n nr todo) d q := by
          intro d
          rw [hrep d q]
          by_cases hdp : d = p
          · subst hdp
            simp only [List.mem_append, List.mem_singleton, or_true, if_true, true_iff]
            exact ⟨hp, fun hc => ((List.Nodup.mem_erase_iff htodo.1).mp hc).1 rfl⟩
          · simp only [List.mem_append, List.mem_singleton, hdp, or_false, if_false]
            rw [hir.fin_iff d]
            constructor
            · rintro ⟨h1, h2⟩
              have := hinv.topo.deps_lt q nr hnr d h1
              exact ⟨h1, by rw [if_neg (by omega)]; exact h2⟩
            · rintro ⟨h1, h2⟩
              have := hinv.topo.deps_lt q nr hnr d h1
              rw [if_neg (by omega)] at h2
              exact ⟨h1, h2⟩
        have hnd : (nr.finished_deps_ ++ [p]).Nodup := by
          rw [List.nodup_append]
          refine ⟨hir.fin_nodup, by simp, ?_⟩
          intro a ha1 ha2
          simp at ha2
          subst ha2
          exact hnot ha1
        have hl := hir.launches
        simp only [hb, if_true] at hl
        have hinvo := hir.invocations
        simp only [hidle, true_or, if_true] at hinvo
        have hdne : nr.deps_ ≠ [] := List.ne_nil_of_mem hp
        unfold reportedNode
        split
        · rename_i hc
          refine ⟨by simp, by simp, by simp, hfin, hnd, fun _ => hc, by simp, by simp, ?_, ?_,
            ?_, ?_, ?_, by simp⟩
          · simp [hres]
          · simpa using hir.promise
          · simp [hl]
          · simp [hinvo]
          · intro o ho; exact hir.value o ho
        · rename_i hc
          refine ⟨by simpa using hir.coh_blocked, by simpa using hir.coh_finished,
            by simpa using hir.not_aborted, hfin, hnd, ?_, ?_, ?_, ?_, ?_, ?_, ?_, ?_, ?_⟩
          · intro hs; exact absurd hb hs
          · intro _ hc1; exact absurd hc1 hc
          · intro todo1 h1; simp [hidle] at h1
          · simpa using hir.result_iff
          · simpa using hir.promise
          · simpa using hir.launches
          · simpa using hir.invocations
          · intro o ho; exact hir.value o ho
          · intro e he; simp [hidle] at he
      · simp only [hqp, hqr, if_false] at hm
        apply nodeInv_frame (hinv.nodes q m hm)
        intro d hd
        rw [hrep d q]
        by_cases hdp : d = p
        · subst hdp
          simp only [if_true]
          rw [List.mem_erase_of_ne hqr]
          unfold Reported
          constructor
          · rintro ⟨nd, todo1, h1, h2, h3⟩
            rw [hn] at h1
            have := Option.some.inj h1
            subst this
            rw [ha] at h2
            simp only [Async.reporting.injEq] at h2
            subst h2
            exact h3
          · intro h3
            exact ⟨n, todo, hn, ha, h3⟩
        · by_cases hdr : d = r
          · subst hdr
            simp only [hdp, if_false, if_true, iff_false]
            rintro ⟨nd, todo1, h1, h2, _⟩
            rw [hnr] at h1
            have := Option.some.inj h1
            subst this
            rw [hidle] at h2
            simp at h2
          · simp only [hdp, hdr, if_false]
  · intro x hx
    simp only [afterReport, length_setNode]
    exact hinv.pending x hx
  · intro x hx
    obtain ⟨nx, hnx, hcx⟩ := hinv.checked x hx
    simp only [hnode x]
    by_cases hxp : x = p
    · subst hxp
      rw [hn] at hnx
      have := Option.some.inj hnx
      subst this
      exact ⟨{ n with async_future_ := .reporting (todo.erase r) }, by simp,
        by simpa [Node.CanRun] using hcx⟩
    · by_cases hxr : x = r
      · subst hxr
        rw [hnr] at hnx
        have := Option.some.inj hnx
        subst this
        rw [hcan] at hcx
        simp at hcx
      · exact ⟨nx, by simp [hxp, hxr, hnx], hcx⟩

theorem lookup_some {α : Type} {g : ProducerGraph α} (ht : Topo g) {id node : Nat}
    (h : g.lookup id = some node) : node = id ∧ id < g.nodes_.length := by
  rw [ht.lookup id] at h
  by_cases hid : id < g.nodes_.length
  · simp only [hid, if_true, Option.some.injEq] at h
    exact ⟨h.symm, hid⟩
  · simp [hid] at h

theorem Execute_eq {α : Type} {s u : Sys α} (ht : Topo s.graph) (id : Nat)
    (h : Execute s id = some u) :
    id < s.graph.nodes_.length ∧
      u = { s with pending := s.pending ++ s.graph.TransitiveDeps id } := by
  unfold Execute at h
  cases hl : s.graph.lookup id with
  | none => rw [hl] at h; simp at h
  | some node =>
      rw [hl] at h
      obtain ⟨h1, h2⟩ := lookup_some ht hl
      subst h1
      simp only [Option.some.injEq] at h
      exact ⟨h2, h.symm⟩

theorem inv_execute {α : Type} {rs : List (Registration α)} {s u : Sys α}
    (hinv : Inv rs s) (id : Nat) (h : step (.execute id) s = some u) : Inv rs u := by
  simp only [step] at h
  obtain ⟨hlt, rfl⟩ := Execute_eq hinv.topo id h
  refine ⟨hinv.topo, hinv.wired, hinv.nodes, ?_, hinv.checked⟩
  intro x hx
  simp only [List.mem_append] at hx
  rcases hx with hx | hx
  · exact hinv.pending x hx
  · have := reaches_le hinv.topo ((mem_TransitiveDeps hinv.topo id x hlt).mp hx)
    simp only
    omega

theorem inv_step {α : Type} {rs : List (Registration α)} {s u : Sys α}
    (hinv : Inv rs s) (l : Label) (h : step l s = some u) : Inv rs u := by
  cases l with
  | execute id => exact inv_execute hinv id h
  | startCanRun p => exact inv_startCanRun hinv p h
  | startTrySetRunning p => exact inv_startTrySetRunning hinv p h
  | runProducer p => exact inv_runProducer hinv p h
  | setFinished p => exact inv_setFinished hinv p h
  | reportFinished p r => exact inv_reportFinished hinv p r h

theorem inv_fresh {α : Type} {rs : List (Registration α)} {g : ProducerGraph α}
    (hb : Built rs g) : Inv rs (Sys.fresh g) := by
  refine ⟨hb.topo, hb.wired, ?_, by simp [Sys.fresh], by simp [Sys.fresh]⟩
  intro p n hn
  simp only [Sys.fresh] at hn ⊢
  obtain ⟨h1, h2, h3, h4, h5, h6, h7⟩ := hb.fresh p n hn
  refine ⟨by simp [h1, h2], by simp [h1, h2], by simp [h2], ?_, by simp [h3],
    by simp [h1], ?_, by simp [h2], by simp [h2, h4], by simp [h4, h5], by simp [h1, h6],
    by simp [h2, h7], by simp [h4], by simp [h2]⟩
  · intro d
    simp only [h3, List.not_mem_nil, false_iff, not_and]
    rintro _ ⟨nd, todo, hnd, hrep, _⟩
    rw [(hb.fresh d nd hnd).2.1] at hrep
    simp at hrep
  intro hd hc
  simp [Node.CanRun, h3] at hc
  exact absurd hc hd

theorem inv_reach {α : Type} {rs : List (Registration α)} {g : ProducerGraph α}
    (hb : Built rs g) {s : Sys α} (h : Reach g s) : Inv rs s := by
  induction h with
  | fresh => exact inv_fresh hb
  | tail l _ hstep ih => exact inv_step ih l hstep

theorem inv_run {α : Type} {rs : List (Registration α)} {s u : Sys α}
    (hinv : Inv rs s) (h : Run s u) : Inv rs u := by
  induction h with
  | refl => exact hinv
  | tail l _ _ hstep ih => exact inv_step ih l hstep

/-! ## The internal steps in a state that satisfies the invariant -/

theorem step_effect {α : Type} {rs : List (Registration α)} {s u : Sys α}
    (hinv : Inv rs s) (l : Label) (hl : l.internal = true) (h : step l s = some u) :
    Effect s l u := by
  cases l with
  | execute id => simp [Label.internal] at hl
  | startCanRun p =>
      simp only [step] at h
      split at h
      · rename_i hp
        cases hn : s.graph.node p with
        | none => rw [hn] at h; simp at h
        | some n =>
            rw [hn] at h
            simp only [Option.some.injEq] at h
            subst h
            exact Effect.startCanRun p n hp hn
      · simp at h
  | startTrySetRunning p =>
      simp only [step] at h
      split at h
      · rename_i hp
        cases hn : s.graph.node p with
        | none => rw [hn] at h; simp at h
        | some n =>
            rw [hn] at h
            simp only [Option.some.injEq] at h
            subst h
            obtain ⟨n0, hn0, hcan⟩ := hinv.checked p hp
            rw [hn] at hn0
            have := Option.some.inj hn0
            subst this
            rw [StartAfterCanRun_eq]
            by_cases hb : n.state_ = .BLOCKED
            · simp only [hb, if_true]
              exact Effect.startLaunch p n hp hn hcan hb ((hinv.nodes p n hn).coh_blocked.mp hb)
            · simp only [hb, if_false]
              exact Effect.startNoop p n hp hn hb
      · simp at h
  | runProducer p =>
      simp only [step] at h
      cases hn : s.graph.node p with
      | none => rw [hn] at h; simp at h
      | some n =>
          rw [hn] at h
          simp only at h
          split at h
          · rename_i ha
            simp only [Option.some.injEq] at h
            subst h
            have hi := hinv.nodes p n hn
            have hrun : n.state_ = .RUNNING :=
              state_running_of hi (by simp [ha]) (by simp [ha])
            rcases runProducerStep_eq hinv p n hn ha with ⟨o, hrec, _, hstep⟩ | ⟨t, hth, _, hstep⟩
            · rw [hstep]
              exact Effect.produced p n o hn ha hrun hrec
            · rw [hstep]
              exact Effect.escaped p n t hn ha hrun hth
          · simp at h
  | setFinished p =>
      simp only [step] at h
      cases hn : s.graph.node p with
      | none => rw [hn] at h; simp at h
      | some n =>
          rw [hn] at h
          simp only at h
          split at h
          · rename_i ha
            simp only [Option.some.injEq] at h
            subst h
            have hi := hinv.nodes p n hn
            have hrun : n.state_ = .RUNNING :=
              state_running_of hi (by simp [ha]) (by simp [ha])
            have hstep : setFinishedStep n =
                { n with state_ := .FINISHED, async_future_ := .reporting n.rdeps_ } := by
              simp [setFinishedStep, Node.SetFinished, hrun]
            rw [hstep]
            exact Effect.setFinished p n hn ha hrun
          · simp at h
  | reportFinished p r =>
      obtain ⟨n, todo, hn, ha, hr⟩ := step_report_enabled p r h
      obtain ⟨nr, hnr, hlt, hp, hnot, hb, hidle, _, _⟩ :=
        report_facts hinv p r n todo hn ha hr
      obtain ⟨nr0, hnr0, heq⟩ := step_report_eq hinv p r n todo hn ha hr
      rw [hnr] at hnr0
      have := Option.some.inj hnr0
      subst this
      rw [heq] at h
      simp only [Option.some.injEq] at h
      subst h
      exact Effect.report p r n nr todo hn ha hr hnr hlt hp hnot hb hidle

/-! ## Every execution ends -/

theorem sum_map_set {β : Type} (f : β → Nat) (l : List β) (p : Nat) (a b : β)
    (h : l[p]? = some a) : ((l.set p b).map f).sum + f a = (l.map f).sum + f b := by
  induction l generalizing p with
  | nil => simp at h
  | cons x xs ih =>
      cases p with
      | zero =>
          simp only [List.getElem?_cons_zero, Option.some.injEq] at h
          subst h
          simp only [List.set_cons_zero, List.map_cons, List.sum_cons]
          omega
      | succ p =>
          simp only [List.getElem?_cons_succ] at h
          have := ih p h
          simp only [List.set_cons_succ, List.map_cons, List.sum_cons]
          omega

theorem measure_setNode {α : Type} (g : ProducerGraph α) (p : Nat) (n n1 : Node α)
    (hn : g.node p = some n) :
    ((g.setNode p n1).nodes_.map nodeMeasure).sum + nodeMeasure n =
      (g.nodes_.map nodeMeasure).sum + nodeMeasure n1 :=
  sum_map_set nodeMeasure g.nodes_ p n n1 hn

theorem measure_decreases {α : Type} {rs : List (Registration α)} {s u : Sys α}
    (hinv : Inv rs s) (l : Label) (hl : l.internal = true) (h : step l s = some u) :
    measure u < measure s := by
  have he := step_effect hinv l hl h
  cases he with
  | startCanRun p n hp hn =>
      have h1 := List.length_erase_of_mem hp
      have h2 : 0 < s.pending.length := List.length_pos_of_mem hp
      simp only [measure]
      split
      · simp only [List.length_cons]; omega
      · omega
  | startLaunch p n hp hn hc hb hidle =>
      have h1 := List.length_erase_of_mem hp
      have h2 : 0 < s.checked.length := List.length_pos_of_mem hp
      have h3 := measure_setNode s.graph p n
        { n with state_ := .RUNNING, async_future_ := .atRunProducer,
                 launches := n.launches + 1 } hn
      simp only [nodeMeasure, hidle] at h3
      simp only [measure]
      omega
  | startNoop p n hp hn hb =>
      have h1 := List.length_erase_of_mem hp
      have h2 : 0 < s.checked.length := List.length_pos_of_mem hp
      have h3 := measure_setNode s.graph p n n hn
      simp only [measure]
      omega
  | produced p n o hn ha hrun hrec =>
      have h3 := measure_setNode s.graph p n
        { n with invocations := n.invocations + 1, result_ := some o,
                 result_promise_ := ⟨some (resolutionOf o)⟩,
                 async_future_ := .atSetFinished } hn
      simp only [nodeMeasure, ha] at h3
      simp only [measure]
      omega
  | escaped p n t hn ha hrun hth =>
      have h3 := measure_setNode s.graph p n
        { n with invocations := n.invocations + 1,
                 async_future_ := .escaped (.other t) } hn
      simp only [nodeMeasure, ha] at h3
      simp only [measure]
      omega
  | setFinished p n hn ha hrun =>
      have h3 := measure_setNode s.graph p n
        { n with state_ := .FINISHED, async_future_ := .reporting n.rdeps_ } hn
      simp only [nodeMeasure, ha] at h3
      simp only [measure]
      omega
  | report p r n nr todo hn ha hr hnr hlt hp hnot hb hidle =>
      have hne : p ≠ r := by omega
      have hn1 : (s.graph.setNode r (reportedNode nr p)).node p = some n := by
        rw [node_setNode _ r p _ (node_lt hnr)]; simp [hne, hn]
      have h3 := measure_setNode s.graph r nr (reportedNode nr p) hnr
      have h4 := measure_setNode (s.graph.setNode r (reportedNode nr p)) p n
        { n with async_future_ := .reporting (todo.erase r) } hn1
      have h5 : nodeMeasure (reportedNode nr p) ≤ nodeMeasure nr := by
        unfold reportedNode
        split <;> simp [nodeMeasure, hidle]
      have h1 := List.length_erase_of_mem hr
      have h2 : 0 < todo.length := List.length_pos_of_mem hr
      simp only [nodeMeasure, ha] at h4
      simp only [measure, afterReport]
      omega

/-! ## One call of `Execute` -/

/-- Update of one node: `RunInv` carries over when the new node keeps `deps_`,
is not blocked unless the old one was, was launched from the loop if it is a
node without dependencies that leaves `BLOCKED`, and the nodes the loop has yet
to visit stay so, but for the node itself once it has left `BLOCKED`. -/
theorem runInv_setNode {α : Type} {T : List Nat} {s : Sys α} (hr : RunInv T s)
    (p : Nat) (n n1 : Node α) (hn : s.graph.node p = some n) (hd : n1.deps_ = n.deps_)
    (hb : n1.state_ = .BLOCKED → n.state_ = .BLOCKED)
    (hl : n.deps_ = [] → n.state_ = .BLOCKED → n1.state_ ≠ .BLOCKED → p ∈ T)
    (pending1 checked1 : List Nat)
    (hp : ∀ x, x ∈ pending1 → x ∈ s.pending) (hc : ∀ x, x ∈ checked1 → x ∈ s.checked)
    (hkeep : ∀ x, x ∈ s.pending ∨ x ∈ s.checked →
      (x = p ∧ n1.state_ ≠ .BLOCKED) ∨ x ∈ pending1 ∨ x ∈ checked1) :
    RunInv T { graph := s.graph.setNode p n1, pending := pending1, checked := checked1 } := by
  have hnode := fun q => node_setNode s.graph p q n1 (node_lt hn)
  refine ⟨fun x hx => hr.pending x (hp x hx), fun x hx => hr.checked x (hc x hx), ?_, ?_⟩
  · intro q m hm hdeps hT hblocked
    simp only [hnode q] at hm
    by_cases hq : q = p
    · subst hq
      simp only [if_true, Option.some.injEq] at hm
      subst hm
      rcases hkeep q (hr.root_waits q n hn (by rw [← hd]; exact hdeps) hT (hb hblocked))
        with ⟨_, h2⟩ | h
      · exact absurd hblocked h2
      · exact h
    · simp only [hq, if_false] at hm
      rcases hkeep q (hr.root_waits q m hm hdeps hT hblocked) with ⟨h1, _⟩ | h
      · exact absurd h1 hq
      · exact h
  · intro q m hm hdeps hnb
    simp only [hnode q] at hm
    by_cases hq : q = p
    · subst hq
      simp only [if_true, Option.some.injEq] at hm
      subst hm
      rw [hd] at hdeps
      by_cases hold : n.state_ = .BLOCKED
      · exact hl hdeps hold hnb
      · exact hr.root_launched q n hn hdeps hold
    · simp only [hq, if_false] at hm
      exact hr.root_launched q m hm hdeps hnb

theorem canRun_of_no_deps {α : Type} {rs : List (Registration α)} {g : ProducerGraph α}
    {p : Nat} {n : Node α} (hi : NodeInv rs g p n) (hd : n.deps_ = []) : n.CanRun = true := by
  have : n.finished_deps_ = [] := by
    apply List.eq_nil_iff_forall_not_mem.mpr
    intro d hdm
    have := ((hi.fin_iff d).mp hdm).1
    rw [hd] at this
    simp at this
  simp [Node.CanRun, hd, this]

theorem runInv_step {α : Type} {rs : List (Registration α)} {T : List Nat} {s u : Sys α}
    (hinv : Inv rs s) (hr : RunInv T s) (l : Label) (hl : l.internal = true)
    (h : step l s = some u) : RunInv T u := by
  have he := step_effect hinv l hl h
  cases he with
  | startCanRun p n hp hn =>
      refine ⟨fun x hx => hr.pending x (List.mem_of_mem_erase hx), ?_, ?_, hr.root_launched⟩
      · intro x hx
        simp only at hx
        split at hx
        · rcases List.mem_cons.mp hx with e | e
          · subst e; exact hr.pending x hp
          · exact hr.checked x e
        · exact hr.checked x hx
      · intro q m hm hdeps hT hblocked
        simp only at hm ⊢
        by_cases hq : q = p
        · subst hq
          rw [hn] at hm
          have := Option.some.inj hm
          subst this
          right
          simp [canRun_of_no_deps (hinv.nodes q n hn) hdeps]
        · rcases hr.root_waits q m hm hdeps hT hblocked with h1 | h1
          · exact Or.inl ((List.mem_erase_of_ne hq).mpr h1)
          · right
            split
            · exact List.mem_cons_of_mem _ h1
            · exact h1
  | startLaunch p n hp hn hc hb hidle =>
      refine runInv_setNode hr p n _ hn ?_ ?_ ?_ _ _ ?_ ?_ ?_
      · rfl
      · simp
      · exact fun _ _ _ => hr.checked p hp
      · exact fun x hx => hx
      · exact fun x hx => List.mem_of_mem_erase hx
      · intro x hx
        by_cases hxp : x = p
        · exact Or.inl ⟨hxp, by simp⟩
        · rcases hx with h1 | h1
          · exact Or.inr (Or.inl h1)
          · exact Or.inr (Or.inr ((List.mem_erase_of_ne hxp).mpr h1))
  | startNoop p n hp hn hb =>
      refine runInv_setNode hr p n n hn rfl (fun e => e) (fun _ e _ => absurd e hb) _ _
        (fun x hx => hx) (fun x hx => List.mem_of_mem_erase hx) ?_
      intro x hx
      by_cases hxp : x = p
      · exact Or.inl ⟨hxp, hb⟩
      · rcases hx with h1 | h1
        · exact Or.inr (Or.inl h1)
        · exact Or.inr (Or.inr ((List.mem_erase_of_ne hxp).mpr h1))
  | produced p n o hn ha hrun hrec =>
      refine runInv_setNode hr p n _ hn ?_ ?_ ?_ _ _ ?_ ?_ ?_
      · rfl
      · simp [hrun]
      · simp [hrun]
      · exact fun x hx => hx
      · exact fun x hx => hx
      · exact fun x hx => Or.inr hx
  | escaped p n t hn ha hrun hth =>
      refine runInv_setNode hr p n _ hn ?_ ?_ ?_ _ _ ?_ ?_ ?_
      · rfl
      · simp [hrun]
      · simp [hrun]
      · exact fun x hx => hx
      · exact fun x hx => hx
      · exact fun x hx => Or.inr hx
  | setFinished p n hn ha hrun =>
      refine runInv_setNode hr p n _ hn ?_ ?_ ?_ _ _ ?_ ?_ ?_
      · rfl
      · simp
      · simp [hrun]
      · exact fun x hx => hx
      · exact fun x hx => hx
      · exact fun x hx => Or.inr hx
  | report p r n nr todo hn ha hr1 hnr hlt hp hnot hb hidle =>
      have hne : p ≠ r := by omega
      have hn1 : (s.graph.setNode r (reportedNode nr p)).node p = some n := by
        rw [node_setNode _ r p _ (node_lt hnr)]; simp [hne, hn]
      have hdne : nr.deps_ ≠ [] := List.ne_nil_of_mem hp
      have h1 : RunInv T (Sys.mk (s.graph.setNode r (reportedNode nr p)) s.pending s.checked) :=
        runInv_setNode hr r nr _ hnr (reportedNode_static nr p).2.2.1
          (fun _ => hb) (fun e => absurd e hdne) _ _ (fun x hx => hx) (fun x hx => hx)
          (fun x hx => Or.inr hx)
      refine runInv_setNode h1 p n _ hn1 ?_ ?_ ?_ _ _ ?_ ?_ ?_
      · rfl
      · exact fun e => e
      · exact fun _ e1 e2 => absurd e1 e2
      · exact fun x hx => hx
      · exact fun x hx => hx
      · exact fun x hx => Or.inr hx

theorem runInv_run {α : Type} {rs : List (Registration α)} {T : List Nat} {s u : Sys α}
    (hinv : Inv rs s) (hr : RunInv T s) (h : Run s u) : RunInv T u := by
  induction h with
  | refl => exact hr
  | tail l hrun hl hstep ih => exact runInv_step (inv_run hinv hrun) ih l hl hstep

theorem runInv_execute {α : Type} {rs : List (Registration α)} {g : ProducerGraph α}
    (hb : Built rs g) (target : Nat) (s0 : Sys α) (h : Execute (Sys.fresh g) target = some s0) :
    target < g.nodes_.length ∧ s0.graph = g ∧ RunInv (g.TransitiveDeps target) s0 := by
  obtain ⟨hlt, rfl⟩ := Execute_eq hb.topo target h
  refine ⟨hlt, rfl, ?_, ?_, ?_, ?_⟩
  · intro p hp; simpa [Sys.fresh] using hp
  · intro p hp; simp [Sys.fresh] at hp
  · intro p n _ _ hT _
    left
    simpa [Sys.fresh] using hT
  · intro p n hn _ hnb
    exact absurd (hb.fresh p n hn).1 hnb

/-! ## The states in which an execution ends -/

theorem quiescent_facts {α : Type} {rs : List (Registration α)} {s : Sys α}
    (hinv : Inv rs s) (hq : Quiescent s) :
    s.pending = [] ∧ s.checked = [] ∧
      ∀ p n, s.graph.node p = some n →
        n.async_future_ = .idle ∨ n.async_future_ = .reporting [] ∨
          ∃ e, n.async_future_ = .escaped e := by
  refine ⟨?_, ?_, ?_⟩
  · apply List.eq_nil_iff_forall_not_mem.mpr
    intro p hp
    obtain ⟨n, hn⟩ := node_of_lt (hinv.pending p hp)
    have := hq (.startCanRun p) rfl
    simp [step, hp, hn] at this
  · apply List.eq_nil_iff_forall_not_mem.mpr
    intro p hp
    obtain ⟨n, hn, _⟩ := hinv.checked p hp
    have := hq (.startTrySetRunning p) rfl
    simp [step, hp, hn] at this
  · intro p n hn
    have hi := hinv.nodes p n hn
    cases ha : n.async_future_ with
    | idle => exact Or.inl rfl
    | escaped e => exact Or.inr (Or.inr ⟨e, rfl⟩)
    | aborted => exact absurd ha hi.not_aborted
    | atRunProducer =>
        have := hq (.runProducer p) rfl
        simp [step, hn, ha] at this
    | atSetFinished =>
        have := hq (.setFinished p) rfl
        simp [step, hn, ha] at this
    | reporting todo =>
        cases todo with
        | nil => exact Or.inr (Or.inl rfl)
        | cons r rest =>
            obtain ⟨nr, _, heq⟩ :=
              step_report_eq hinv p r n (r :: rest) hn ha (List.mem_cons_self _ _)
            have := hq (.reportFinished p r) rfl
            rw [heq] at this
            simp at this

theorem finishes_iff {α : Type} (rs : List (Registration α)) (T : List Nat) (p : Nat) :
    Finishes rs T p ↔ Launched rs T p ∧ (denote rs p).isSome = true := by
  constructor
  · intro h
    cases h with
    | mk _ r h1 h2 h3 h4 => exact ⟨⟨r, h1, h2, h3⟩, h4⟩
  · rintro ⟨⟨r, h1, h2, h3⟩, h4⟩
    exact Finishes.mk p r h1 h2 h3 h4

/-- The state in which an execution ends is determined by the registrations and
the set of nodes on which `Execute` calls `Start()`. -/
theorem final_state {α : Type} {rs : List (Registration α)} {T : List Nat} {s : Sys α}
    (hinv : Inv rs s) (hr : RunInv T s) (hq : Quiescent s) :
    ∀ p n, s.graph.node p = some n →
      (n.state_ ≠ .BLOCKED ↔ Launched rs T p) ∧ (n.state_ = .FINISHED ↔ Finishes rs T p) := by
  obtain ⟨hpend, hchk, hasync⟩ := quiescent_facts hinv hq
  intro p
  induction p using Nat.strong_induction_on with
  | _ p ih =>
    intro n hn
    have hi := hinv.nodes p n hn
    obtain ⟨r, hr1, _, hmem⟩ := hinv.wired.wired p n hn
    have hlaunched : n.state_ ≠ .BLOCKED ↔ Launched rs T p := by
      constructor
      · intro hnb
        refine ⟨r, hr1, ?_, ?_⟩
        · intro hh
          have hd : n.deps_ = [] := by
            apply List.eq_nil_iff_forall_not_mem.mpr
            intro x hx
            have := (hmem x).mp hx
            rw [hh] at this
            simp at this
          exact hr.root_launched p n hn hd hnb
        · intro h hh
          have hdep : h ∈ n.deps_ := (hmem h).mpr hh
          have hfin := (canRun_iff hinv.topo p n hn hi).mp (hi.canrun hnb) h hdep
          obtain ⟨_, nd, todo, hnd, hrep, _⟩ := (hi.fin_iff h).mp hfin
          have hlt := hinv.topo.deps_lt p n hn h hdep
          exact ((ih h hlt nd hnd).2).mp
            ((hinv.nodes h nd hnd).coh_finished.mpr ⟨todo, hrep⟩)
      · rintro ⟨r0, hr0, hroot, hall⟩
        rw [hr1] at hr0
        have := Option.some.inj hr0
        subst this
        by_cases hd : n.deps_ = []
        · intro hb
          have hh : r.node_handles = [] := by
            apply List.eq_nil_iff_forall_not_mem.mpr
            intro x hx
            have := (hmem x).mpr hx
            rw [hd] at this
            simp at this
          rcases hr.root_waits p n hn hd (hroot hh) hb with h1 | h1
          · rw [hpend] at h1; simp at h1
          · rw [hchk] at h1; simp at h1
        · apply hi.started hd
          apply (canRun_iff hinv.topo p n hn hi).mpr
          intro d hdep
          have hlt := hinv.topo.deps_lt p n hn d hdep
          obtain ⟨nd, hnd⟩ := node_of_lt (lt_trans hlt (node_lt hn))
          have hfd := ((ih d hlt nd hnd).2).mpr (hall d ((hmem d).mp hdep))
          obtain ⟨todo, htodo⟩ := (hinv.nodes d nd hnd).coh_finished.mp hfd
          rcases hasync d nd hnd with h1 | h1 | ⟨e, h1⟩
          · rw [h1] at htodo; simp at htodo
          · exact (hi.fin_iff d).mpr ⟨hdep, nd, [], hnd, h1, by simp⟩
          · rw [h1] at htodo; simp at htodo
    refine ⟨hlaunched, ?_⟩
    rw [finishes_iff]
    constructor
    · intro hf
      have hnb : n.state_ ≠ .BLOCKED := by rw [hf]; simp
      refine ⟨hlaunched.mp hnb, ?_⟩
      obtain ⟨todo, htodo⟩ := hi.coh_finished.mp hf
      have hres := hi.result_iff.mpr (Or.inr ⟨todo, htodo⟩)
      obtain ⟨o, ho⟩ := Option.isSome_iff_exists.mp hres
      rw [hi.value o ho]
      rfl
    · rintro ⟨hl, hden⟩
      have hnb := hlaunched.mpr hl
      rcases hasync p n hn with h1 | h1 | ⟨e, h1⟩
      · exact absurd (hi.coh_blocked.mpr h1) hnb
      · exact hi.coh_finished.mpr ⟨[], h1⟩
      · rw [(hi.escaped e h1).1] at hden
        simp at hden

/-! ## Runs -/

theorem run_trans_steps {α : Type} (ls : List Label) :
    ∀ (s0 s u : Sys α), Run s0 s → (∀ l, l ∈ ls → l.internal = true) →
      runSteps ls s = some u → Run s0 u := by
  induction ls with
  | nil =>
      intro s0 s u hr _ h
      simp only [runSteps, Option.some.injEq] at h
      subst h
      exact hr
  | cons l ls ih =>
      intro s0 s u hr hl h
      unfold runSteps at h
      cases hs : step l s with
      | none => rw [hs] at h; simp at h
      | some s1 =>
          rw [hs] at h
          exact ih s0 s1 u (Run.tail l hr (hl l (List.mem_cons_self _ _)) hs)
            (fun x hx => hl x (List.mem_cons_of_mem _ hx)) h

theorem run_of_runSteps {α : Type} (ls : List Label) (s u : Sys α)
    (hl : ∀ l, l ∈ ls → l.internal = true) (h : runSteps ls s = some u) : Run s u :=
  run_trans_steps ls s s u (Run.refl s) hl h

theorem reach_trans_steps {α : Type} {g : ProducerGraph α} (ls : List Label) :
    ∀ (s u : Sys α), Reach g s → runSteps ls s = some u → Reach g u := by
  induction ls with
  | nil =>
      intro s u hr h
      simp only [runSteps, Option.some.injEq] at h
      subst h
      exact hr
  | cons l ls ih =>
      intro s u hr h
      unfold runSteps at h
      cases hs : step l s with
      | none => rw [hs] at h; simp at h
      | some s1 =>
          rw [hs] at h
          exact ih s1 u (Reach.tail l hr hs) h

theorem reach_of_runSteps {α : Type} (g : ProducerGraph α) (ls : List Label) (u : Sys α)
    (h : runSteps ls (Sys.fresh g) = some u) : Reach g u :=
  reach_trans_steps ls (Sys.fresh g) u Reach.fresh h

theorem build_eq_builtGraph {α : Type} (rs : List (Registration α))
    (h : (build rs).isSome = true) : build rs = some (builtGraph rs) := by
  unfold builtGraph
  cases hb : build rs with
  | none => rw [hb] at h; simp at h
  | some g => rfl

theorem runSteps_eq_stateAfter {α : Type} (g : ProducerGraph α) (ls : List Label)
    (h : (runSteps ls (Sys.fresh g)).isSome = true) :
    runSteps ls (Sys.fresh g) = some (stateAfter g ls) := by
  unfold stateAfter
  cases hb : runSteps ls (Sys.fresh g) with
  | none => rw [hb] at h; simp at h
  | some u => rfl

theorem node_eq_nodeAt {α : Type} (s : Sys α) (p : Nat)
    (h : (s.graph.node p).isSome = true) : s.graph.node p = some (nodeAt s p) := by
  unfold nodeAt
  cases hb : s.graph.node p with
  | none => rw [hb] at h; simp at h
  | some u => rfl

theorem execute_stateAfter {α : Type} (g : ProducerGraph α) (target : Nat)
    (h : (Execute (Sys.fresh g) target).isSome = true) :
    Execute (Sys.fresh g) target = some (stateAfter g [.execute target]) := by
  unfold stateAfter runSteps
  simp only [step]
  cases hb : Execute (Sys.fresh g) target with
  | none => rw [hb] at h; simp at h
  | some u => rfl

theorem run_stateAfter {α : Type} (g : ProducerGraph α) (l0 : Label) (ls : List Label)
    (h : (runSteps (l0 :: ls) (Sys.fresh g)).isSome = true)
    (hl : ∀ l, l ∈ ls → l.internal = true) :
    Run (stateAfter g [l0]) (stateAfter g (l0 :: ls)) := by
  have h1 := runSteps_eq_stateAfter g (l0 :: ls) h
  unfold runSteps at h1
  cases hs : step l0 (Sys.fresh g) with
  | none => rw [hs] at h1; simp at h1
  | some s1 =>
      rw [hs] at h1
      have h0 : stateAfter g [l0] = s1 := by
        simp [stateAfter, runSteps, hs]
      rw [h0]
      exact run_of_runSteps ls s1 _ hl h1

theorem reach_of_run {α : Type} {g : ProducerGraph α} {s u : Sys α} (hs : Reach g s)
    (h : Run s u) : Reach g u := by
  induction h with
  | refl => exact hs
  | tail l _ _ hstep ih => exact Reach.tail l ih hstep

theorem reach_execute {α : Type} {g : ProducerGraph α} {s0 : Sys α} {target : Nat}
    (h : Execute (Sys.fresh g) target = some s0) : Reach g s0 :=
  Reach.tail (.execute target) Reach.fresh h

theorem quiescent_of {α : Type} (s : Sys α) (hp : s.pending = []) (hc : s.checked = [])
    (hn : s.graph.nodes_.all Node.ended = true) : Quiescent s := by
  have hended : ∀ p n, s.graph.node p = some n → n.ended = true := by
    intro p n h
    unfold ProducerGraph.node at h
    exact List.all_eq_true.mp hn n (List.getElem?_mem h)
  intro l hl
  cases l with
  | execute id => simp [Label.internal] at hl
  | startCanRun p => simp [step, hp]
  | startTrySetRunning p => simp [step, hc]
  | runProducer p =>
      simp only [step]
      cases h : s.graph.node p with
      | none => rfl
      | some n =>
          have := hended p n h
          simp only
          split
          · rename_i ha
            simp [Node.ended, ha] at this
          · rfl
  | setFinished p =>
      simp only [step]
      cases h : s.graph.node p with
      | none => rfl
      | some n =>
          have := hended p n h
          simp only
          split
          · rename_i ha
            simp [Node.ended, ha] at this
          · rfl
  | reportFinished p r =>
      simp only [step]
      cases h : s.graph.node p with
      | none => rfl
      | some n =>
          have := hended p n h
          simp only
          cases ha : n.async_future_ with
          | reporting todo =>
              cases todo with
              | nil => simp
              | cons x xs => simp [Node.ended, ha] at this
          | _ => rfl

/-! ## What a node records and what its promise holds -/

theorem node_outcome {α : Type} {rs : List (Registration α)} {s : Sys α} (hinv : Inv rs s)
    (p : Nat) (n : Node α) (hn : s.graph.node p = some n) :
    (n.result_ = none ∧ n.result_promise_.shared = none) ∨
      ∃ o, denote rs p = some o ∧ n.result_ = some o ∧
        n.result_promise_.shared = some (resolutionOf o) := by
  have hi := hinv.nodes p n hn
  cases hres : n.result_ with
  | none => left; exact ⟨rfl, by rw [hi.promise, hres]; rfl⟩
  | some o => right; exact ⟨o, hi.value o hres, rfl, by rw [hi.promise, hres]; rfl⟩

theorem dep_iff_handle {α : Type} {rs : List (Registration α)} {g : ProducerGraph α}
    (hw : Wired rs g) (a b : Nat) :
    Dep g a b ↔ ∃ r, rs[a]? = some r ∧ b ∈ r.node_handles := by
  rw [dep_iff]
  constructor
  · rintro ⟨n, hn, hb⟩
    obtain ⟨r, hr, _, hm⟩ := hw.wired a n hn
    exact ⟨r, hr, (hm b).mp hb⟩
  · rintro ⟨r, hr, hb⟩
    have hlt : a < g.nodes_.length := by
      rw [hw.len]
      exact (List.getElem?_eq_some_iff.mp hr).1
    obtain ⟨n, hn⟩ := node_of_lt hlt
    obtain ⟨r0, hr0, _, hm⟩ := hw.wired a n hn
    rw [hr] at hr0
    have := Option.some.inj hr0
    subst this
    exact ⟨n, hn, (hm b).mpr hb⟩

theorem finishes_of_denote {α : Type} {rs : List (Registration α)} {g : ProducerGraph α}
    (ht : Topo g) (hw : Wired rs g) (target : Nat) (hlt : target < g.nodes_.length)
    (hden : ∀ q, q ∈ g.TransitiveDeps target → (denote rs q).isSome = true) :
    ∀ q, q ∈ g.TransitiveDeps target → Finishes rs (g.TransitiveDeps target) q := by
  intro q
  induction q using Nat.strong_induction_on with
  | _ q ih =>
    intro hq
    have hreach := (mem_TransitiveDeps ht target q hlt).mp hq
    have hqlt : q < rs.length := by
      have := reaches_le ht hreach
      rw [← hw.len]
      omega
    refine Finishes.mk q rs[q] (List.getElem?_eq_getElem hqlt) (fun _ => hq) ?_ (hden q hq)
    intro h hh
    have hdep : Dep g q h := (dep_iff_handle hw q h).mpr ⟨_, List.getElem?_eq_getElem hqlt, hh⟩
    exact ih h (dep_lt ht hdep)
      ((mem_TransitiveDeps ht target h hlt).mpr (Relation.ReflTransGen.tail hreach hdep))

/-- The end of an execution of `Execute(target)` when every node of
`TransitiveDeps()` yields an output that is recorded: the target is `FINISHED`,
holds that output, and its promise is resolved with it. -/
theorem ends_resolved {α : Type} {rs : List (Registration α)} {g : ProducerGraph α}
    (hb : Built rs g) (target : Nat) (s0 s : Sys α)
    (h0 : Execute (Sys.fresh g) target = some s0)
    (hden : ∀ q, q ∈ g.TransitiveDeps target → (denote rs q).isSome = true)
    (hrun : Run s0 s) (hq : Quiescent s) :
    ∃ n o, s.graph.node target = some n ∧ n.state_ = .FINISHED ∧ denote rs target = some o ∧
      n.result_ = some o ∧ n.result_promise_.shared = some (resolutionOf o) := by
  obtain ⟨hlt, hg, hr0⟩ := runInv_execute hb target s0 h0
  have hinv0 : Inv rs s0 := inv_reach hb (reach_execute h0)
  have hinv := inv_run hinv0 hrun
  have hr := runInv_run hinv0 hr0 hrun
  have hlen : s.graph.nodes_.length = g.nodes_.length := by
    rw [hinv.wired.len, hb.wired.len]
  obtain ⟨n, hn⟩ := node_of_lt (by rw [hlen]; exact hlt : target < s.graph.nodes_.length)
  have hT : target ∈ g.TransitiveDeps target :=
    (mem_TransitiveDeps hb.topo target target hlt).mpr Relation.ReflTransGen.refl
  have hfin := finishes_of_denote hb.topo hb.wired target hlt hden target hT
  have hstate := ((final_state hinv hr hq target n hn).2).mpr hfin
  have hi := hinv.nodes target n hn
  obtain ⟨todo, htodo⟩ := hi.coh_finished.mp hstate
  have hres := hi.result_iff.mpr (Or.inr ⟨todo, htodo⟩)
  obtain ⟨o, ho⟩ := Option.isSome_iff_exists.mp hres
  exact ⟨n, o, hn, hstate, hi.value o ho, ho, by rw [hi.promise, ho]; rfl⟩

/-! ## Graphs whose producers return values -/

theorem getAll_values {α : Type} (vs : List α) :
    getAll ((vs.map Output.ofContent).map Output.AsInput) = .ok vs := by
  induction vs with
  | nil => rfl
  | cons v vs ih =>
      simp only [List.map_cons, getAll, Output.ofContent, Output.AsInput, Input.get, Value.get]
      simp only [Output.ofContent] at ih
      rw [ih]

theorem value_unfold {α : Type} (vrs : List (ValueRegistration α)) (p : Nat)
    (r : ValueRegistration α) (hr : vrs[p]? = some r)
    (hlt : ∀ h, h ∈ r.node_handles → h < p) :
    value vrs p = (gather (value vrs) r.node_handles).map r.compute := by
  have h1 : value vrs p = valueStep vrs (memoTable (valueStep vrs) p) p := rfl
  have h2 : gather (fun h => ((memoTable (valueStep vrs) p)[h]?).join) r.node_handles
      = gather (value vrs) r.node_handles := by
    apply gather_congr
    intro x hx
    simp only [memoTable_get _ _ _ (hlt x hx)]
    rfl
  rw [h1, valueStep, hr]
  simp only
  rw [h2]

theorem gather_map {β γ : Type} (v1 : Nat → Option β) (v2 : Nat → Option γ) (F : β → γ)
    (l : List Nat) (h : ∀ x, x ∈ l → ∃ b, v1 x = some b ∧ v2 x = some (F b)) :
    ∃ bs, gather v1 l = some bs ∧ gather v2 l = some (bs.map F) := by
  induction l with
  | nil => exact ⟨[], rfl, rfl⟩
  | cons a l ih =>
      obtain ⟨b, hb1, hb2⟩ := h a (List.mem_cons_self _ _)
      obtain ⟨bs, hbs1, hbs2⟩ := ih (fun x hx => h x (List.mem_cons_of_mem _ hx))
      refine ⟨b :: bs, ?_, ?_⟩
      · unfold gather; rw [hb1, hbs1]
      · unfold gather; rw [hb2, hbs2]; rfl

theorem value_denote {α : Type} (vrs : List (ValueRegistration α))
    (hlt : ∀ (q : Nat) (r : ValueRegistration α), vrs[q]? = some r →
      ∀ h, h ∈ r.node_handles → h < q) :
    ∀ p, p < vrs.length → ∃ v, value vrs p = some v ∧
      denote (vrs.map ValueRegistration.toRegistration) p = some (Output.ofContent v) := by
  intro p
  induction p using Nat.strong_induction_on with
  | _ p ih =>
    intro hp
    have hr : vrs[p]? = some vrs[p] := List.getElem?_eq_getElem hp
    have hh := hlt p vrs[p] hr
    obtain ⟨vs, hvs1, hvs2⟩ := gather_map (value vrs)
      (denote (vrs.map ValueRegistration.toRegistration)) Output.ofContent vrs[p].node_handles
      (fun x hx => ih x (hh x hx) (lt_trans (hh x hx) hp))
    refine ⟨vrs[p].compute vs, ?_, ?_⟩
    · rw [value_unfold vrs p vrs[p] hr hh, hvs1]
      rfl
    · have hr2 : (vrs.map ValueRegistration.toRegistration)[p]? =
          some vrs[p].toRegistration := by
        rw [List.getElem?_map, hr]
        rfl
      rw [denote_unfold _ p _ hr2 hh]
      simp only [ValueRegistration.toRegistration, hvs2, valueProducer, getAll_values,
        Outcome.ofExcept, recorded]

theorem built_handles_lt {α : Type} {rs : List (Registration α)} {g : ProducerGraph α}
    (hb : Built rs g) (q : Nat) (r : Registration α) (hr : rs[q]? = some r) :
    ∀ h, h ∈ r.node_handles → h < q := by
  intro h hh
  exact dep_lt hb.topo ((dep_iff_handle hb.wired q h).mpr ⟨r, hr, hh⟩)

/-! ## Unchecked readers -/

theorem get_error_eq {α : Type} (x : Input α) (e : Exception) (h : x.get = .error e) :
    e = .std "hi" := by
  cases x with
  | ofValue v => simp [Input.get] at h
  | ofError err =>
      simp only [Input.get] at h
      exact (Except.error.inj h).symm

theorem getAll_error {α : Type} (ins : List (Input α)) (i : Nat) (x : Input α) (e : Exception)
    (hx : ins[i]? = some x) (he : x.get = .error e) : getAll ins = .error e := by
  have hhi := get_error_eq x e he
  subst hhi
  induction ins generalizing i with
  | nil => simp at hx
  | cons a rest ih =>
      unfold getAll
      cases ha : a.get with
      | error e1 =>
          have := get_error_eq a e1 ha
          subst this
          rfl
      | ok v =>
          cases i with
          | zero =>
              simp only [List.getElem?_cons_zero, Option.some.injEq] at hx
              subst hx
              rw [ha] at he
              exact absurd he (by simp)
          | succ j =>
              simp only [List.getElem?_cons_succ] at hx
              simp only [ih j hx]

theorem valueProducer_readsUnchecked {α : Type} (compute : List α → α) (i : Nat) :
    ReadsUnchecked (valueProducer compute) i := by
  intro ins x e hx he
  unfold valueProducer
  rw [getAll_error ins i x e hx he]

theorem gather_getElem {β : Type} (v : Nat → Option β) (l : List Nat) (outs : List β)
    (hg : gather v l = some outs) (i h : Nat) (hh : l[i]? = some h) :
    ∃ o, v h = some o ∧ outs[i]? = some o := by
  induction l generalizing outs i with
  | nil => simp at hh
  | cons a t ih =>
      unfold gather at hg
      cases hva : v a with
      | none => rw [hva] at hg; simp at hg
      | some o =>
          cases hgt : gather v t with
          | none => rw [hva, hgt] at hg; simp at hg
          | some os =>
              rw [hva, hgt] at hg
              simp only [Option.some.injEq] at hg
              subst hg
              cases i with
              | zero =>
                  simp only [List.getElem?_cons_zero, Option.some.injEq] at hh
                  subst hh
                  exact ⟨o, hva, by simp⟩
              | succ j =>
                  simp only [List.getElem?_cons_succ] at hh
                  obtain ⟨o1, h1, h2⟩ := ih os hgt j hh
                  exact ⟨o1, h1, by simpa using h2⟩

/-- The output that an unchecked reader records when the node of the input it
reads records an `Error`: the `Error` of the first `catch` of `RunProducer`, as
soon as the nodes of all its handles record an output. -/
theorem reader_denote {α : Type} {rs : List (Registration α)} {g : ProducerGraph α}
    (hb : Built rs g) (p : Nat) (r : Registration α) (i h : Nat) (hr : rs[p]? = some r)
    (hh : r.node_handles[i]? = some h) (hf : ReadsUnchecked r.f i)
    (o : Output α) (ho : denote rs h = some o) (hoe : o.IsError = true) :
    denote rs p = (gather (denote rs) r.node_handles).map
      fun _ => Output.ofError (.mk none "Exception while running producer") := by
  rw [denote_unfold rs p r hr (built_handles_lt hb p r hr)]
  cases hg : gather (denote rs) r.node_handles with
  | none => rfl
  | some outs =>
      obtain ⟨o1, h1, h2⟩ := gather_getElem _ _ outs hg i h hh
      rw [ho] at h1
      have := Option.some.inj h1
      subst this
      have hin : (outs.map Output.AsInput)[i]? = some o.AsInput := by
        rw [List.getElem?_map, h2]; rfl
      have hget : o.AsInput.get = .error (.std "hi") := by
        cases o with
        | ofValue v => simp [Output.IsError] at hoe
        | ofError err => rfl
      simp only [hf _ _ _ hin hget, Option.map_some']
      rfl

/-- A node at the end of a chain of unchecked readers records an `Error` as soon
as the nodes of all its handles record an output. -/
theorem poisoned_denote {α : Type} {rs : List (Registration α)} {g : ProducerGraph α}
    (hb : Built rs g) (p : Nat) (hP : Poisoned rs p) :
    ∃ r E, rs[p]? = some r ∧ Output.IsError E = true ∧
      denote rs p = (gather (denote rs) r.node_handles).map fun _ => E := by
  induction hP with
  | root p r err hr hnil hf =>
      refine ⟨r, Output.ofError err, hr, rfl, ?_⟩
      rw [denote_unfold rs p r hr (built_handles_lt hb p r hr), hnil]
      simp only [gather, List.map_nil, hf, Option.map_some']
      rfl
  | reader p r i h hr hh hf _ ih =>
      obtain ⟨rh, E, _, hE, hden⟩ := ih
      refine ⟨r, Output.ofError (.mk none "Exception while running producer"), hr, rfl, ?_⟩
      cases hdh : denote rs h with
      | none =>
          rw [denote_unfold rs p r hr (built_handles_lt hb p r hr),
            gather_eq_none _ _ h (List.getElem?_mem hh) hdh]
          rfl
      | some o =>
          have hoe : o.IsError = true := by
            rw [hdh] at hden
            cases hgh : gather (denote rs) rh.node_handles with
            | none => rw [hgh] at hden; simp at hden
            | some outs =>
                rw [hgh] at hden
                simp only [Option.map_some', Option.some.injEq] at hden
                rw [hden]; exact hE
          exact reader_denote hb p r i h hr hh hf o hdh hoe

/-- A node whose output is an `Error` as soon as the nodes of its handles record
an output: in every state its task is intact, and it is unresolved or failed. -/
theorem node_fails {α : Type} {rs : List (Registration α)} {s : Sys α} (hinv : Inv rs s)
    (p : Nat) (n : Node α) (hn : s.graph.node p = some n) (r : Registration α)
    (E : Output α) (hr : rs[p]? = some r) (hE : E.IsError = true)
    (hden : denote rs p = (gather (denote rs) r.node_handles).map fun _ => E) :
    n.intact ∧ (n.unresolved ∨ n.failed) := by
  have hi := hinv.nodes p n hn
  refine ⟨⟨hi.not_aborted, ?_⟩, ?_⟩
  · intro e he
    have hnone := (hi.escaped e he).1
    have hnb : n.state_ ≠ .BLOCKED := by
      intro hb
      have := hi.coh_blocked.mp hb
      rw [he] at this
      exact absurd this (by simp)
    obtain ⟨r1, hr1, _, _, outs, houts⟩ := handles_ready hinv p n hn (hi.canrun hnb)
    rw [hr] at hr1
    have := Option.some.inj hr1
    subst this
    rw [gather_eq_some (denote rs) r.node_handles outs (fun x hx => (houts x hx).2)] at hden
    rw [hnone] at hden
    simp at hden
  · rcases node_outcome hinv p n hn with h | ⟨o, ho, hres, hprom⟩
    · exact Or.inl h
    · right
      have hoE : o = E := by
        rw [ho] at hden
        cases hg : gather (denote rs) r.node_handles with
        | none => rw [hg] at hden; simp at hden
        | some outs =>
            rw [hg] at hden
            simpa using hden
      subst hoE
      refine ⟨o, hres, hE, ?_⟩
      rw [hprom]
      cases o with
      | ofValue v => simp [Output.IsError] at hE
      | ofError err => rfl

/-! ## Graphs without foreign faults -/

theorem getAll_error_eq {α : Type} (ins : List (Input α)) (e : Exception)
    (h : getAll ins = .error e) : e = .std "hi" := by
  induction ins with
  | nil => simp [getAll] at h
  | cons a rest ih =>
      unfold getAll at h
      cases ha : a.get with
      | error e1 =>
          rw [ha] at h
          have := get_error_eq a e1 ha
          subst this
          exact (Except.error.inj h).symm
      | ok v =>
          rw [ha] at h
          cases hr : getAll rest with
          | error e2 =>
              rw [hr] at h
              have := Except.error.inj h
              subst this
              exact ih hr
          | ok vs => rw [hr] at h; simp at h

theorem valueProducer_no_foreign {α : Type} (compute : List α → α) (ins : List (Input α))
    (tag : Nat) : valueProducer compute ins ≠ .error (.other tag) := by
  unfold valueProducer
  cases hg : getAll ins with
  | error e =>
      have := getAll_error_eq ins e hg
      subst this
      simp
  | ok vs => simp

/-- Without foreign faults below it, every node yields an output that is
recorded. -/
theorem denote_isSome {α : Type} {rs : List (Registration α)} {g : ProducerGraph α}
    (hb : Built rs g) (target : Nat) (hlt : target < g.nodes_.length)
    (hnf : NoForeignFault rs (g.TransitiveDeps target)) :
    ∀ q, q ∈ g.TransitiveDeps target → (denote rs q).isSome = true := by
  intro q
  induction q using Nat.strong_induction_on with
  | _ q ih =>
    intro hq
    have hreach := (mem_TransitiveDeps hb.topo target q hlt).mp hq
    have hqlt : q < rs.length := by
      have := reaches_le hb.topo hreach
      rw [← hb.wired.len]
      omega
    have hr : rs[q]? = some rs[q] := List.getElem?_eq_getElem hqlt
    have hhl := built_handles_lt hb q rs[q] hr
    rw [denote_unfold rs q rs[q] hr hhl]
    have hall : ∀ h, h ∈ rs[q].node_handles →
        denote rs h = some ((denote rs h).getD (.ofError (.mk none ""))) := by
      intro h hh
      have hdep : Dep g q h := (dep_iff_handle hb.wired q h).mpr ⟨_, hr, hh⟩
      have := ih h (hhl h hh)
        ((mem_TransitiveDeps hb.topo target h hlt).mpr (Relation.ReflTransGen.tail hreach hdep))
      cases hd : denote rs h with
      | none => rw [hd] at this; simp at this
      | some o => rfl
    rw [gather_eq_some (denote rs) rs[q].node_handles _ hall]
    simp only
    cases hf : rs[q].f (List.map Output.AsInput (List.map
        (fun h => (denote rs h).getD (.ofError (.mk none ""))) rs[q].node_handles)) with
    | ok o => rfl
    | error e =>
        cases e with
        | std w => rfl
        | other tag => exact absurd hf (hnf q hq rs[q] hr _ tag)

/-! ## Registrations that differ at one call -/

theorem sameExceptAt_symm {α : Type} {rs1 rs2 : List (Registration α)} {x : Nat}
    (h : SameExceptAt rs1 rs2 x) : SameExceptAt rs2 rs1 x := by
  refine ⟨h.1.symm, ?_⟩
  intro q r2 r1 h2 h1
  obtain ⟨a, b, c⟩ := h.2 q r1 r2 h1 h2
  exact ⟨a.symm, b.symm, fun hq => (c hq).symm⟩

theorem dep_congr {α : Type} {rs1 rs2 : List (Registration α)} {g1 g2 : ProducerGraph α}
    {x : Nat} (hs : SameExceptAt rs1 rs2 x) (hw1 : Wired rs1 g1) (hw2 : Wired rs2 g2)
    (a b : Nat) (h : Dep g1 a b) : Dep g2 a b := by
  obtain ⟨r1, hr1, hb⟩ := (dep_iff_handle hw1 a b).mp h
  have ha : a < rs2.length := by
    rw [← hs.1]
    exact (List.getElem?_eq_some.mp hr1).1
  have hr2 : rs2[a]? = some rs2[a] := List.getElem?_eq_getElem ha
  refine (dep_iff_handle hw2 a b).mpr ⟨rs2[a], hr2, ?_⟩
  rw [← (hs.2 a r1 rs2[a] hr1 hr2).2.1]
  exact hb

theorem reaches_congr {α : Type} {rs1 rs2 : List (Registration α)} {g1 g2 : ProducerGraph α}
    {x : Nat} (hs : SameExceptAt rs1 rs2 x) (hw1 : Wired rs1 g1) (hw2 : Wired rs2 g2)
    (a b : Nat) (h : Reaches g1 a b) : Reaches g2 a b := by
  induction h with
  | refl => exact Relation.ReflTransGen.refl
  | tail _ hd ih => exact Relation.ReflTransGen.tail ih (dep_congr hs hw1 hw2 _ _ hd)

theorem denote_of_none {α : Type} (rs : List (Registration α)) (p : Nat) (h : rs[p]? = none) :
    denote rs p = none := by
  have h1 : denote rs p = denoteStep rs (memoTable (denoteStep rs) p) p := rfl
  rw [h1, denoteStep, h]

/-- A node that does not reach `x` records the same output under registrations
that differ at most in the function of call `x`. -/
theorem denote_congr {α : Type} {rs1 rs2 : List (Registration α)} {g1 g2 : ProducerGraph α}
    {x : Nat} (hs : SameExceptAt rs1 rs2 x) (hb1 : Built rs1 g1) (hb2 : Built rs2 g2) :
    ∀ y, ¬ Reaches g1 y x → denote rs1 y = denote rs2 y := by
  intro y
  induction y using Nat.strong_induction_on with
  | _ y ih =>
    intro hy
    by_cases hlt : y < rs1.length
    · have hlt2 : y < rs2.length := by rw [← hs.1]; exact hlt
      have hr1 : rs1[y]? = some rs1[y] := List.getElem?_eq_getElem hlt
      have hr2 : rs2[y]? = some rs2[y] := List.getElem?_eq_getElem hlt2
      obtain ⟨_, hh, hf⟩ := hs.2 y rs1[y] rs2[y] hr1 hr2
      have hne : y ≠ x := by
        intro e
        exact hy (e ▸ Relation.ReflTransGen.refl)
      rw [denote_unfold rs1 y rs1[y] hr1 (built_handles_lt hb1 y _ hr1),
        denote_unfold rs2 y rs2[y] hr2 (built_handles_lt hb2 y _ hr2), ← hh, ← hf hne]
      have hgc : gather (denote rs1) rs1[y].node_handles
          = gather (denote rs2) rs1[y].node_handles := by
        apply gather_congr
        intro h hhm
        apply ih h (built_handles_lt hb1 y _ hr1 h hhm)
        intro hreach
        exact hy (Relation.ReflTransGen.head
          ((dep_iff_handle hb1.wired y h).mpr ⟨_, hr1, hhm⟩) hreach)
      rw [hgc]
    · have h1 : rs1[y]? = none := List.getElem?_eq_none (by omega)
      have h2 : rs2[y]? = none := List.getElem?_eq_none (by rw [← hs.1]; omega)
      rw [denote_of_none rs1 y h1, denote_of_none rs2 y h2]

/-- A node that does not reach `x` and finishes, finishes as well under
registrations that differ at most in the function of call `x`. -/
theorem finishes_congr {α : Type} {rs1 rs2 : List (Registration α)} {g1 g2 : ProducerGraph α}
    {x : Nat} (hs : SameExceptAt rs1 rs2 x) (hb1 : Built rs1 g1) (hb2 : Built rs2 g2)
    (T1 T2 : List Nat) (hT : ∀ q, q ∈ T1 → q ∈ T2) :
    ∀ y, Finishes rs1 T1 y → ¬ Reaches g1 y x → Finishes rs2 T2 y := by
  intro y hF
  induction hF with
  | mk p r hr hroot _ hden ih =>
      intro hy
      have hlt2 : p < rs2.length := by
        rw [← hs.1]
        exact (List.getElem?_eq_some.mp hr).1
      have hr2 : rs2[p]? = some rs2[p] := List.getElem?_eq_getElem hlt2
      obtain ⟨_, hh, _⟩ := hs.2 p r rs2[p] hr hr2
      refine Finishes.mk p rs2[p] hr2 ?_ ?_ ?_
      · intro hnil
        exact hT p (hroot (by rw [hh]; exact hnil))
      · intro h hhm
        rw [← hh] at hhm
        apply ih h hhm
        intro hreach
        exact hy (Relation.ReflTransGen.head
          ((dep_iff_handle hb1.wired p h).mpr ⟨_, hr, hhm⟩) hreach)
      · rw [← denote_congr hs hb1 hb2 p hy]
        exact hden

theorem launched_congr {α : Type} {rs1 rs2 : List (Registration α)} {g1 g2 : ProducerGraph α}
    {x : Nat} (hs : SameExceptAt rs1 rs2 x) (hb1 : Built rs1 g1) (hb2 : Built rs2 g2)
    (T1 T2 : List Nat) (hT : ∀ q, q ∈ T1 → q ∈ T2) (y : Nat)
    (hL : Launched rs1 T1 y) (hy : ¬ Reaches g1 y x) : Launched rs2 T2 y := by
  obtain ⟨r, hr, hroot, hdeps⟩ := hL
  have hlt2 : y < rs2.length := by
    rw [← hs.1]
    exact (List.getElem?_eq_some.mp hr).1
  have hr2 : rs2[y]? = some rs2[y] := List.getElem?_eq_getElem hlt2
  obtain ⟨_, hh, _⟩ := hs.2 y r rs2[y] hr hr2
  refine ⟨rs2[y], hr2, ?_, ?_⟩
  · intro hnil
    exact hT y (hroot (by rw [hh]; exact hnil))
  · intro h hhm
    rw [← hh] at hhm
    apply finishes_congr hs hb1 hb2 T1 T2 hT h (hdeps h hhm)
    intro hreach
    exact hy (Relation.ReflTransGen.head
      ((dep_iff_handle hb1.wired y h).mpr ⟨_, hr, hhm⟩) hreach)

/-- The node at the end of an execution: `FINISHED` with its output recorded and
its promise resolved with it, or without an output and with its promise
unresolved. -/
theorem final_node {α : Type} {rs : List (Registration α)} {s : Sys α}
    (hinv : Inv rs s) (hq : Quiescent s) (p : Nat) (n : Node α)
    (hn : s.graph.node p = some n) :
    (n.state_ = .FINISHED ∧ ∃ o, denote rs p = some o ∧ n.result_ = some o ∧
        n.result_promise_.shared = some (resolutionOf o)) ∨
      (n.state_ ≠ .FINISHED ∧ n.result_ = none ∧ n.result_promise_.shared = none) := by
  have hi := hinv.nodes p n hn
  obtain ⟨_, _, hfacts⟩ := quiescent_facts hinv hq
  rcases node_outcome hinv p n hn with ⟨h1, h2⟩ | ⟨o, ho, hres, hprom⟩
  · right
    refine ⟨?_, h1, h2⟩
    intro hfin
    obtain ⟨todo, htodo⟩ := hi.coh_finished.mp hfin
    have := hi.result_iff.mpr (Or.inr ⟨todo, htodo⟩)
    rw [h1] at this
    simp at this
  · left
    refine ⟨?_, o, ho, hres, hprom⟩
    have hsome : n.result_.isSome = true := by rw [hres]; rfl
    rcases hi.result_iff.mp hsome with h | h
    · rcases hfacts p n hn with h1 | h1 | ⟨e, h1⟩ <;> rw [h] at h1 <;> simp at h1
    · exact hi.coh_finished.mpr h

/-! ## The traversal of `TransitiveDeps` -/

theorem nodup_foldl_of_step (F : List Nat → Nat → List Nat)
    (hF : ∀ acc d, acc.Nodup → (F acc d).Nodup) (ds : List Nat) :
    ∀ acc : List Nat, acc.Nodup → (ds.foldl F acc).Nodup := by
  induction ds with
  | nil => intro acc h; exact h
  | cons d ds ih => intro acc h; exact ih (F acc d) (hF acc d h)

theorem nodup_TransitiveDepsInternal {α : Type} (g : ProducerGraph α) :
    ∀ (fuel this : Nat) (result : List Nat), result.Nodup →
      (g.TransitiveDepsInternal fuel this result).Nodup := by
  intro fuel
  induction fuel with
  | zero => intro this result h; exact h
  | succ fuel ih =>
      intro this result h
      unfold ProducerGraph.TransitiveDepsInternal
      by_cases hm : this ∈ result
      · simp only [hm, if_true]; exact h
      · simp only [hm, if_false]
        exact nodup_foldl_of_step _ (fun acc d hacc => ih d acc hacc) _ _ (nodup_setInsert h)

theorem foldl_congr_mem (F G : List Nat → Nat → List Nat) (ds : List Nat)
    (h : ∀ d, d ∈ ds → ∀ acc, F acc d = G acc d) :
    ∀ acc : List Nat, ds.foldl F acc = ds.foldl G acc := by
  induction ds with
  | nil => intro acc; rfl
  | cons d ds ih =>
      intro acc
      rw [List.foldl_cons, List.foldl_cons, h d (List.mem_cons_self _ _) acc]
      exact ih (fun e he => h e (List.mem_cons_of_mem _ he)) _

/-- The bound on the depth of the recursion is never what ends the traversal:
every bound above the pointer gives the same result. -/
theorem TransitiveDepsInternal_fuel {α : Type} {g : ProducerGraph α} (ht : Topo g) :
    ∀ (this fuel1 fuel2 : Nat) (result : List Nat), this < fuel1 → this < fuel2 →
      g.TransitiveDepsInternal fuel1 this result = g.TransitiveDepsInternal fuel2 this result := by
  intro this
  induction this using Nat.strong_induction_on with
  | _ this ih =>
    intro fuel1 fuel2 result h1 h2
    obtain ⟨f1, rfl⟩ : ∃ f, fuel1 = f + 1 := ⟨fuel1 - 1, by omega⟩
    obtain ⟨f2, rfl⟩ : ∃ f, fuel2 = f + 1 := ⟨fuel2 - 1, by omega⟩
    rw [ProducerGraph.TransitiveDepsInternal, ProducerGraph.TransitiveDepsInternal]
    by_cases hm : this ∈ result
    · simp only [hm, if_true]
    · simp only [hm, if_false]
      apply foldl_congr_mem
      intro d hd acc
      have hlt : d < this := dep_lt ht hd
      exact ih d hlt f1 f2 acc (by omega) (by omega)

/-! ## Rendering of errors -/

theorem ToString_no_cause (m : String) :
    (Error.mk none m).ToString = "Producer error with message: \n" ++ m ++ "\n" := by
  simp [Error.ToString]

theorem ToString_cause (c : Error) (m : String) :
    (Error.mk (some c) m).ToString =
      "Producer error with message: \n" ++ m ++ "\n" ++ "Caused by: \n" ++ c.ToString ++ "\n" := by
  have h1 : "Producer error with message: " ++ "\n" = "Producer error with message: \n" := by
    decide
  have h2 : "Caused by: " ++ "\n" = "Caused by: \n" := by decide
  rw [Error.ToString, h1, h2]
  simp only [String.append_assoc]

theorem ToString_contains_causes (e : Error) :
    ∀ c, c ∈ e.causes → ∃ pre post : String, e.ToString = pre ++ c.ToString ++ post := by
  match e with
  | .mk none m =>
      intro c hc
      simp only [Error.causes, List.mem_singleton] at hc
      subst hc
      exact ⟨"", "", by simp⟩
  | .mk (some c0) m =>
      intro c hc
      simp only [Error.causes, List.mem_cons] at hc
      rcases hc with hc | hc
      · subst hc
        exact ⟨"", "", by simp⟩
      · obtain ⟨pre, post, h⟩ := ToString_contains_causes c0 c hc
        refine ⟨"Producer error with message: \n" ++ m ++ "\n" ++ "Caused by: \n" ++ pre,
          post ++ "\n", ?_⟩
        rw [ToString_cause, h]
        simp only [String.append_assoc]

/-! ## The state of a node only advances -/

theorem rank_TrySetRunning {α : Type} (n : Node α) :
    n.state_.rank ≤ n.TrySetRunning.2.state_.rank := by
  unfold Node.TrySetRunning
  by_cases h : n.state_ = .BLOCKED
  · simp [h, NodeState.rank]
  · simp [h]

theorem rank_StartAfterCanRun {α : Type} (n : Node α) :
    n.state_.rank ≤ n.StartAfterCanRun.state_.rank := by
  unfold Node.StartAfterCanRun Node.TrySetRunning
  by_cases h : n.state_ = .BLOCKED
  · simp [h, NodeState.rank]
  · simp [h]

theorem rank_Start {α : Type} (n : Node α) : n.state_.rank ≤ n.Start.state_.rank := by
  unfold Node.Start
  by_cases h : n.CanRun = true
  · simp only [h, Bool.not_true, Bool.false_eq_true, if_false]
    exact rank_StartAfterCanRun n
  · simp [h]

theorem rank_SetFinished {α : Type} (n n1 : Node α) (h : n.SetFinished = some n1) :
    n.state_.rank ≤ n1.state_.rank := by
  unfold Node.SetFinished at h
  by_cases hs : n.state_ = .RUNNING
  · simp only [hs, if_true, Option.some.injEq] at h
    subst h
    simp [hs, NodeState.rank]
  · simp [hs] at h

theorem rank_ReportFinished {α : Type} (n n1 : Node α) (node : Nat)
    (h : n.ReportFinished node = some n1) : n.state_.rank ≤ n1.state_.rank := by
  unfold Node.ReportFinished at h
  by_cases hd : node ∈ n.deps_
  · simp only [hd, if_true] at h
    split at h
    · simp only [Option.some.injEq] at h
      subst h
      exact rank_Start { n with finished_deps_ := setInsert node n.finished_deps_ }
    · simp only [Option.some.injEq] at h
      subst h
      exact le_refl _
  · simp [hd] at h

theorem rank_apply {α : Type} (op : NodeOp) (n n1 : Node α) (h : op.apply n = some n1) :
    n.state_.rank ≤ n1.state_.rank := by
  cases op with
  | TrySetRunning =>
      simp only [NodeOp.apply, Option.some.injEq] at h
      subst h
      exact rank_TrySetRunning n
  | Start =>
      simp only [NodeOp.apply, Option.some.injEq] at h
      subst h
      exact rank_Start n
  | SetFinished => exact rank_SetFinished n n1 h
  | ReportFinished node => exact rank_ReportFinished n n1 node h

theorem rank_applyOps {α : Type} (ops : List NodeOp) :
    ∀ (n n1 : Node α), applyOps ops n = some n1 → n.state_.rank ≤ n1.state_.rank := by
  induction ops with
  | nil =>
      intro n n1 h
      simp only [applyOps, Option.some.injEq] at h
      subst h
      exact le_refl _
  | cons op ops ih =>
      intro n n1 h
      unfold applyOps at h
      cases ha : op.apply n with
      | none => rw [ha] at h; simp at h
      | some n2 =>
          rw [ha] at h
          exact le_trans (rank_apply op n n2 ha) (ih n2 n1 h)

theorem rank_eq_two (x : NodeState) : x.rank = 2 ↔ x = .FINISHED := by
  cases x <;> simp [NodeState.rank]

theorem rank_le_two (x : NodeState) : x.rank ≤ 2 := by
  cases x <;> simp [NodeState.rank]

theorem state_tryProducer {α : Type} (n : Node α) (view : View α) :
    match n.tryProducer view with
    | .normal n1 => n1.state_ = n.state_
    | .escaped _ n1 => n1.state_ = n.state_
    | .undefined => True := by
  unfold Node.tryProducer
  cases n.producer_ view with
  | undefined => trivial
  | returned o => rfl
  | threw e => cases e <;> rfl

theorem state_resolvePromise {α : Type} (n : Node α) :
    match n.resolvePromise with
    | .normal n1 => n1.state_ = n.state_
    | .escaped _ n1 => n1.state_ = n.state_
    | .undefined => True := by
  unfold Node.resolvePromise
  cases n.result_ with
  | none => trivial
  | some o =>
      simp only
      cases n.resolveBody o with
      | undefined => trivial
      | returned p => rfl
      | threw e =>
          cases e with
          | other t => rfl
          | std w =>
              simp only
              cases n.result_promise_.set_exception (.std w) <;> rfl

theorem state_runProducerStep {α : Type} (g : ProducerGraph α) (n : Node α) :
    (runProducerStep g n).state_ = n.state_ := by
  unfold runProducerStep
  split
  · rfl
  · unfold Node.RunProducer
    have h1 := state_tryProducer n g.view
    cases ht : n.tryProducer g.view with
    | undefined => rfl
    | escaped e n1 => rw [ht] at h1; exact h1
    | normal n1 =>
        rw [ht] at h1
        simp only
        have h2 := state_resolvePromise n1
        cases hr : n1.resolvePromise with
        | undefined => rfl
        | escaped e n2 => rw [hr] at h2; simp only; rw [h2, h1]
        | normal n2 => rw [hr] at h2; simp only; rw [h2, h1]

theorem rank_setFinishedStep {α : Type} (n : Node α) :
    n.state_.rank ≤ (setFinishedStep n).state_.rank := by
  unfold setFinishedStep
  cases h : n.SetFinished with
  | none => exact le_refl _
  | some n1 => exact rank_SetFinished n n1 h

/-- No step of an execution moves a node to an earlier state. -/
theorem rank_step {α : Type} (l : Label) (s u : Sys α) (h : step l s = some u)
    (p : Nat) (n : Node α) (hn : s.graph.node p = some n) :
    ∃ n1, u.graph.node p = some n1 ∧ n.state_.rank ≤ n1.state_.rank := by
  have hp := node_lt hn
  cases l with
  | execute id =>
      simp only [step, Execute] at h
      cases hl : s.graph.lookup id with
      | none => rw [hl] at h; simp at h
      | some q =>
          rw [hl] at h
          simp only [Option.some.injEq] at h
          subst h
          exact ⟨n, hn, le_refl _⟩
  | startCanRun q =>
      simp only [step] at h
      split at h
      · cases hq : s.graph.node q with
        | none => rw [hq] at h; simp at h
        | some nq =>
            rw [hq] at h
            simp only [Option.some.injEq] at h
            subst h
            exact ⟨n, hn, le_refl _⟩
      · simp at h
  | startTrySetRunning q =>
      simp only [step] at h
      split at h
      · cases hq : s.graph.node q with
        | none => rw [hq] at h; simp at h
        | some nq =>
            rw [hq] at h
            simp only [Option.some.injEq] at h
            subst h
            simp only
            rw [node_setNode _ _ _ _ (node_lt hq)]
            by_cases e : p = q
            · subst e
              rw [hn] at hq
              have := Option.some.inj hq
              subst this
              exact ⟨_, by simp, rank_StartAfterCanRun n⟩
            · exact ⟨n, by simp [e, hn], le_refl _⟩
      · simp at h
  | runProducer q =>
      simp only [step] at h
      cases hq : s.graph.node q with
      | none => rw [hq] at h; simp at h
      | some nq =>
          rw [hq] at h
          simp only at h
          split at h
          · simp only [Option.some.injEq] at h
            subst h
            simp only
            rw [node_setNode _ _ _ _ (node_lt hq)]
            by_cases e : p = q
            · subst e
              rw [hn] at hq
              have := Option.some.inj hq
              subst this
              exact ⟨runProducerStep s.graph n, by simp, by rw [state_runProducerStep]⟩
            · exact ⟨n, by simp [e, hn], le_refl _⟩
          · simp at h
  | setFinished q =>
      simp only [step] at h
      cases hq : s.graph.node q with
      | none => rw [hq] at h; simp at h
      | some nq =>
          rw [hq] at h
          simp only at h
          split at h
          · simp only [Option.some.injEq] at h
            subst h
            simp only
            rw [node_setNode _ _ _ _ (node_lt hq)]
            by_cases e : p = q
            · subst e
              rw [hn] at hq
              have := Option.some.inj hq
              subst this
              exact ⟨_, by simp, rank_setFinishedStep n⟩
            · exact ⟨n, by simp [e, hn], le_refl _⟩
          · simp at h
  | reportFinished q r =>
      simp only [step] at h
      cases hq : s.graph.node q with
      | none => rw [hq] at h; simp at h
      | some nq =>
          rw [hq] at h
          simp only at h
          cases ha : nq.async_future_ with
          | reporting todo =>
              rw [ha] at h
              simp only at h
              split at h
              · cases hr : s.graph.node r with
                | none => rw [hr] at h; simp at h
                | some nr =>
                    rw [hr] at h
                    simp only at h
                    cases hrep : nr.ReportFinished q with
                    | none =>
                        rw [hrep] at h
                        simp only [Option.some.injEq] at h
                        subst h
                        simp only
                        rw [node_setNode _ _ _ _ (node_lt hq)]
                        by_cases e : p = q
                        · subst e
                          rw [hn] at hq
                          have := Option.some.inj hq
                          subst this
                          exact ⟨{ n with async_future_ := .aborted }, by simp, le_refl _⟩
                        · exact ⟨n, by simp [e, hn], le_refl _⟩
                    | some nr1 =>
                        rw [hrep] at h
                        simp only at h
                        have hg1 : ∀ x, (s.graph.setNode r nr1).node x =
                            if x = r then some nr1 else s.graph.node x :=
                          fun x => node_setNode _ _ _ _ (node_lt hr)
                        have hadv := rank_ReportFinished nr nr1 q hrep
                        cases hq1 : (s.graph.setNode r nr1).node q with
                        | none => rw [hq1] at h; simp at h
                        | some n1 =>
                            rw [hq1] at h
                            simp only [Option.some.injEq] at h
                            subst h
                            simp only
                            rw [node_setNode _ _ _ _ (node_lt hq1)]
                            have hn1 : nq.state_.rank ≤ n1.state_.rank := by
                              rw [hg1 q] at hq1
                              by_cases e : q = r
                              · subst e
                                simp only [if_true, Option.some.injEq] at hq1
                                subst hq1
                                rw [hq] at hr
                                have := Option.some.inj hr
                                subst this
                                exact hadv
                              · simp only [e, if_false] at hq1
                                rw [hq] at hq1
                                have := Option.some.inj hq1
                                subst this
                                exact le_refl _
                            by_cases e : p = q
                            · subst e
                              rw [hn] at hq
                              have := Option.some.inj hq
                              subst this
                              exact ⟨{ n1 with async_future_ := .reporting (todo.erase r) },
                                by simp, hn1⟩
                            · simp only [e, if_false]
                              rw [hg1 p]
                              by_cases e2 : p = r
                              · subst e2
                                rw [hn] at hr
                                have := Option.some.inj hr
                                subst this
                                exact ⟨nr1, by simp, hadv⟩
                              · exact ⟨n, by simp [e2, hn], le_refl _⟩
              · simp at h
          | idle => rw [ha] at h; simp at h
          | atRunProducer => rw [ha] at h; simp at h
          | atSetFinished => rw [ha] at h; simp at h
          | escaped e => rw [ha] at h; simp at h
          | aborted => rw [ha] at h; simp at h

/-! ## Names and handles of the registered nodes -/

/-- The name `AddProducer` gives to a node: the no-handle overload replaces an
empty name by `CreateNodeName(id)`, the overload with handles keeps the name. -/
theorem name_of_AddProducer {α : Type} (g : ProducerGraph α)
    (r : Registration α) (g1 : ProducerGraph α) (id : Nat)
    (h : g.AddProducer r.name r.f r.node_handles = some (g1, id)) :
    ∃ nodes, g1 = extend g
      (if r.node_handles = [] then
        (if r.name.isEmpty = true then CreateNodeName g.next_id_ else r.name)
       else r.name) (bindClosure r.f r.node_handles) nodes := by
  unfold ProducerGraph.AddProducer at h
  cases hh : r.node_handles with
  | nil =>
      rw [hh] at h
      simp only [ProducerGraph.AddProducerRoot, Option.some.injEq, Prod.mk.injEq] at h
      refine ⟨[], ?_⟩
      rw [← h.1]
      rfl
  | cons a tail =>
      rw [hh] at h
      simp only [ProducerGraph.AddProducerBound] at h
      cases hn : g.handleNodes (a :: tail) [] with
      | none => rw [hn] at h; simp at h
      | some nodes =>
          rw [hn] at h
          simp only [Option.some.injEq, Prod.mk.injEq] at h
          refine ⟨nodes, ?_⟩
          rw [← h.1]
          rfl

theorem named_step {α : Type} (rs : List (Registration α)) (g : ProducerGraph α)
    (hb : Built rs g)
    (hnm : ∀ p n, g.node p = some n → ∃ r, rs[p]? = some r ∧
      n.name_ = if r.node_handles = [] then
        (if r.name.isEmpty = true then CreateNodeName p else r.name) else r.name)
    (r : Registration α) (g1 : ProducerGraph α) (id : Nat)
    (h : g.AddProducer r.name r.f r.node_handles = some (g1, id)) :
    ∀ p n, g1.node p = some n → ∃ r1, (rs ++ [r])[p]? = some r1 ∧
      n.name_ = if r1.node_handles = [] then
        (if r1.name.isEmpty = true then CreateNodeName p else r1.name) else r1.name := by
  obtain ⟨nodes, hg1⟩ := name_of_AddProducer g r g1 id h
  have hlen : g.nodes_.length = rs.length := hb.wired.len
  intro p n hn
  rw [hg1] at hn
  rcases node_extend_cases g _ _ nodes p n hn with ⟨hp, hnew⟩ | ⟨hp, n0, rd, hn0, hnew, _, _⟩
  · refine ⟨r, ?_, ?_⟩
    · rw [hp, hlen]; simp
    · rw [hnew, hp, ← hb.topo.next]
      rfl
  · obtain ⟨r0, hr0, hname⟩ := hnm p n0 hn0
    refine ⟨r0, ?_, ?_⟩
    · rw [List.getElem?_append_left (by omega)]
      exact hr0
    · rw [hnew]
      exact hname

theorem named_buildFrom {α : Type} (rs : List (Registration α)) :
    ∀ (rs0 : List (Registration α)) (g0 g : ProducerGraph α), Built rs0 g0 →
      (∀ p n, g0.node p = some n → ∃ r, rs0[p]? = some r ∧
        n.name_ = if r.node_handles = [] then
          (if r.name.isEmpty = true then CreateNodeName p else r.name) else r.name) →
      buildFrom g0 rs = some g →
      ∀ p n, g.node p = some n → ∃ r, (rs0 ++ rs)[p]? = some r ∧
        n.name_ = if r.node_handles = [] then
          (if r.name.isEmpty = true then CreateNodeName p else r.name) else r.name := by
  induction rs with
  | nil =>
      intro rs0 g0 g _ hnm h
      simp [buildFrom] at h
      subst h
      simpa using hnm
  | cons r rs ih =>
      intro rs0 g0 g hb hnm h
      unfold buildFrom at h
      cases ha : g0.AddProducer r.name r.f r.node_handles with
      | none => rw [ha] at h; simp at h
      | some x =>
          obtain ⟨g1, id⟩ := x
          rw [ha] at h
          simp only at h
          have := ih (rs0 ++ [r]) g1 g (AddProducer_built rs0 g0 hb r g1 id ha).1
            (named_step rs0 g0 hb hnm r g1 id ha) h
          simpa using this

/-- The names of the nodes of a graph built by `AddProducer`. -/
theorem named_build {α : Type} (rs : List (Registration α)) (g : ProducerGraph α)
    (h : build rs = some g) :
    ∀ p n, g.node p = some n → ∃ r, rs[p]? = some r ∧
      n.name_ = if r.node_handles = [] then
        (if r.name.isEmpty = true then CreateNodeName p else r.name) else r.name := by
  have := named_buildFrom rs [] ProducerGraph.new g built_new
    (by intro p n hn; simp [ProducerGraph.new, ProducerGraph.node] at hn) h
  simpa using this

theorem registerFrom_spec {α : Type} (rs : List (Registration α)) :
    ∀ (rs0 : List (Registration α)) (g0 g : ProducerGraph α) (ids : List Nat),
      Built rs0 g0 → registerFrom g0 rs = some (g, ids) →
      buildFrom g0 rs = some g ∧ ids = List.range' rs0.length rs.length := by
  induction rs with
  | nil =>
      intro rs0 g0 g ids _ h
      simp only [registerFrom, Option.some.injEq, Prod.mk.injEq] at h
      obtain ⟨h1, h2⟩ := h
      subst h1 h2
      exact ⟨rfl, rfl⟩
  | cons r rs ih =>
      intro rs0 g0 g ids hb h
      unfold registerFrom at h
      unfold buildFrom
      cases ha : g0.AddProducer r.name r.f r.node_handles with
      | none => rw [ha] at h; simp at h
      | some x =>
          obtain ⟨g1, id⟩ := x
          rw [ha] at h
          simp only at h ⊢
          obtain ⟨hb1, hid⟩ := AddProducer_built rs0 g0 hb r g1 id ha
          cases hr : registerFrom g1 rs with
          | none => rw [hr] at h; simp at h
          | some y =>
              obtain ⟨g2, ids2⟩ := y
              rw [hr] at h
              simp only [Option.some.injEq, Prod.mk.injEq] at h
              obtain ⟨h1, h2⟩ := h
              subst h1 h2
              obtain ⟨i1, i2⟩ := ih (rs0 ++ [r]) g1 g2 ids2 hb1 hr
              refine ⟨i1, ?_⟩
              rw [i2, hid]
              simp [List.range'_succ]

theorem register_spec {α : Type} (rs : List (Registration α)) (g : ProducerGraph α)
    (ids : List Nat) (h : register rs = some (g, ids)) :
    build rs = some g ∧ ids = List.range rs.length := by
  obtain ⟨h1, h2⟩ := registerFrom_spec rs [] ProducerGraph.new g ids built_new h
  refine ⟨h1, ?_⟩
  rw [h2, List.range_eq_range']
  rfl

/-! ## Reports of finished dependencies -/

theorem deps_Start {α : Type} (n : Node α) :
    n.Start.deps_ = n.deps_ ∧ n.Start.finished_deps_ = n.finished_deps_ := by
  unfold Node.Start Node.StartAfterCanRun Node.TrySetRunning
  by_cases hc : n.CanRun = true <;> by_cases hs : n.state_ = .BLOCKED <;> simp [hc, hs]

/-- One call of `ReportFinished`: it passes its `assert` exactly for a member
of `deps_`, and then inserts the reported node into `finished_deps_`. -/
theorem ReportFinished_eq {α : Type} (n : Node α) (d : Nat) :
    (d ∉ n.deps_ → n.ReportFinished d = none) ∧
    (d ∈ n.deps_ → ∃ n1, n.ReportFinished d = some n1 ∧ n1.deps_ = n.deps_ ∧
      n1.finished_deps_ = setInsert d n.finished_deps_) := by
  unfold Node.ReportFinished
  constructor
  · intro h
    simp [h]
  · intro h
    simp only [h, if_true]
    split
    · exact ⟨_, rfl, (deps_Start _).1, (deps_Start _).2⟩
    · exact ⟨_, rfl, rfl, rfl⟩

theorem setInsert_cases (x : Nat) (s : List Nat) :
    (x ∈ s ∧ setInsert x s = s) ∨ (x ∉ s ∧ setInsert x s = s ++ [x]) := by
  unfold setInsert
  by_cases h : x ∈ s
  · exact Or.inl ⟨h, by simp [h]⟩
  · exact Or.inr ⟨h, by simp [h]⟩

/-- A sequence of calls of `ReportFinished` that pass their `assert`. -/
theorem reports_spec {α : Type} (ds : List Nat) :
    ∀ (n n1 : Node α), applyOps (ds.map NodeOp.ReportFinished) n = some n1 →
      n1.deps_ = n.deps_ ∧ (∀ d, d ∈ ds → d ∈ n.deps_) ∧
      (∀ x, x ∈ n1.finished_deps_ ↔ x ∈ n.finished_deps_ ∨ x ∈ ds) ∧
      (n.finished_deps_.Nodup → n1.finished_deps_.Nodup) ∧
      n.finished_deps_ <+: n1.finished_deps_ := by
  induction ds with
  | nil =>
      intro n n1 h
      simp only [List.map_nil, applyOps, Option.some.injEq] at h
      subst h
      exact ⟨rfl, by simp, by simp, fun h => h, List.prefix_refl _⟩
  | cons d ds ih =>
      intro n n1 h
      simp only [List.map_cons, applyOps, NodeOp.apply] at h
      by_cases hd : d ∈ n.deps_
      · obtain ⟨n2, h2, hdeps, hfin⟩ := (ReportFinished_eq n d).2 hd
        rw [h2] at h
        simp only at h
        obtain ⟨i1, i2, i3, i4, i5⟩ := ih n2 n1 h
        refine ⟨by rw [i1, hdeps], ?_, ?_, ?_, ?_⟩
        · intro x hx
          rcases List.mem_cons.mp hx with e | e
          · subst e; exact hd
          · rw [← hdeps]; exact i2 x e
        · intro x
          rw [i3 x, hfin, mem_setInsert, List.mem_cons]
          tauto
        · intro hn
          exact i4 (by rw [hfin]; exact nodup_setInsert hn)
        · refine List.IsPrefix.trans ?_ i5
          rw [hfin]
          rcases setInsert_cases d n.finished_deps_ with ⟨_, e⟩ | ⟨_, e⟩
          · rw [e]
          · rw [e]; exact List.prefix_append _ _
      · rw [(ReportFinished_eq n d).1 hd] at h
        simp at h

theorem CanRun_iff_all_reported {α : Type} (n : Node α) (hd : n.deps_.Nodup)
    (hf : n.finished_deps_.Nodup) (hsub : ∀ x, x ∈ n.finished_deps_ → x ∈ n.deps_) :
    n.finished_deps_.length ≤ n.deps_.length ∧
    (n.CanRun = true ↔ ∀ d, d ∈ n.deps_ → d ∈ n.finished_deps_) := by
  have hle : n.finished_deps_.length ≤ n.deps_.length :=
    (List.subperm_of_subset hf hsub).length_le
  refine ⟨hle, ?_⟩
  unfold Node.CanRun
  simp only [beq_iff_eq]
  constructor
  · intro hlen
    exact subset_of_nodup_length hf hsub (le_of_eq hlen)
  · intro hall
    exact le_antisymm ((List.subperm_of_subset hd hall).length_le) hle

theorem reports_defined {α : Type} (ds : List Nat) :
    ∀ n : Node α, (∀ d, d ∈ ds → d ∈ n.deps_) →
      ∃ n1, applyOps (ds.map NodeOp.ReportFinished) n = some n1 := by
  induction ds with
  | nil => intro n _; exact ⟨n, rfl⟩
  | cons d ds ih =>
      intro n h
      obtain ⟨n2, h2, hdeps, _⟩ := (ReportFinished_eq n d).2 (h d (List.mem_cons_self _ _))
      obtain ⟨n1, h1⟩ := ih n2 (fun x hx => by
        rw [hdeps]; exact h x (List.mem_cons_of_mem _ hx))
      refine ⟨n1, ?_⟩
      simp only [List.map_cons, applyOps, NodeOp.apply, h2]
      exact h1

/-! ## Acyclicity -/

theorem transGen_lt {α : Type} {g : ProducerGraph α} (ht : Topo g) {a b : Nat}
    (h : Relation.TransGen (Dep g) a b) : b < a := by
  induction h with
  | single hd => exact dep_lt ht hd
  | tail _ hd ih => exact lt_trans (dep_lt ht hd) ih

/-! ## The log of the traversal -/

theorem foldl_logged {α : Type} (g : ProducerGraph α) (fuel : Nat)
    (ih : ∀ (this : Nat) (result : List Nat),
      g.TransitiveDepsLogged fuel this (result, result) =
        (g.TransitiveDepsInternal fuel this result, g.TransitiveDepsInternal fuel this result))
    (ds : List Nat) :
    ∀ acc : List Nat,
      ds.foldl (fun acc dep => g.TransitiveDepsLogged fuel dep acc) (acc, acc) =
        (ds.foldl (fun acc dep => g.TransitiveDepsInternal fuel dep acc) acc,
          ds.foldl (fun acc dep => g.TransitiveDepsInternal fuel dep acc) acc) := by
  induction ds with
  | nil => intro acc; rfl
  | cons d ds ihds =>
      intro acc
      rw [List.foldl_cons, List.foldl_cons, ih d acc]
      exact ihds _

/-- The traversal inserts a node only after the check has found it absent, so
the log of the insertions is the result itself, in order. -/
theorem TransitiveDepsLogged_eq {α : Type} (g : ProducerGraph α) :
    ∀ (fuel this : Nat) (result : List Nat),
      g.TransitiveDepsLogged fuel this (result, result) =
        (g.TransitiveDepsInternal fuel this result, g.TransitiveDepsInternal fuel this result) := by
  intro fuel
  induction fuel with
  | zero => intro this result; rfl
  | succ fuel ih =>
      intro this result
      rw [ProducerGraph.TransitiveDepsLogged, ProducerGraph.TransitiveDepsInternal]
      by_cases hm : this ∈ result
      · simp only [hm, if_true]
      · simp only [hm, if_false]
        have hins : setInsert this result = result ++ [this] := by
          unfold setInsert
          simp [hm]
        rw [hins]
        exact foldl_logged g fuel ih _ _

/-! ## The end of an execution -/

/-- An unchecked reader of a node that holds an `Error`, and a node at the end of
a chain of unchecked readers that starts at a root returning an `Error`: its
task is intact and it is unresolved or failed in every state, and it is failed
at the end of an execution of `Execute` on it in which no producer throws an
object that is not a `std::exception`. -/
theorem unchecked_reader_fails {α : Type} (rs : List (Registration α))
    (g : ProducerGraph α) (hg : build rs = some g) :
    (∀ (p : Nat) (r : Registration α) (i h : Nat), rs[p]? = some r →
      r.node_handles[i]? = some h → ReadsUnchecked r.f i →
      (∀ s, Reach g s → ∀ (nh : Node α) (o : Output α), s.graph.node h = some nh →
        nh.result_ = some o → o.IsError = true →
        ∃ n, s.graph.node p = some n ∧ n.intact ∧ (n.unresolved ∨ n.failed)) ∧
      (∀ s0 s, Execute (Sys.fresh g) p = some s0 → Run s0 s → Quiescent s →
        NoForeignFault rs (g.TransitiveDeps p) →
        ∀ (nh : Node α) (o : Output α), s.graph.node h = some nh →
          nh.result_ = some o → o.IsError = true →
          ∃ n, s.graph.node p = some n ∧ n.failed)) ∧
    (∀ q, Poisoned rs q →
      (∀ s, Reach g s →
        ∃ n, s.graph.node q = some n ∧ n.intact ∧ (n.unresolved ∨ n.failed)) ∧
      (∀ s0 s, Execute (Sys.fresh g) q = some s0 → Run s0 s → Quiescent s →
        NoForeignFault rs (g.TransitiveDeps q) →
        ∃ n, s.graph.node q = some n ∧ n.failed)) := by
  have hb := build_built _ g hg
  have hend : ∀ (p : Nat) (r : Registration α) (E : Output α), rs[p]? = some r →
      E.IsError = true →
      denote rs p = (gather (denote rs) r.node_handles).map (fun _ => E) →
      ∀ s0 s, Execute (Sys.fresh g) p = some s0 → Run s0 s → Quiescent s →
        NoForeignFault rs (g.TransitiveDeps p) →
        ∃ n, s.graph.node p = some n ∧ n.failed := by
    intro p r E hr hE hden s0 s h0 hrun hq hnf
    obtain ⟨hlt, _, _⟩ := runInv_execute hb p s0 h0
    obtain ⟨n, o, hn, _, _, hres, _⟩ :=
      ends_resolved hb p s0 s h0 (denote_isSome hb p hlt hnf) hrun hq
    have hinv := inv_run (inv_reach hb (reach_execute h0)) hrun
    refine ⟨n, hn, ?_⟩
    rcases (node_fails hinv p n hn r E hr hE hden).2 with hu | hf
    · rw [hu.1] at hres
      exact absurd hres (by simp)
    · exact hf
  constructor
  · intro p r i h hr hh hf
    have hlt : p < g.nodes_.length := by
      rw [hb.wired.len]
      exact (List.getElem?_eq_some.mp hr).1
    constructor
    · intro s hs nh o hnh ho hoe
      have hinv := inv_reach hb hs
      have hslen : s.graph.nodes_.length = g.nodes_.length := by
        rw [hinv.wired.len, hb.wired.len]
      obtain ⟨n, hn⟩ := node_of_lt (by rw [hslen]; exact hlt : p < s.graph.nodes_.length)
      have hdh := (hinv.nodes h nh hnh).value o ho
      exact ⟨n, hn, node_fails hinv p n hn r
        (Output.ofError (.mk none "Exception while running producer")) hr rfl
        (reader_denote hb p r i h hr hh hf o hdh hoe)⟩
    · intro s0 s h0 hrun hq hnf nh o hnh ho hoe
      have hinv := inv_run (inv_reach hb (reach_execute h0)) hrun
      have hdh := (hinv.nodes h nh hnh).value o ho
      exact hend p r (Output.ofError (.mk none "Exception while running producer")) hr rfl
        (reader_denote hb p r i h hr hh hf o hdh hoe) s0 s h0 hrun hq hnf
  · intro q hP
    obtain ⟨r, E, hr, hE, hden⟩ := poisoned_denote hb q hP
    have hlt : q < g.nodes_.length := by
      rw [hb.wired.len]
      exact (List.getElem?_eq_some.mp hr).1
    constructor
    · intro s hs
      have hinv := inv_reach hb hs
      have hslen : s.graph.nodes_.length = g.nodes_.length := by
        rw [hinv.wired.len, hb.wired.len]
      obtain ⟨n, hn⟩ := node_of_lt (by rw [hslen]; exact hlt : q < s.graph.nodes_.length)
      exact ⟨n, hn, node_fails hinv q n hn r E hr hE hden⟩
    · exact hend q r E hr hE hden

/-! ## Properties of the executions -/

/-- C1: in a graph built by `AddProducer` whose producers all read their inputs
with `get()` and return a value, the compositional evaluation gives the target
a value `v`, and after `Execute` of the target, under every interleaving: the
promise of the target is unresolved or resolved with `v`, every step decreases
`measure` (the execution ends), and when no step is left the promise is
resolved with `v`. -/
theorem execute_resolves_with_value {α : Type} (vrs : List (ValueRegistration α))
    (g : ProducerGraph α) (hg : build (vrs.map ValueRegistration.toRegistration) = some g)
    (target : Nat) (s0 : Sys α) (h0 : Execute (Sys.fresh g) target = some s0) :
    ∃ v, value vrs target = some v ∧
      ∀ s, Run s0 s →
        (∃ n, s.graph.node target = some n ∧
          (n.result_promise_.shared = none ∨ n.result_promise_.shared = some (.value v))) ∧
        (∀ l u, l.internal = true → step l s = some u → measure u < measure s) ∧
        (Quiescent s →
          ∃ n, s.graph.node target = some n ∧ n.result_promise_.shared = some (.value v)) := by
  have hb := build_built _ g hg
  obtain ⟨hlt, _, _⟩ := runInv_execute hb target s0 h0
  have hlen : g.nodes_.length = vrs.length := by rw [hb.wired.len]; simp
  have hhandles : ∀ (q : Nat) (r : ValueRegistration α), vrs[q]? = some r →
      ∀ h, h ∈ r.node_handles → h < q := by
    intro q r hr
    have hr2 : (vrs.map ValueRegistration.toRegistration)[q]? = some r.toRegistration := by
      rw [List.getElem?_map, hr]; rfl
    exact built_handles_lt hb q _ hr2
  have hval := value_denote vrs hhandles
  obtain ⟨v, hv, hdv⟩ := hval target (by rw [← hlen]; exact hlt)
  refine ⟨v, hv, ?_⟩
  intro s hrun
  have hinv0 : Inv (vrs.map ValueRegistration.toRegistration) s0 :=
    inv_reach hb (reach_execute h0)
  have hinv := inv_run hinv0 hrun
  have hslen : s.graph.nodes_.length = g.nodes_.length := by
    rw [hinv.wired.len, hb.wired.len]
  refine ⟨?_, fun l u hl hstep => measure_decreases hinv l hl hstep, ?_⟩
  · obtain ⟨n, hn⟩ := node_of_lt (by rw [hslen]; exact hlt : target < s.graph.nodes_.length)
    refine ⟨n, hn, ?_⟩
    rcases node_outcome hinv target n hn with ⟨_, h2⟩ | ⟨o, ho, _, h3⟩
    · exact Or.inl h2
    · right
      rw [hdv] at ho
      have := Option.some.inj ho
      subst this
      rw [h3]
      rfl
  · intro hq
    have hden : ∀ q, q ∈ g.TransitiveDeps target →
        (denote (vrs.map ValueRegistration.toRegistration) q).isSome = true := by
      intro q hq1
      have hle := reaches_le hb.topo ((mem_TransitiveDeps hb.topo target q hlt).mp hq1)
      obtain ⟨w, _, hw⟩ := hval q (by rw [← hlen]; omega)
      rw [hw]; rfl
    obtain ⟨n, o, hn, _, ho, _, hp⟩ := ends_resolved hb target s0 s h0 hden hrun hq
    refine ⟨n, hn, ?_⟩
    rw [hdv] at ho
    have := Option.some.inj ho
    subst this
    rw [hp]
    rfl

/-- C1 on `BasicGraph`: with `left = 7`, `right = 10`, `sum = left + right` and
`message = "Hello world, number: " + sum`, the promise returned by
`Execute(message)` is resolved with `"Hello world, number: 17"` at the end of
every execution. -/
theorem execute_resolves_with_value_witness :
    BasicGraphValues.map ValueRegistration.toRegistration = BasicGraph ∧
    build (BasicGraphValues.map ValueRegistration.toRegistration) =
      some (builtGraph BasicGraph) ∧
    Execute (Sys.fresh (builtGraph BasicGraph)) 3 =
      some (stateAfter (builtGraph BasicGraph) [.execute 3]) ∧
    value BasicGraphValues 3 = some (.str "Hello world, number: 17") ∧
    ∀ s, Run (stateAfter (builtGraph BasicGraph) [.execute 3]) s → Quiescent s →
      ∃ n, s.graph.node 3 = some n ∧
        n.result_promise_.shared = some (.value (.str "Hello world, number: 17")) := by
  refine ⟨rfl, rfl, execute_stateAfter (builtGraph BasicGraph) 3 (by decide), by decide, ?_⟩
  obtain ⟨v, hv, h⟩ := execute_resolves_with_value BasicGraphValues (builtGraph BasicGraph) rfl 3
    (stateAfter (builtGraph BasicGraph) [.execute 3])
    (execute_stateAfter (builtGraph BasicGraph) 3 (by decide))
  have hv2 : value BasicGraphValues 3 = some (.str "Hello world, number: 17") := by decide
  rw [hv2] at hv
  have := Option.some.inj hv
  subst this
  intro s hrun hq
  exact (h s hrun).2.2 hq

/-- C5, at the failing input: a producer whose body is `throw 42;`. An object
that is not a `std::exception` is not matched by `catch (std::exception&)`: it
leaves `RunProducer` (for every node and every such object), no output is
recorded and the promise stays unresolved. In the graph `ThrowingIntGraph`,
after `Execute` of the root and the run of its task, nothing more can happen:
the root is still `RUNNING`, holds no output, and its promise is unresolved. -/
theorem RunProducer_lets_other_exceptions_escape :
    (∀ (n : Node TestVal) (view : View TestVal) (t : Nat),
        n.producer_ view = .threw (.other t) →
        n.RunProducer view = .escaped (.other t) { n with invocations := n.invocations + 1 }) ∧
    build ThrowingIntGraph = some (builtGraph ThrowingIntGraph) ∧
    Reach (builtGraph ThrowingIntGraph)
      (stateAfter (builtGraph ThrowingIntGraph)
        [.execute 0, .startCanRun 0, .startTrySetRunning 0, .runProducer 0]) ∧
    Quiescent
      (stateAfter (builtGraph ThrowingIntGraph)
        [.execute 0, .startCanRun 0, .startTrySetRunning 0, .runProducer 0]) ∧
    (stateAfter (builtGraph ThrowingIntGraph)
        [.execute 0, .startCanRun 0, .startTrySetRunning 0, .runProducer 0]).graph.nodes_.map
      (fun n => (n.state_, n.result_.isSome, n.result_promise_, n.async_future_)) =
      [(.RUNNING, false, ⟨none⟩, .escaped (.other 42)), (.BLOCKED, false, ⟨none⟩, .idle)] := by
  refine ⟨?_, rfl,
    reach_of_runSteps _ [.execute 0, .startCanRun 0, .startTrySetRunning 0, .runProducer 0] _ rfl,
    quiescent_of _ (by decide) (by decide) (by decide), by decide⟩
  intro n view t h
  simp [Node.RunProducer, Node.tryProducer, h]

/-- C6, with the failing input of C5: on a node whose promise is unresolved, a
producer that throws a `std::exception` and a producer that returns an `Error`
leave the same promise, resolved with the same exception; a producer that
throws an object that is not a `std::exception` leaves the promise unresolved. -/
theorem fault_and_error_resolve_alike_unless_other :
    (∀ (n : Node TestVal) (c1 c2 : Closure TestVal) (view : View TestVal) (e : Error)
        (w : String), n.result_promise_.shared = none →
        c1 view = .returned (.ofError e) → c2 view = .threw (.std w) →
        ∃ n1 n2, ({ n with producer_ := c1 } : Node TestVal).RunProducer view = .normal n1 ∧
          ({ n with producer_ := c2 } : Node TestVal).RunProducer view = .normal n2 ∧
          n1.result_promise_ = n2.result_promise_ ∧
          n1.result_promise_.shared =
            some (.exception (.std "Producer ran and produced an error"))) ∧
    (∀ (n : Node TestVal) (c3 : Closure TestVal) (view : View TestVal) (t : Nat),
        n.result_promise_.shared = none → c3 view = .threw (.other t) →
        ∃ n3, ({ n with producer_ := c3 } : Node TestVal).RunProducer view =
            .escaped (.other t) n3 ∧ n3.result_promise_.shared = none) := by
  constructor
  · intro n c1 c2 view e w hfresh h1 h2
    refine ⟨_, _, RunProducer_recorded _ view (.ofError e) hfresh (by simp [h1, recorded]),
      RunProducer_recorded _ view (.ofError (.mk none "Exception while running producer"))
        hfresh (by simp [h2, recorded]), rfl, rfl⟩
  · intro n c3 view t hfresh h3
    exact ⟨_, RunProducer_other _ view t hfresh h3, hfresh⟩

/-- C2 (fan-in barrier): in every state reachable from a freshly built graph by
any interleaving of calls of `Execute` and of steps of `Start`, `Run` and
`ReportFinished`, a node that is `RUNNING` or `FINISHED` has all its
dependencies `FINISHED` with their output recorded; every handle bound into its
closure then has `GetOutput()` present, and invoking the closure dereferences
no null pointer. -/
theorem fan_in_barrier {α : Type} (rs : List (Registration α)) (g : ProducerGraph α)
    (hg : build rs = some g) (s : Sys α) (hs : Reach g s) (p : Nat) (n : Node α)
    (hn : s.graph.node p = some n) (hst : n.state_ = .RUNNING ∨ n.state_ = .FINISHED) :
    (∀ d, d ∈ n.deps_ →
      ∃ nd, s.graph.node d = some nd ∧ nd.state_ = .FINISHED ∧ nd.GetOutput.isSome = true) ∧
    (∀ r, rs[p]? = some r → ∀ h, h ∈ r.node_handles → ∃ o, s.graph.view h = some (some o)) ∧
    n.producer_ s.graph.view ≠ .undefined := by
  have hinv := inv_reach (build_built rs g hg) hs
  have hi := hinv.nodes p n hn
  have hnb : n.state_ ≠ .BLOCKED := by rcases hst with h | h <;> simp [h]
  have hcan := hi.canrun hnb
  refine ⟨?_, ?_, ?_⟩
  · intro d hd
    have hfin := (canRun_iff hinv.topo p n hn hi).mp hcan d hd
    obtain ⟨_, nd, todo, hnd, hrep, _⟩ := (hi.fin_iff d).mp hfin
    have hid := hinv.nodes d nd hnd
    exact ⟨nd, hnd, hid.coh_finished.mpr ⟨todo, hrep⟩, hid.result_iff.mpr (Or.inr ⟨todo, hrep⟩)⟩
  · intro r hr h hh
    obtain ⟨r0, hr0, _, _, outs, houts⟩ := handles_ready hinv p n hn hcan
    rw [hr] at hr0
    have := Option.some.inj hr0
    subst this
    exact ⟨outs h, (houts h hh).1⟩
  · obtain ⟨out, hout, hne, _⟩ := producer_eq hinv p n hn hcan
    rw [hout]
    exact hne

/-- C2, at the node `sum` of `BasicGraph` once the reports of `left` and `right`
have launched it. -/
theorem fan_in_barrier_witness :
    build BasicGraph = some (builtGraph BasicGraph) ∧
    (nodeAt (stateAfter (builtGraph BasicGraph) basicStepsToSum) 2).state_ = .RUNNING ∧
    ∀ d, d ∈ (nodeAt (stateAfter (builtGraph BasicGraph) basicStepsToSum) 2).deps_ →
      ∃ nd, (stateAfter (builtGraph BasicGraph) basicStepsToSum).graph.node d = some nd ∧
        nd.state_ = .FINISHED ∧ nd.GetOutput.isSome = true :=
  ⟨rfl, rfl,
    (fan_in_barrier BasicGraph (builtGraph BasicGraph) rfl
      (stateAfter (builtGraph BasicGraph) basicStepsToSum)
      (reach_of_runSteps _ basicStepsToSum _ rfl) 2
      (nodeAt (stateAfter (builtGraph BasicGraph) basicStepsToSum) 2) rfl (Or.inl rfl)).1⟩

/-- C9, as stated, fails on `SharedRootGraph` (`a`; `b` and `c` both depend on
`a`): after `Execute(b)` the node `c`, which is not in `TransitiveDeps()` of
`b`, has its producer launched by the report of `a`. -/
theorem cascade_launches_outside_TransitiveDeps :
    build SharedRootGraph = some (builtGraph SharedRootGraph) ∧
    Execute (Sys.fresh (builtGraph SharedRootGraph)) 1 =
      some (stateAfter (builtGraph SharedRootGraph) [.execute 1]) ∧
    Run (stateAfter (builtGraph SharedRootGraph) [.execute 1])
      (stateAfter (builtGraph SharedRootGraph) sharedSteps) ∧
    2 ∉ (builtGraph SharedRootGraph).TransitiveDeps 1 ∧
    (stateAfter (builtGraph SharedRootGraph) sharedSteps).graph.node 2 =
      some (nodeAt (stateAfter (builtGraph SharedRootGraph) sharedSteps) 2) ∧
    (nodeAt (stateAfter (builtGraph SharedRootGraph) sharedSteps) 2).launches = 1 ∧
    (nodeAt (stateAfter (builtGraph SharedRootGraph) sharedSteps) 2).state_ = .RUNNING :=
  ⟨rfl, execute_stateAfter (builtGraph SharedRootGraph) 1 (by decide),
    run_stateAfter (builtGraph SharedRootGraph) (.execute 1) sharedSteps.tail (by decide)
      (by decide),
    by decide, node_eq_nodeAt (stateAfter (builtGraph SharedRootGraph) sharedSteps) 2 (by decide),
    by decide, by decide⟩

/-- C9, amended: `Execute` calls `Start()` on the nodes of `TransitiveDeps()` of
the target, which are the nodes reachable from it along dependencies, and on
no other node; a node whose producer is launched is one of these, or else it
has at least one dependency and all its dependencies are `FINISHED` (it was
launched by a report); at the end of the execution the launched nodes are
exactly the nodes `Launched`. -/
theorem execute_starts_TransitiveDeps_and_cascades {α : Type}
    (rs : List (Registration α)) (g : ProducerGraph α) (hg : build rs = some g)
    (target : Nat) (s0 : Sys α) (h0 : Execute (Sys.fresh g) target = some s0) :
    s0.pending = g.TransitiveDeps target ∧ s0.checked = [] ∧ s0.graph = g ∧
    (∀ x, x ∈ g.TransitiveDeps target ↔ Reaches g target x) ∧
    ∀ s, Run s0 s →
      (∀ x, x ∈ s.pending ∨ x ∈ s.checked → x ∈ g.TransitiveDeps target) ∧
      (∀ p n, s.graph.node p = some n → n.launches ≠ 0 →
        p ∈ g.TransitiveDeps target ∨
        (n.deps_ ≠ [] ∧ ∀ d, d ∈ n.deps_ →
          ∃ nd, s.graph.node d = some nd ∧ nd.state_ = .FINISHED)) ∧
      (Quiescent s → ∀ p n, s.graph.node p = some n →
        (n.launches = 1 ↔ Launched rs (g.TransitiveDeps target) p)) := by
  have hb := build_built rs g hg
  obtain ⟨hlt, hgr, hr0⟩ := runInv_execute hb target s0 h0
  have hinv0 : Inv rs s0 := inv_reach hb (reach_execute h0)
  obtain ⟨_, hs0⟩ := Execute_eq hb.topo target h0
  refine ⟨by rw [hs0]; simp [Sys.fresh], by rw [hs0]; simp [Sys.fresh], hgr,
    fun x => mem_TransitiveDeps hb.topo target x hlt, ?_⟩
  intro s hrun
  have hinv := inv_run hinv0 hrun
  have hr := runInv_run hinv0 hr0 hrun
  refine ⟨?_, ?_, ?_⟩
  · rintro x (hx | hx)
    · exact hr.pending x hx
    · exact hr.checked x hx
  · intro p n hn hl
    have hi := hinv.nodes p n hn
    have hnb : n.state_ ≠ .BLOCKED := by
      intro hb1
      have := hi.launches
      simp only [hb1, if_true] at this
      exact hl this
    by_cases hd : n.deps_ = []
    · exact Or.inl (hr.root_launched p n hn hd hnb)
    · right
      refine ⟨hd, ?_⟩
      intro d hdm
      have hfin := (canRun_iff hinv.topo p n hn hi).mp (hi.canrun hnb) d hdm
      obtain ⟨_, nd, todo, hnd, hrep, _⟩ := (hi.fin_iff d).mp hfin
      exact ⟨nd, hnd, (hinv.nodes d nd hnd).coh_finished.mpr ⟨todo, hrep⟩⟩
  · intro hq p n hn
    have hi := hinv.nodes p n hn
    rw [← (final_state hinv hr hq p n hn).1]
    have := hi.launches
    by_cases hb1 : n.state_ = .BLOCKED
    · simp only [hb1, if_true] at this
      simp [this, hb1]
    · simp only [hb1, if_false] at this
      simp [this, hb1]

/-- C9 amended, on `SharedRootGraph` with `Execute(b)`. -/
theorem execute_starts_TransitiveDeps_and_cascades_witness :
    build SharedRootGraph = some (builtGraph SharedRootGraph) ∧
    Execute (Sys.fresh (builtGraph SharedRootGraph)) 1 =
      some (stateAfter (builtGraph SharedRootGraph) [.execute 1]) ∧
    (stateAfter (builtGraph SharedRootGraph) [.execute 1]).pending =
      (builtGraph SharedRootGraph).TransitiveDeps 1 ∧
    (builtGraph SharedRootGraph).TransitiveDeps 1 = [1, 0] :=
  ⟨rfl, execute_stateAfter (builtGraph SharedRootGraph) 1 (by decide),
    (execute_starts_TransitiveDeps_and_cascades SharedRootGraph (builtGraph SharedRootGraph)
      rfl 1 (stateAfter (builtGraph SharedRootGraph) [.execute 1])
      (execute_stateAfter (builtGraph SharedRootGraph) 1 (by decide))).1,
    by decide⟩

/-- C10, with the failing input of C5. Every execution ends (`measure` decreases
at every step), and when every node of `TransitiveDeps()` of the target yields
an output that is recorded, it ends with the target `FINISHED` and its promise
resolved. But in `ThrowingIntGraph`, whose root throws an `int`, the execution
of `Execute(g)` ends with the target `g` still `BLOCKED` and its promise
unresolved, although the only producer that ran has terminated. -/
theorem execute_resolves_unless_other_exception :
    (∀ (rs : List (Registration TestVal)) (g : ProducerGraph TestVal) (target : Nat)
        (s0 s : Sys TestVal), build rs = some g → Execute (Sys.fresh g) target = some s0 →
        Run s0 s →
        (∀ l u, l.internal = true → step l s = some u → measure u < measure s) ∧
        ((∀ q, q ∈ g.TransitiveDeps target → (denote rs q).isSome = true) → Quiescent s →
          ∃ n, s.graph.node target = some n ∧ n.state_ = .FINISHED ∧
            n.result_promise_.shared.isSome = true)) ∧
    build ThrowingIntGraph = some (builtGraph ThrowingIntGraph) ∧
    Execute (Sys.fresh (builtGraph ThrowingIntGraph)) 1 =
      some (stateAfter (builtGraph ThrowingIntGraph) [.execute 1]) ∧
    Run (stateAfter (builtGraph ThrowingIntGraph) [.execute 1])
      (stateAfter (builtGraph ThrowingIntGraph) throwingIntSteps) ∧
    Quiescent (stateAfter (builtGraph ThrowingIntGraph) throwingIntSteps) ∧
    (stateAfter (builtGraph ThrowingIntGraph) throwingIntSteps).graph.nodes_.map
      (fun n => (n.state_, n.result_promise_, n.async_future_)) =
      [(.RUNNING, ⟨none⟩, .escaped (.other 42)), (.BLOCKED, ⟨none⟩, .idle)] := by
  refine ⟨?_, rfl, execute_stateAfter (builtGraph ThrowingIntGraph) 1 (by decide),
    run_stateAfter (builtGraph ThrowingIntGraph) (.execute 1) throwingIntSteps.tail (by decide)
      (by decide),
    quiescent_of _ (by decide) (by decide) (by decide), by decide⟩
  intro rs g target s0 s hg h0 hrun
  have hb := build_built rs g hg
  have hinv0 : Inv rs s0 := inv_reach hb (reach_execute h0)
  refine ⟨fun l u hl hstep => measure_decreases (inv_run hinv0 hrun) l hl hstep, ?_⟩
  intro hden hq
  obtain ⟨n, o, hn, hst, _, _, hp⟩ := ends_resolved hb target s0 s h0 hden hrun hq
  exact ⟨n, hn, hst, by rw [hp]; rfl⟩

/-- C7, with the failing input of C5. An unchecked reader of a node that holds
an `Error` never crashes and never resolves with a value: in every state it is
unresolved or failed, and at the end of an execution of `Execute` on it in which
no producer throws an object that is not a `std::exception` it is failed; the
same holds along every chain of unchecked readers from a root that returns an
`Error`, as in `ErrorGraph`. But in `ErrorAndThrowingIntGraph`, where
`r = ExpensiveAdd(e, t)` reads the `Error` of `e` with an unchecked `get()` and
the producer of `t` throws an `int`, the execution of `Execute(r)` ends with `e`
holding its `Error`, and with `r` still `BLOCKED`, without an output, and its
promise unresolved. -/
theorem unchecked_get_fails_unless_other_exception :
    (∀ (α : Type) (rs : List (Registration α)) (g : ProducerGraph α), build rs = some g →
      (∀ (p : Nat) (r : Registration α) (i h : Nat), rs[p]? = some r →
        r.node_handles[i]? = some h → ReadsUnchecked r.f i →
        (∀ s, Reach g s → ∀ (nh : Node α) (o : Output α), s.graph.node h = some nh →
          nh.result_ = some o → o.IsError = true →
          ∃ n, s.graph.node p = some n ∧ n.intact ∧ (n.unresolved ∨ n.failed)) ∧
        (∀ s0 s, Execute (Sys.fresh g) p = some s0 → Run s0 s → Quiescent s →
          NoForeignFault rs (g.TransitiveDeps p) →
          ∀ (nh : Node α) (o : Output α), s.graph.node h = some nh →
            nh.result_ = some o → o.IsError = true →
            ∃ n, s.graph.node p = some n ∧ n.failed)) ∧
      (∀ q, Poisoned rs q →
        (∀ s, Reach g s →
          ∃ n, s.graph.node q = some n ∧ n.intact ∧ (n.unresolved ∨ n.failed)) ∧
        (∀ s0 s, Execute (Sys.fresh g) q = some s0 → Run s0 s → Quiescent s →
          NoForeignFault rs (g.TransitiveDeps q) →
          ∃ n, s.graph.node q = some n ∧ n.failed))) ∧
    (build ErrorGraph = some (builtGraph ErrorGraph) ∧ Poisoned ErrorGraph 1 ∧
      ∀ s, Run (stateAfter (builtGraph ErrorGraph) [.execute 1]) s → Quiescent s →
        ∃ n, s.graph.node 1 = some n ∧ n.failed) ∧
    build ErrorAndThrowingIntGraph = some (builtGraph ErrorAndThrowingIntGraph) ∧
    ReadsUnchecked ExpensiveAdd 0 ∧
    Execute (Sys.fresh (builtGraph ErrorAndThrowingIntGraph)) 2 =
      some (stateAfter (builtGraph ErrorAndThrowingIntGraph) [.execute 2]) ∧
    Run (stateAfter (builtGraph ErrorAndThrowingIntGraph) [.execute 2])
      (stateAfter (builtGraph ErrorAndThrowingIntGraph) errorAndThrowingIntSteps) ∧
    Quiescent (stateAfter (builtGraph ErrorAndThrowingIntGraph) errorAndThrowingIntSteps) ∧
    (stateAfter (builtGraph ErrorAndThrowingIntGraph)
        errorAndThrowingIntSteps).graph.nodes_.map
      (fun n => (n.state_, n.result_.map Output.IsError, n.result_promise_,
        n.async_future_)) =
      [(.FINISHED, some true,
          ⟨some (.exception (.std "Producer ran and produced an error"))⟩, .reporting []),
        (.RUNNING, none, ⟨none⟩, .escaped (.other 42)),
        (.BLOCKED, none, ⟨none⟩, .idle)] := by
  have hP : Poisoned ErrorGraph 1 :=
    Poisoned.reader 1 ⟨"", MessageForNumber, [0]⟩ 0 0 rfl rfl
      (valueProducer_readsUnchecked messageText 0)
      (Poisoned.root 0 ⟨"", ErrorProducer, []⟩ (.mk none "") rfl rfl rfl)
  have hnf : NoForeignFault ErrorGraph ((builtGraph ErrorGraph).TransitiveDeps 1) := by
    intro q _ r hr ins tag
    match q, hr with
    | 0, hr =>
        have : r = ⟨"", ErrorProducer, []⟩ := (Option.some.inj hr).symm
        subst this
        simp [ErrorProducer]
    | 1, hr =>
        have : r = ⟨"", MessageForNumber, [0]⟩ := (Option.some.inj hr).symm
        subst this
        exact valueProducer_no_foreign messageText ins tag
    | k + 2, hr => simp [ErrorGraph] at hr
  refine ⟨fun α rs g hg => unchecked_reader_fails rs g hg, ⟨rfl, hP, ?_⟩, rfl,
    valueProducer_readsUnchecked addNumbers 0,
    execute_stateAfter (builtGraph ErrorAndThrowingIntGraph) 2 (by decide),
    run_stateAfter (builtGraph ErrorAndThrowingIntGraph) (.execute 2)
      errorAndThrowingIntSteps.tail (by decide) (by decide),
    quiescent_of _ (by decide) (by decide) (by decide), by decide⟩
  intro s hrun hq
  exact ((unchecked_reader_fails ErrorGraph (builtGraph ErrorGraph) rfl).2 1 hP).2
    (stateAfter (builtGraph ErrorGraph) [.execute 1]) s
    (execute_stateAfter (builtGraph ErrorGraph) 1 (by decide)) hrun hq hnf

/-- C8: let two graphs be built by the same calls of `AddProducer` but for the
function of call `X`, and let `Y` be a node without `X` in its
`TransitiveDeps()`. In any two states of executions of the two graphs the task
of `Y` is not aborted, and the outputs recorded by `Y` and the resolutions of its
promise agree as soon as both are there. When executions of `Execute(target)`
have ended in both graphs, `Y` has the same state, the same recorded output, the
same resolution of its promise and the same number of runs of its producer. -/
theorem failure_isolation {α : Type} (rs1 rs2 : List (Registration α))
    (g1 g2 : ProducerGraph α) (X Y : Nat) (hs : SameExceptAt rs1 rs2 X)
    (h1 : build rs1 = some g1) (h2 : build rs2 = some g2)
    (hY : Y < g1.nodes_.length) (hX : X ∉ g1.TransitiveDeps Y) :
    (∀ s1 s2, Reach g1 s1 → Reach g2 s2 →
      ∃ n1 n2, s1.graph.node Y = some n1 ∧ s2.graph.node Y = some n2 ∧
        n1.async_future_ ≠ .aborted ∧ n2.async_future_ ≠ .aborted ∧
        (∀ o1 o2, n1.result_ = some o1 → n2.result_ = some o2 → o1 = o2) ∧
        (∀ c1 c2, n1.result_promise_.shared = some c1 →
          n2.result_promise_.shared = some c2 → c1 = c2)) ∧
    (∀ target s01 s02 s1 s2, Execute (Sys.fresh g1) target = some s01 →
      Execute (Sys.fresh g2) target = some s02 → Run s01 s1 → Run s02 s2 →
      Quiescent s1 → Quiescent s2 →
      ∃ n1 n2, s1.graph.node Y = some n1 ∧ s2.graph.node Y = some n2 ∧
        n1.state_ = n2.state_ ∧ n1.result_ = n2.result_ ∧
        n1.result_promise_.shared = n2.result_promise_.shared ∧
        n1.invocations = n2.invocations) := by
  have hb1 := build_built _ g1 h1
  have hb2 := build_built _ g2 h2
  have hs2 := sameExceptAt_symm hs
  have hlen : g2.nodes_.length = g1.nodes_.length := by
    rw [hb1.wired.len, hb2.wired.len, hs.1]
  have hY1 : ¬ Reaches g1 Y X := fun h => hX ((mem_TransitiveDeps hb1.topo Y X hY).mpr h)
  have hY2 : ¬ Reaches g2 Y X := fun h => hY1 (reaches_congr hs2 hb2.wired hb1.wired Y X h)
  have hden : denote rs1 Y = denote rs2 Y := denote_congr hs hb1 hb2 Y hY1
  have hnode : ∀ (rs : List (Registration α)) (g : ProducerGraph α) (s : Sys α),
      Built rs g → g.nodes_.length = g1.nodes_.length → Inv rs s → Reach g s →
      ∃ n, s.graph.node Y = some n := by
    intro rs g s hb hl hinv _
    have hslen : s.graph.nodes_.length = g.nodes_.length := by
      rw [hinv.wired.len, hb.wired.len]
    exact node_of_lt (by rw [hslen, hl]; exact hY : Y < s.graph.nodes_.length)
  constructor
  · intro s1 s2 hr1 hr2
    have hinv1 := inv_reach hb1 hr1
    have hinv2 := inv_reach hb2 hr2
    obtain ⟨n1, hn1⟩ := hnode rs1 g1 s1 hb1 rfl hinv1 hr1
    obtain ⟨n2, hn2⟩ := hnode rs2 g2 s2 hb2 hlen hinv2 hr2
    have hi1 := hinv1.nodes Y n1 hn1
    have hi2 := hinv2.nodes Y n2 hn2
    have hres : ∀ o1 o2, n1.result_ = some o1 → n2.result_ = some o2 → o1 = o2 := by
      intro o1 o2 e1 e2
      have d1 := hi1.value o1 e1
      have d2 := hi2.value o2 e2
      rw [hden, d2] at d1
      exact (Option.some.inj d1).symm
    refine ⟨n1, n2, hn1, hn2, hi1.not_aborted, hi2.not_aborted, hres, ?_⟩
    intro c1 c2 e1 e2
    rw [hi1.promise] at e1
    rw [hi2.promise] at e2
    cases hr1 : n1.result_ with
    | none => rw [hr1] at e1; simp at e1
    | some o1 =>
        cases hr2 : n2.result_ with
        | none => rw [hr2] at e2; simp at e2
        | some o2 =>
            rw [hr1] at e1
            rw [hr2] at e2
            have := hres o1 o2 hr1 hr2
            subst this
            simp only [Option.map_some', Option.some.injEq] at e1 e2
            rw [← e1, ← e2]
  · intro target s01 s02 s1 s2 h01 h02 hrun1 hrun2 hq1 hq2
    obtain ⟨hlt1, _, hR1⟩ := runInv_execute hb1 target s01 h01
    obtain ⟨hlt2, _, hR2⟩ := runInv_execute hb2 target s02 h02
    have hinv01 := inv_reach hb1 (reach_execute h01)
    have hinv02 := inv_reach hb2 (reach_execute h02)
    have hinv1 := inv_run hinv01 hrun1
    have hinv2 := inv_run hinv02 hrun2
    have hR1e := runInv_run hinv01 hR1 hrun1
    have hR2e := runInv_run hinv02 hR2 hrun2
    obtain ⟨n1, hn1⟩ := hnode rs1 g1 s1 hb1 rfl hinv1 (reach_of_run (reach_execute h01) hrun1)
    obtain ⟨n2, hn2⟩ := hnode rs2 g2 s2 hb2 hlen hinv2 (reach_of_run (reach_execute h02) hrun2)
    have hT12 : ∀ q, q ∈ g1.TransitiveDeps target → q ∈ g2.TransitiveDeps target := by
      intro q hq
      exact (mem_TransitiveDeps hb2.topo target q hlt2).mpr
        (reaches_congr hs hb1.wired hb2.wired target q
          ((mem_TransitiveDeps hb1.topo target q hlt1).mp hq))
    have hT21 : ∀ q, q ∈ g2.TransitiveDeps target → q ∈ g1.TransitiveDeps target := by
      intro q hq
      exact (mem_TransitiveDeps hb1.topo target q hlt1).mpr
        (reaches_congr hs2 hb2.wired hb1.wired target q
          ((mem_TransitiveDeps hb2.topo target q hlt2).mp hq))
    obtain ⟨hL1, hF1⟩ := final_state hinv1 hR1e hq1 Y n1 hn1
    obtain ⟨hL2, hF2⟩ := final_state hinv2 hR2e hq2 Y n2 hn2
    have hbl : n1.state_ ≠ .BLOCKED ↔ n2.state_ ≠ .BLOCKED := by
      rw [hL1, hL2]
      exact ⟨fun h => launched_congr hs hb1 hb2 _ _ hT12 Y h hY1,
        fun h => launched_congr hs2 hb2 hb1 _ _ hT21 Y h hY2⟩
    have hfin : n1.state_ = .FINISHED ↔ n2.state_ = .FINISHED := by
      rw [hF1, hF2]
      exact ⟨fun h => finishes_congr hs hb1 hb2 _ _ hT12 Y h hY1,
        fun h => finishes_congr hs2 hb2 hb1 _ _ hT21 Y h hY2⟩
    have hstate : n1.state_ = n2.state_ := by
      cases e1 : n1.state_ <;> cases e2 : n2.state_ <;> simp [e1, e2] at hbl hfin ⊢
    have hinvoc : ∀ (rs : List (Registration α)) (s : Sys α) (n : Node α), Inv rs s →
        Quiescent s → s.graph.node Y = some n →
        n.invocations = if n.state_ = .BLOCKED then 0 else 1 := by
      intro rs s n hinv hq hn
      have hi := hinv.nodes Y n hn
      obtain ⟨_, _, hfacts⟩ := quiescent_facts hinv hq
      rw [hi.invocations]
      rcases hfacts Y n hn with h | h | ⟨e, h⟩
      · rw [if_pos (Or.inl h), if_pos (hi.coh_blocked.mpr h)]
      · have hnb : n.state_ ≠ .BLOCKED := by
          intro hb
          have := hi.coh_blocked.mp hb
          rw [h] at this
          simp at this
        rw [if_neg hnb, if_neg (by rw [h]; simp)]
      · have hnb : n.state_ ≠ .BLOCKED := by
          intro hb
          have := hi.coh_blocked.mp hb
          rw [h] at this
          simp at this
        rw [if_neg hnb, if_neg (by rw [h]; simp)]
    refine ⟨n1, n2, hn1, hn2, hstate, ?_, ?_,
      by rw [hinvoc rs1 s1 n1 hinv1 hq1 hn1, hinvoc rs2 s2 n2 hinv2 hq2 hn2, hstate]⟩
    · rcases final_node hinv1 hq1 Y n1 hn1 with ⟨f1, o1, d1, r1, _⟩ | ⟨f1, r1, _⟩ <;>
        rcases final_node hinv2 hq2 Y n2 hn2 with ⟨f2, o2, d2, r2, _⟩ | ⟨f2, r2, _⟩
      · rw [r1, r2, ← d1, ← d2, hden]
      · exact absurd (hfin.mp f1) f2
      · exact absurd (hfin.mpr f2) f1
      · rw [r1, r2]
    · rcases final_node hinv1 hq1 Y n1 hn1 with ⟨f1, o1, d1, _, p1⟩ | ⟨f1, _, p1⟩ <;>
        rcases final_node hinv2 hq2 Y n2 hn2 with ⟨f2, o2, d2, _, p2⟩ | ⟨f2, _, p2⟩
      · rw [hden, d2] at d1
        have := Option.some.inj d1
        subst this
        rw [p1, p2]
      · exact absurd (hfin.mp f1) f2
      · exact absurd (hfin.mpr f2) f1
      · rw [p1, p2]

/-- C8 on `BasicGraph`: with `ErrorProducer` in the place of the producer of
`left`, the node of `right`, which does not depend on `left`, ends every
execution of `Execute(message)` as it does in `BasicGraph`. -/
theorem failure_isolation_witness :
    SameExceptAt BasicGraph BasicGraphWithError 0 ∧
    build BasicGraph = some (builtGraph BasicGraph) ∧
    build BasicGraphWithError = some (builtGraph BasicGraphWithError) ∧
    1 < (builtGraph BasicGraph).nodes_.length ∧
    0 ∉ (builtGraph BasicGraph).TransitiveDeps 1 ∧
    ∀ s1 s2, Run (stateAfter (builtGraph BasicGraph) [.execute 3]) s1 →
      Run (stateAfter (builtGraph BasicGraphWithError) [.execute 3]) s2 →
      Quiescent s1 → Quiescent s2 →
      ∃ n1 n2, s1.graph.node 1 = some n1 ∧ s2.graph.node 1 = some n2 ∧
        n1.state_ = n2.state_ ∧ n1.result_ = n2.result_ ∧
        n1.result_promise_.shared = n2.result_promise_.shared ∧
        n1.invocations = n2.invocations := by
  have hs : SameExceptAt BasicGraph BasicGraphWithError 0 := by
    refine ⟨rfl, ?_⟩
    intro q r1 r2 e1 e2
    match q, e1, e2 with
    | 0, e1, e2 =>
        have a1 : r1 = ⟨"", ExpensiveProduceNumber, []⟩ := (Option.some.inj e1).symm
        have a2 : r2 = ⟨"", ErrorProducer, []⟩ := (Option.some.inj e2).symm
        subst a1 a2
        exact ⟨rfl, rfl, fun h => absurd rfl h⟩
    | 1, e1, e2 =>
        have a1 : r1 = ⟨"", ProduceOtherNumber, []⟩ := (Option.some.inj e1).symm
        have a2 : r2 = ⟨"", ProduceOtherNumber, []⟩ := (Option.some.inj e2).symm
        subst a1 a2
        exact ⟨rfl, rfl, fun _ => rfl⟩
    | 2, e1, e2 =>
        have a1 : r1 = ⟨"", ExpensiveAdd, [0, 1]⟩ := (Option.some.inj e1).symm
        have a2 : r2 = ⟨"", ExpensiveAdd, [0, 1]⟩ := (Option.some.inj e2).symm
        subst a1 a2
        exact ⟨rfl, rfl, fun _ => rfl⟩
    | 3, e1, e2 =>
        have a1 : r1 = ⟨"", MessageForNumber, [2]⟩ := (Option.some.inj e1).symm
        have a2 : r2 = ⟨"", MessageForNumber, [2]⟩ := (Option.some.inj e2).symm
        subst a1 a2
        exact ⟨rfl, rfl, fun _ => rfl⟩
    | k + 4, e1, _ => simp [BasicGraph] at e1
  have hY : 1 < (builtGraph BasicGraph).nodes_.length := by decide
  have hX : 0 ∉ (builtGraph BasicGraph).TransitiveDeps 1 := by decide
  refine ⟨hs, rfl, rfl, hY, hX, ?_⟩
  intro s1 s2 hr1 hr2 hq1 hq2
  exact (failure_isolation BasicGraph BasicGraphWithError (builtGraph BasicGraph)
    (builtGraph BasicGraphWithError) 0 1 hs rfl rfl hY hX).2 3
    (stateAfter (builtGraph BasicGraph) [.execute 3])
    (stateAfter (builtGraph BasicGraphWithError) [.execute 3]) s1 s2
    (execute_stateAfter (builtGraph BasicGraph) 3 (by decide))
    (execute_stateAfter (builtGraph BasicGraphWithError) 3 (by decide)) hr1 hr2 hq1 hq2

/-! ## Properties of the graph and of its parts -/

/-- C11: for every node `n` of a graph built by `AddProducer`, the traversal of
`TransitiveDeps()` ends without reaching the bound on its depth (every bound
above `n` gives the same result), its result holds `n`, holds exactly the nodes
reachable from `n` along dependency edges, and holds no node twice. In the
traversal with a log of the insertions, which returns the same set, the call
gets past the check and executes `result->insert(this)` exactly once on every
node reachable from `n` and never on another node. -/
theorem TransitiveDeps_is_reachable_set {α : Type} (rs : List (Registration α))
    (g : ProducerGraph α) (hg : build rs = some g) (n : Nat) (hn : n < g.nodes_.length) :
    (∀ fuel, n < fuel → g.TransitiveDepsInternal fuel n [] = g.TransitiveDeps n) ∧
    n ∈ g.TransitiveDeps n ∧
    (∀ x, x ∈ g.TransitiveDeps n ↔ Reaches g n x) ∧
    (∀ x, x ∈ g.TransitiveDeps n ↔ x = n ∨ ∃ d, Dep g n d ∧ Reaches g d x) ∧
    (g.TransitiveDeps n).Nodup ∧
    (g.TransitiveDepsLogged (g.nodes_.length + 1) n ([], [])).1 = g.TransitiveDeps n ∧
    (∀ fuel, n < fuel → g.TransitiveDepsLogged fuel n ([], []) =
      g.TransitiveDepsLogged (g.nodes_.length + 1) n ([], [])) ∧
    (∀ x, Reaches g n x →
      (g.TransitiveDepsLogged (g.nodes_.length + 1) n ([], [])).2.count x = 1) ∧
    (∀ x, ¬ Reaches g n x →
      (g.TransitiveDepsLogged (g.nodes_.length + 1) n ([], [])).2.count x = 0) := by
  have hb := build_built rs g hg
  have hmem := mem_TransitiveDeps hb.topo n
  have hnodup : (g.TransitiveDeps n).Nodup :=
    nodup_TransitiveDepsInternal g _ n [] List.nodup_nil
  have hlog : g.TransitiveDepsLogged (g.nodes_.length + 1) n ([], []) =
      (g.TransitiveDeps n, g.TransitiveDeps n) :=
    TransitiveDepsLogged_eq g (g.nodes_.length + 1) n []
  refine ⟨?_, ?_, fun x => hmem x hn, ?_, hnodup, by rw [hlog], ?_, ?_, ?_⟩
  · intro fuel hf
    exact TransitiveDepsInternal_fuel hb.topo n fuel (g.nodes_.length + 1) [] hf (by omega)
  · exact (hmem n hn).mpr Relation.ReflTransGen.refl
  · intro x
    rw [hmem x hn]
    constructor
    · intro h
      rcases Relation.ReflTransGen.cases_head h with e | ⟨d, hd, hr⟩
      · exact Or.inl e.symm
      · exact Or.inr ⟨d, hd, hr⟩
    · rintro (e | ⟨d, hd, hr⟩)
      · subst e; exact Relation.ReflTransGen.refl
      · exact Relation.ReflTransGen.head hd hr
  · intro fuel hf
    rw [TransitiveDepsLogged_eq g fuel n [], hlog,
      TransitiveDepsInternal_fuel hb.topo n fuel (g.nodes_.length + 1) [] hf (by omega)]
    rfl
  · intro x hx
    rw [hlog]
    exact List.count_eq_one_of_mem hnodup ((hmem x hn).mpr hx)
  · intro x hx
    rw [hlog]
    exact List.count_eq_zero_of_not_mem (fun h => hx ((hmem x hn).mp h))

/-- C11 on a diamond (`a` depends on `b` and `c`, both depend on `d`; ids 3, 1,
2, 0): `TransitiveDeps()` of `a` holds `a`, `b`, `d`, `c`, and the log of the
insertions holds each of them once, `d` included, which is reached twice. -/
theorem TransitiveDeps_is_reachable_set_witness :
    build DiamondGraph = some (builtGraph DiamondGraph) ∧
    3 < (builtGraph DiamondGraph).nodes_.length ∧
    (builtGraph DiamondGraph).TransitiveDeps 3 = [3, 1, 0, 2] ∧
    (builtGraph DiamondGraph).TransitiveDepsLogged 5 3 ([], []) = ([3, 1, 0, 2], [3, 1, 0, 2]) ∧
    (∀ x, x ∈ (builtGraph DiamondGraph).TransitiveDeps 3 ↔ x = 0 ∨ x = 1 ∨ x = 2 ∨ x = 3) ∧
    ((builtGraph DiamondGraph).TransitiveDeps 3).Nodup ∧
    (∀ x, Reaches (builtGraph DiamondGraph) 3 x ↔ x = 0 ∨ x = 1 ∨ x = 2 ∨ x = 3) := by
  have h := TransitiveDeps_is_reachable_set DiamondGraph (builtGraph DiamondGraph) rfl 3
    (by decide)
  have hl : (builtGraph DiamondGraph).TransitiveDeps 3 = [3, 1, 0, 2] := by decide
  have hm : ∀ x, x ∈ (builtGraph DiamondGraph).TransitiveDeps 3 ↔
      x = 0 ∨ x = 1 ∨ x = 2 ∨ x = 3 := by
    intro x
    rw [hl]
    simp only [List.mem_cons, List.mem_singleton, List.not_mem_nil, or_false]
    omega
  refine ⟨rfl, by decide, hl, by decide, hm, h.2.2.2.2.1, ?_⟩
  intro x
  rw [← h.2.2.1 x]
  exact hm x

/-- C12: the closure that `BindRecursive` builds for a function `f` and the
handles `h :: tail`, invoked when the node of every handle has recorded its
output, returns what `f` returns on the `Input` views of those outputs, in the
order of the handles; and it is the closure that `AddProducer` stores in the
node it creates for these handles. -/
theorem bound_closure_forwards_inputs_in_order {α : Type} (f : ProducerFn α) (h : Nat)
    (tail : List Nat) (view : View α) (outs : Nat → Output α)
    (hv : ∀ id, id ∈ h :: tail → view id = some (some (outs id))) :
    BindRecursive (fun _ ins => Outcome.ofExcept (f ins)) h tail view =
      Outcome.ofExcept (f ((h :: tail).map fun id => (outs id).AsInput)) ∧
    ∀ (g g1 : ProducerGraph α) (name : String) (id : Nat),
      g.AddProducer name f (h :: tail) = some (g1, id) →
      ∃ n, g1.node g.nodes_.length = some n ∧
        n.producer_ = BindRecursive (fun _ ins => Outcome.ofExcept (f ins)) h tail := by
  refine ⟨BindRecursive_eq tail _ h view outs hv, ?_⟩
  intro g g1 name id hadd
  obtain ⟨nodes, hg1⟩ := name_of_AddProducer g ⟨name, f, h :: tail⟩ g1 id hadd
  rw [hg1]
  exact ⟨_, node_extend_new g _ _ nodes, rfl⟩

/-- C12 on three handles of two output types, one of them repeated: the
function receives the outputs of the nodes 0, 1 and 0, in this order. -/
theorem bound_closure_forwards_inputs_in_order_witness :
    (∀ id, id ∈ [0, 1, 0] →
      (fun id => some (some (if id = 0 then Output.ofContent (TestVal.int 7)
          else Output.ofContent (TestVal.str "Hello"))) : View TestVal) id =
        some (some ((fun id => if id = 0 then Output.ofContent (TestVal.int 7)
          else Output.ofContent (TestVal.str "Hello")) id))) ∧
    BindRecursive
      (fun _ ins => Outcome.ofExcept
        ((fun ins => Except.ok (Output.ofContent (TestVal.str (toString (ins.map fun i =>
            match i with
            | Input.ofValue ⟨TestVal.int k⟩ => toString k
            | Input.ofValue ⟨TestVal.str t⟩ => t
            | Input.ofError _ => "error")))) : ProducerFn TestVal) ins))
      0 [1, 0]
      (fun id => some (some (if id = 0 then Output.ofContent (TestVal.int 7)
          else Output.ofContent (TestVal.str "Hello")))) =
      Outcome.returned (Output.ofContent (TestVal.str "[7, Hello, 7]")) := by
  have hv : ∀ id, id ∈ [0, 1, 0] →
      (fun id => some (some (if id = 0 then Output.ofContent (TestVal.int 7)
          else Output.ofContent (TestVal.str "Hello"))) : View TestVal) id =
        some (some ((fun id => if id = 0 then Output.ofContent (TestVal.int 7)
          else Output.ofContent (TestVal.str "Hello")) id)) := fun _ _ => rfl
  refine ⟨hv, ?_⟩
  rw [(bound_closure_forwards_inputs_in_order _ 0 [1, 0] _ _ hv).1]
  rfl

/-- C13: in a graph built by `AddProducer`, and in every state of its
executions, the set `deps_` of each node holds exactly the nodes that
`nodes_by_id_` gives for the handles of its registration, without repetition
(it is empty for a registration without handles), all of them nodes of the
graph; and `a` is in `rdeps_` of `b` if and only if `b` is in `deps_` of `a`. -/
theorem topology_equals_wiring {α : Type} (rs : List (Registration α))
    (g : ProducerGraph α) (hg : build rs = some g) (s : Sys α) (hs : Reach g s) :
    s.graph.nodes_.length = rs.length ∧
    (∀ p n, s.graph.node p = some n → ∃ r, rs[p]? = some r ∧ n.deps_.Nodup ∧
      (∀ x, x ∈ n.deps_ ↔ ∃ h, h ∈ r.node_handles ∧ s.graph.lookup h = some x) ∧
      (r.node_handles = [] → n.deps_ = []) ∧
      (∀ x, x ∈ n.deps_ → x < s.graph.nodes_.length) ∧
      (∀ x, x ∈ n.rdeps_ → x < s.graph.nodes_.length)) ∧
    (∀ a b na nb, s.graph.node a = some na → s.graph.node b = some nb →
      (a ∈ nb.rdeps_ ↔ b ∈ na.deps_)) := by
  have hb := build_built rs g hg
  have hinv := inv_reach hb hs
  refine ⟨hinv.wired.len, ?_, ?_⟩
  · intro p n hn
    obtain ⟨r, hr, _, hd⟩ := hinv.wired.wired p n hn
    have hlt : ∀ x, x ∈ n.deps_ → x < s.graph.nodes_.length := by
      intro x hx
      have := hinv.topo.deps_lt p n hn x hx
      have := node_lt hn
      omega
    refine ⟨r, hr, hinv.topo.deps_nodup p n hn, ?_, ?_, hlt, ?_⟩
    · intro x
      rw [hd x]
      constructor
      · intro hx
        refine ⟨x, hx, ?_⟩
        rw [hinv.topo.lookup x, if_pos (hlt x ((hd x).mpr hx))]
      · rintro ⟨h, hh, hl⟩
        rw [hinv.topo.lookup h] at hl
        by_cases hc : h < s.graph.nodes_.length
        · rw [if_pos hc] at hl
          rw [← Option.some.inj hl]
          exact hh
        · rw [if_neg hc] at hl
          exact absurd hl (by simp)
    · intro hnil
      apply List.eq_nil_iff_forall_not_mem.mpr
      intro x hx
      have := (hd x).mp hx
      rw [hnil] at this
      simp at this
    · intro x hx
      obtain ⟨nx, hnx, _⟩ := (hinv.topo.rdeps_iff p n x hn).mp hx
      exact node_lt hnx
  · intro a b na nb ha hnb
    rw [hinv.topo.rdeps_iff b nb a hnb]
    constructor
    · rintro ⟨na1, ha1, h⟩
      rw [ha] at ha1
      rw [Option.some.inj ha1]
      exact h
    · intro h
      exact ⟨na, ha, h⟩

/-- C13 on `BasicGraph`, as built: `sum` depends on `left` and `right`, which
both have `sum` as their only reverse dependency. -/
theorem topology_equals_wiring_witness :
    build BasicGraph = some (builtGraph BasicGraph) ∧
    Reach (builtGraph BasicGraph) (Sys.fresh (builtGraph BasicGraph)) ∧
    (builtGraph BasicGraph).nodes_.map (fun n => (n.deps_, n.rdeps_)) =
      [([], [2]), ([], [2]), ([0, 1], [3]), ([2], [])] ∧
    ∀ a b na nb, (builtGraph BasicGraph).node a = some na →
      (builtGraph BasicGraph).node b = some nb → (a ∈ nb.rdeps_ ↔ b ∈ na.deps_) :=
  ⟨rfl, Reach.fresh, by decide,
    (topology_equals_wiring BasicGraph (builtGraph BasicGraph) rfl
      (Sys.fresh (builtGraph BasicGraph)) Reach.fresh).2.2⟩

/-- C14: `TrySetRunning` returns true exactly when the state is `BLOCKED`, and
then sets `RUNNING`; otherwise it leaves the node as it is. `SetFinished` passes
its `assert` exactly in `RUNNING`, and then sets `FINISHED`. No sequence of calls
of `TrySetRunning`, `Start`, `SetFinished` and `ReportFinished` on a node moves
it to an earlier state or changes the state of a `FINISHED` node, and no step of
an execution does so for any node of the graph. -/
theorem state_only_advances {α : Type} (n : Node α) :
    (n.TrySetRunning.1 = true ↔ n.state_ = .BLOCKED) ∧
    (n.state_ = .BLOCKED → n.TrySetRunning.2 = { n with state_ := .RUNNING }) ∧
    (n.state_ ≠ .BLOCKED → n.TrySetRunning.2 = n) ∧
    (n.state_ = .RUNNING → n.SetFinished = some { n with state_ := .FINISHED }) ∧
    (n.state_ ≠ .RUNNING → n.SetFinished = none) ∧
    (∀ (ops : List NodeOp) (n1 : Node α), applyOps ops n = some n1 →
      n.state_.rank ≤ n1.state_.rank ∧ (n.state_ = .FINISHED → n1.state_ = .FINISHED)) ∧
    (∀ (l : Label) (s u : Sys α) (p : Nat), step l s = some u → s.graph.node p = some n →
      ∃ n1, u.graph.node p = some n1 ∧ n.state_.rank ≤ n1.state_.rank ∧
        (n.state_ = .FINISHED → n1.state_ = .FINISHED)) := by
  have hfin : ∀ n1 : Node α, n.state_.rank ≤ n1.state_.rank →
      n.state_ = .FINISHED → n1.state_ = .FINISHED := by
    intro n1 hle hf
    rw [hf] at hle
    have := rank_le_two n1.state_
    exact (rank_eq_two _).mp (le_antisymm this hle)
  refine ⟨?_, ?_, ?_, ?_, ?_, ?_, ?_⟩
  · unfold Node.TrySetRunning
    by_cases h : n.state_ = .BLOCKED <;> simp [h]
  · intro h
    simp [Node.TrySetRunning, h]
  · intro h
    simp [Node.TrySetRunning, h]
  · intro h
    simp [Node.SetFinished, h]
  · intro h
    simp [Node.SetFinished, h]
  · intro ops n1 h
    have hle := rank_applyOps ops n n1 h
    exact ⟨hle, hfin n1 hle⟩
  · intro l s u p h hn
    obtain ⟨n1, hn1, hle⟩ := rank_step l s u h p n hn
    exact ⟨n1, hn1, hle, hfin n1 hle⟩

/-- C15: `get()` of an `Input` built from a `Value` returns the content of the
value (`IsValue()` is true, `IsError()` false); `get()` of an `Input` built from
an `Error` throws and returns nothing (`IsError()` is true, `IsValue()` false);
so `get()` throws if and only if `IsError()`. -/
theorem Input_get_throws_iff_IsError {α : Type} :
    (∀ v : Value α, (Input.ofValue v).get = .ok v.get ∧
      (Input.ofValue v).IsValue = true ∧ (Input.ofValue v).IsError = false) ∧
    (∀ e : Error, (Input.ofError e : Input α).get = .error (.std "hi") ∧
      (Input.ofError e : Input α).IsError = true ∧
      (Input.ofError e : Input α).IsValue = false) ∧
    (∀ i : Input α, (∃ e, i.get = .error e) ↔ i.IsError = true) ∧
    (∀ i : Input α, (∃ v, i.get = .ok v) ↔ i.IsValue = true) := by
  refine ⟨fun v => ⟨rfl, rfl, rfl⟩, fun e => ⟨rfl, rfl, rfl⟩, ?_, ?_⟩
  · intro i
    cases i with
    | ofValue v => simp [Input.get, Input.IsError]
    | ofError e => simp [Input.get, Input.IsError]
  · intro i
    cases i with
    | ofValue v => simp [Input.get, Input.IsValue]
    | ofError e => simp [Input.get, Input.IsValue]

/-- C16: of `IsValue()` and `IsError()` of an `Output` exactly one is true;
`AsInput()` keeps both; and for an `Output` constructed from `v`, `get()` of the
`Output` and `get()` of its `Input` view both give `v`. -/
theorem Output_AsInput_agrees {α : Type} :
    (∀ o : Output α, (o.IsValue = true ∧ o.IsError = false) ∨
      (o.IsValue = false ∧ o.IsError = true)) ∧
    (∀ o : Output α, o.AsInput.IsValue = o.IsValue ∧ o.AsInput.IsError = o.IsError) ∧
    (∀ v : α, (Output.ofContent v).IsValue = true ∧ (Output.ofContent v).get = some v ∧
      (Output.ofContent v).AsInput.get = .ok v) ∧
    (∀ e : Error, (Output.ofError e : Output α).IsError = true ∧
      (Output.ofError e : Output α).get = none ∧
      (Output.ofError e : Output α).AsInput.get = .error (.std "hi")) := by
  refine ⟨?_, ?_, fun v => ⟨rfl, rfl, rfl⟩, fun e => ⟨rfl, rfl, rfl⟩⟩
  · intro o
    cases o with
    | ofValue v => exact Or.inl ⟨rfl, rfl⟩
    | ofError e => exact Or.inr ⟨rfl, rfl⟩
  · intro o
    cases o with
    | ofValue v => exact ⟨rfl, rfl⟩
    | ofError e => exact ⟨rfl, rfl⟩

/-- C17, as stated, fails: `ToString()` of `Error("boom")` is not
`"Producer error with message:\n"` followed by `"boom"` and a newline, and
`ToString()` of an error with that cause is not the stated text either: the
code writes a space before each newline that ends a heading. -/
theorem ToString_has_space_before_newline :
    (Error.mk none "boom").ToString ≠ "Producer error with message:\n" ++ "boom" ++ "\n" ∧
    (Error.mk none "boom").ToString = "Producer error with message: \nboom\n" ∧
    (Error.mk (some (.mk none "boom")) "").ToString ≠
      "Producer error with message:\n" ++ "" ++ "\n" ++ "Caused by:\n" ++
        (Error.mk none "boom").ToString ++ "\n" := by
  refine ⟨by decide, by decide, by decide⟩

/-- C17, amended: `ToString()` of an error without cause is
`"Producer error with message: \n"`, the message and a newline; with a cause
`c` it is that text followed by `"Caused by: \n"`, `c.ToString()` and a newline;
so it contains the rendering of every error of the causal chain. -/
theorem ToString_renders_causal_chain :
    (∀ m : String, (Error.mk none m).ToString =
      "Producer error with message: \n" ++ m ++ "\n") ∧
    (∀ (c : Error) (m : String), (Error.mk (some c) m).ToString =
      "Producer error with message: \n" ++ m ++ "\n" ++ "Caused by: \n" ++ c.ToString ++ "\n") ∧
    (∀ (c : Error) (m : String), (Error.mk (some c) m).ToString =
      (Error.mk none m).ToString ++ "Caused by: \n" ++ c.ToString ++ "\n") ∧
    (∀ e c : Error, c ∈ e.causes →
      ∃ pre post : String, e.ToString = pre ++ c.ToString ++ post) := by
  refine ⟨ToString_no_cause, ToString_cause, ?_, ToString_contains_causes⟩
  intro c m
  rw [ToString_cause, ToString_no_cause]

/-- C14 on a node without dependencies: `Start`, a second `TrySetRunning`,
`SetFinished` and a second `Start` take it from `BLOCKED` to `FINISHED`, and
`SetFinished` on the `BLOCKED` node fails its `assert`. -/
theorem state_only_advances_witness :
    (applyOps [.Start, .TrySetRunning, .SetFinished, .Start]
      (Node.new 0 "" (fun _ => .undefined) [] : Node TestVal)).map Node.state_ =
      some .FINISHED ∧
    ((Node.new 0 "" (fun _ => .undefined) [] : Node TestVal).SetFinished).isNone = true ∧
    ∀ n1, applyOps [.Start, .TrySetRunning, .SetFinished, .Start]
        (Node.new 0 "" (fun _ => .undefined) [] : Node TestVal) = some n1 →
      (Node.new 0 "" (fun _ => .undefined) [] : Node TestVal).state_.rank ≤ n1.state_.rank :=
  ⟨by decide, by decide, fun n1 h =>
    ((state_only_advances (Node.new 0 "" (fun _ => .undefined) [] : Node TestVal)).2.2.2.2.2.1
      [.Start, .TrySetRunning, .SetFinished, .Start] n1 h).1⟩

/-- C18, with its failing input. The overload of `AddProducer` without handles
replaces an empty name by `"unnamed-<id>"` and keeps any other name; the
overload with handles keeps the name it is given, the empty one included. In a
graph built by `AddProducer` the name of every node is given by these two rules,
and in `BasicGraph`, where no call supplies a name, `sum` and `message` are
named `""`, not `"unnamed-2"` and `"unnamed-3"`. -/
theorem AddProducer_with_handles_keeps_empty_name :
    (∀ (α : Type) (rs : List (Registration α)) (g : ProducerGraph α), build rs = some g →
      ∀ p n, g.node p = some n → ∃ r, rs[p]? = some r ∧ n.id_ = p ∧
        (r.node_handles = [] → r.name = "" → n.name_ = CreateNodeName p) ∧
        (r.node_handles ≠ [] → n.name_ = r.name) ∧
        (r.name ≠ "" → n.name_ = r.name)) ∧
    (∀ id : Nat, CreateNodeName id = "unnamed-" ++ toString id) ∧
    build BasicGraph = some (builtGraph BasicGraph) ∧
    BasicGraph.map (fun r => r.name) = ["", "", "", ""] ∧
    (builtGraph BasicGraph).nodes_.map (fun n => (n.id_, n.name_)) =
      [(0, "unnamed-0"), (1, "unnamed-1"), (2, ""), (3, "")] := by
  refine ⟨?_, fun id => rfl, rfl, rfl, by decide⟩
  intro α rs g hg p n hn
  obtain ⟨r, hr, hname⟩ := named_build rs g hg p n hn
  refine ⟨r, hr, (build_built rs g hg).topo.id p n hn, ?_, ?_, ?_⟩
  · intro hnil he
    rw [hname, if_pos hnil, if_pos ((String.isEmpty_iff _).mpr he)]
  · intro hne
    rw [hname, if_neg hne]
  · intro hne
    rw [hname]
    by_cases hnil : r.node_handles = []
    · rw [if_pos hnil, if_neg (fun h => hne ((String.isEmpty_iff _).mp h))]
    · rw [if_neg hnil]

/-- C19: in a sequence of calls of `AddProducer` on a new graph, the call
number `k` returns the handle with id `k`: the ids returned are `0, 1, 2, ...`
in order, pairwise distinct and increasing; `nodes_by_id_` of the resulting
graph sends `k` to a node that has the id `k`, the closure of the function and
the handles of call `k`, and the nodes of these handles as dependencies. -/
theorem handle_ids_count_the_calls {α : Type} (rs : List (Registration α))
    (g : ProducerGraph α) (ids : List Nat) (h : register rs = some (g, ids)) :
    build rs = some g ∧
    ids = List.range rs.length ∧
    (∀ k, k < rs.length → ids[k]? = some k) ∧
    ids.Nodup ∧ ids.Pairwise (fun a b => a < b) ∧
    g.next_id_ = rs.length ∧
    (∀ (k : Nat) (r : Registration α), rs[k]? = some r →
      ∃ p n, g.lookup k = some p ∧ g.node p = some n ∧ n.id_ = k ∧
        n.producer_ = bindClosure r.f r.node_handles ∧
        (∀ x, x ∈ n.deps_ ↔ x ∈ r.node_handles)) ∧
    (∀ k, rs.length ≤ k → g.lookup k = none) := by
  obtain ⟨hbuild, hids⟩ := register_spec rs g ids h
  have hb := build_built rs g hbuild
  refine ⟨hbuild, hids, ?_, ?_, ?_, ?_, ?_, ?_⟩
  · intro k hk
    rw [hids]
    simp [hk]
  · rw [hids]; exact List.nodup_range _
  · rw [hids]; exact List.pairwise_lt_range _
  · rw [hb.topo.next, hb.wired.len]
  · intro k r hr
    have hk : k < g.nodes_.length := by
      rw [hb.wired.len]
      exact (List.getElem?_eq_some.mp hr).1
    obtain ⟨n, hn⟩ := node_of_lt hk
    obtain ⟨r1, hr1, hc, hd⟩ := hb.wired.wired k n hn
    rw [hr] at hr1
    have := Option.some.inj hr1
    subst this
    refine ⟨k, n, ?_, hn, hb.topo.id k n hn, hc, hd⟩
    rw [hb.topo.lookup k, if_pos hk]
  · intro k hk
    rw [hb.topo.lookup k, if_neg (by rw [hb.wired.len]; omega)]

/-- C19 on `BasicGraph`: the four calls return the handles 0, 1, 2, 3. -/
theorem handle_ids_count_the_calls_witness :
    (register BasicGraph).map (fun x => x.2) = some [0, 1, 2, 3] ∧
    register BasicGraph = some (builtGraph BasicGraph, [0, 1, 2, 3]) ∧
    (builtGraph BasicGraph).next_id_ = 4 :=
  ⟨by decide, rfl,
    (handle_ids_count_the_calls BasicGraph (builtGraph BasicGraph) [0, 1, 2, 3] rfl).2.2.2.2.2.1⟩

/-- C20: `Start()` launches the task and moves the node from `BLOCKED` to
`RUNNING` if and only if `CanRun()` holds and the state is `BLOCKED`; otherwise
it leaves the node as it is. It never touches `deps_` and `finished_deps_`, and
a second `Start()` right after the first changes nothing. The part of `Start()`
after `CanRun()` has returned true launches if and only if the state is
`BLOCKED` at that moment. -/
theorem Start_launches_iff_CanRun_and_BLOCKED {α : Type} (n : Node α) :
    (n.CanRun = true ∧ n.state_ = .BLOCKED →
      n.Start = { n with state_ := .RUNNING, async_future_ := .atRunProducer,
                         launches := n.launches + 1 }) ∧
    (¬ (n.CanRun = true ∧ n.state_ = .BLOCKED) → n.Start = n) ∧
    (n.Start.launches = n.launches + 1 ↔ n.CanRun = true ∧ n.state_ = .BLOCKED) ∧
    (n.Start.launches = n.launches ∨ n.Start.launches = n.launches + 1) ∧
    n.Start.finished_deps_ = n.finished_deps_ ∧ n.Start.deps_ = n.deps_ ∧
    n.Start.CanRun = n.CanRun ∧
    n.Start.Start = n.Start ∧
    (n.state_ = .BLOCKED →
      n.StartAfterCanRun = { n with state_ := .RUNNING, async_future_ := .atRunProducer,
                                    launches := n.launches + 1 }) ∧
    (n.state_ ≠ .BLOCKED → n.StartAfterCanRun = n) := by
  have h1 : n.CanRun = true ∧ n.state_ = .BLOCKED →
      n.Start = { n with state_ := .RUNNING, async_future_ := .atRunProducer,
                         launches := n.launches + 1 } := by
    rintro ⟨hc, hs⟩
    simp [Node.Start, Node.StartAfterCanRun, Node.TrySetRunning, hc, hs]
  have h2 : ¬ (n.CanRun = true ∧ n.state_ = .BLOCKED) → n.Start = n := by
    intro h
    by_cases hc : n.CanRun = true
    · have hs : n.state_ ≠ .BLOCKED := fun hs => h ⟨hc, hs⟩
      simp [Node.Start, Node.StartAfterCanRun, Node.TrySetRunning, hc, hs]
    · simp [Node.Start, hc]
  have h3 : n.state_ = .BLOCKED →
      n.StartAfterCanRun = { n with state_ := .RUNNING, async_future_ := .atRunProducer,
                                    launches := n.launches + 1 } := by
    intro hs
    simp [Node.StartAfterCanRun, Node.TrySetRunning, hs]
  have h4 : n.state_ ≠ .BLOCKED → n.StartAfterCanRun = n := by
    intro hs
    simp [Node.StartAfterCanRun, Node.TrySetRunning, hs]
  by_cases h : n.CanRun = true ∧ n.state_ = .BLOCKED
  · have e := h1 h
    refine ⟨h1, h2, ?_, ?_, ?_, ?_, ?_, ?_, h3, h4⟩
    · rw [e]; simp [h]
    · rw [e]; exact Or.inr rfl
    · rw [e]
    · rw [e]
    · rw [e]; rfl
    · rw [e]
      have hc := h.1
      unfold Node.CanRun at hc
      simp [Node.Start, Node.StartAfterCanRun, Node.TrySetRunning, Node.CanRun, hc]
  · have e := h2 h
    refine ⟨h1, h2, ?_, ?_, ?_, ?_, ?_, ?_, h3, h4⟩
    · rw [e]; simp [h]
    · rw [e]; exact Or.inl rfl
    · rw [e]
    · rw [e]
    · rw [e]
    · rw [e, e]

/-! ## Properties of the reports and of the dependency order -/

/-- C21: on a node whose `finished_deps_` is within its `deps_` (both sets),
`ReportFinished(d)` fails its `assert` when `d` is not in `deps_`; otherwise it
keeps `deps_`, leaves `finished_deps_` as it is when `d` is already there, and
adds `d` alone when it is not. After every sequence of calls that pass the
`assert`, `finished_deps_` is still a set within `deps_`, holds what it held
before (it never shrinks) and the reported nodes, is no larger than `deps_`,
and `CanRun()` is true exactly when every node of `deps_` is in it. Every
sequence of reports of nodes of `deps_` passes the `assert`, and the nodes of
every state of an execution of a built graph satisfy the three hypotheses. -/
theorem finished_deps_grow_within_deps {α : Type} (n : Node α) (hd : n.deps_.Nodup)
    (hf : n.finished_deps_.Nodup) (hsub : ∀ x, x ∈ n.finished_deps_ → x ∈ n.deps_) :
    (∀ d, d ∉ n.deps_ → n.ReportFinished d = none) ∧
    (∀ d, d ∈ n.deps_ → ∃ n1, n.ReportFinished d = some n1 ∧ n1.deps_ = n.deps_ ∧
      (d ∈ n.finished_deps_ → n1.finished_deps_ = n.finished_deps_) ∧
      (d ∉ n.finished_deps_ → n1.finished_deps_ = n.finished_deps_ ++ [d])) ∧
    (∀ (ds : List Nat) (n1 : Node α), applyOps (ds.map NodeOp.ReportFinished) n = some n1 →
      n1.deps_ = n.deps_ ∧ n1.finished_deps_.Nodup ∧
      (∀ x, x ∈ n1.finished_deps_ → x ∈ n1.deps_) ∧
      (∀ x, x ∈ n1.finished_deps_ ↔ x ∈ n.finished_deps_ ∨ x ∈ ds) ∧
      n.finished_deps_ <+: n1.finished_deps_ ∧
      n.finished_deps_.length ≤ n1.finished_deps_.length ∧
      n1.finished_deps_.length ≤ n1.deps_.length ∧
      (n1.CanRun = true ↔ ∀ d, d ∈ n1.deps_ → d ∈ n1.finished_deps_)) ∧
    (∀ ds : List Nat, (∀ d, d ∈ ds → d ∈ n.deps_) →
      ∃ n1, applyOps (ds.map NodeOp.ReportFinished) n = some n1) ∧
    (∀ (rs : List (Registration α)) (g : ProducerGraph α) (s : Sys α) (p : Nat) (m : Node α),
      build rs = some g → Reach g s → s.graph.node p = some m →
      m.deps_.Nodup ∧ m.finished_deps_.Nodup ∧ (∀ x, x ∈ m.finished_deps_ → x ∈ m.deps_) ∧
      (m.CanRun = true ↔ ∀ d, d ∈ m.deps_ → d ∈ m.finished_deps_)) := by
  refine ⟨fun d h => (ReportFinished_eq n d).1 h, ?_, ?_, fun ds h => reports_defined ds n h, ?_⟩
  · intro d hdm
    obtain ⟨n1, h1, hdeps, hfin⟩ := (ReportFinished_eq n d).2 hdm
    refine ⟨n1, h1, hdeps, ?_, ?_⟩
    · intro hin
      rcases setInsert_cases d n.finished_deps_ with ⟨_, e⟩ | ⟨hnot, _⟩
      · rw [hfin, e]
      · exact absurd hin hnot
    · intro hnin
      rcases setInsert_cases d n.finished_deps_ with ⟨hin, _⟩ | ⟨_, e⟩
      · exact absurd hin hnin
      · rw [hfin, e]
  · intro ds n1 h
    obtain ⟨i1, i2, i3, i4, i5⟩ := reports_spec ds n n1 h
    have hsub1 : ∀ x, x ∈ n1.finished_deps_ → x ∈ n1.deps_ := by
      intro x hx
      rw [i1]
      rcases (i3 x).mp hx with e | e
      · exact hsub x e
      · exact i2 x e
    obtain ⟨hle, hcan⟩ := CanRun_iff_all_reported n1 (by rw [i1]; exact hd) (i4 hf) hsub1
    exact ⟨i1, i4 hf, hsub1, i3, i5, i5.length_le, hle, hcan⟩
  · intro rs g s p m hg hs hm
    have hinv := inv_reach (build_built rs g hg) hs
    have hi := hinv.nodes p m hm
    exact ⟨hinv.topo.deps_nodup p m hm, hi.fin_nodup, fun x hx => ((hi.fin_iff x).mp hx).1,
      canRun_iff hinv.topo p m hm hi⟩

/-- C21 on a new node with the dependencies 0 and 1: after the reports of 0, of
0 again and of 1, `finished_deps_` is `[0, 1]`, and the node, which can run, has
been started. -/
theorem finished_deps_grow_within_deps_witness :
    (Node.new 2 "" (fun _ => .undefined) [0, 1] : Node TestVal).deps_.Nodup ∧
    (Node.new 2 "" (fun _ => .undefined) [0, 1] : Node TestVal).finished_deps_.Nodup ∧
    (applyOps ([0, 0, 1].map NodeOp.ReportFinished)
      (Node.new 2 "" (fun _ => .undefined) [0, 1] : Node TestVal)).map
        (fun n1 => (n1.finished_deps_, n1.CanRun, n1.state_)) =
      some ([0, 1], true, .RUNNING) ∧
    (applyOps ([0, 0].map NodeOp.ReportFinished)
      (Node.new 2 "" (fun _ => .undefined) [0, 1] : Node TestVal)).map
        (fun n1 => (n1.finished_deps_, n1.CanRun, n1.state_)) =
      some ([0], false, .BLOCKED) ∧
    ∀ n1, applyOps ([0, 0, 1].map NodeOp.ReportFinished)
        (Node.new 2 "" (fun _ => .undefined) [0, 1] : Node TestVal) = some n1 →
      n1.finished_deps_.length ≤ n1.deps_.length :=
  ⟨by decide, by decide, by decide, by decide, fun n1 h =>
    ((finished_deps_grow_within_deps
      (Node.new 2 "" (fun _ => .undefined) [0, 1] : Node TestVal) (by decide) (by decide)
      (by intro x hx; simp [Node.new] at hx)).2.2.1 [0, 0, 1] n1 h).2.2.2.2.2.2.1⟩

/-- C22: in a graph built by `AddProducer`, every handle of call `k` is the id
of an earlier call, every dependency of a node has an id smaller than the id of
the node, no node is reachable from itself along one or more dependency edges,
and `TransitiveDeps()` of a node holds only nodes whose id is at most its own. -/
theorem deps_have_smaller_ids {α : Type} (rs : List (Registration α))
    (g : ProducerGraph α) (hg : build rs = some g) :
    (∀ (k : Nat) (r : Registration α), rs[k]? = some r → ∀ h, h ∈ r.node_handles → h < k) ∧
    (∀ (p : Nat) (n : Node α) (d : Nat), g.node p = some n → d ∈ n.deps_ →
      ∃ nd, g.node d = some nd ∧ nd.id_ < n.id_) ∧
    (∀ p, ¬ Relation.TransGen (Dep g) p p) ∧
    (∀ (p : Nat) (n : Node α) (x : Nat), g.node p = some n → x ∈ g.TransitiveDeps p →
      ∃ nx, g.node x = some nx ∧ nx.id_ ≤ n.id_) := by
  have hb := build_built rs g hg
  refine ⟨fun k r hr => built_handles_lt hb k r hr, ?_, ?_, ?_⟩
  · intro p n d hn hd
    have hlt := hb.topo.deps_lt p n hn d hd
    obtain ⟨nd, hnd⟩ := node_of_lt (lt_trans hlt (node_lt hn))
    refine ⟨nd, hnd, ?_⟩
    rw [hb.topo.id d nd hnd, hb.topo.id p n hn]
    exact hlt
  · intro p h
    exact lt_irrefl p (transGen_lt hb.topo h)
  · intro p n x hn hx
    have hle := reaches_le hb.topo ((mem_TransitiveDeps hb.topo p x (node_lt hn)).mp hx)
    obtain ⟨nx, hnx⟩ := node_of_lt (lt_of_le_of_lt hle (node_lt hn))
    refine ⟨nx, hnx, ?_⟩
    rw [hb.topo.id x nx hnx, hb.topo.id p n hn]
    exact hle

/-- C22 on the diamond: the dependencies of `a` (id 3) are `b` and `c` (ids 1
and 2), and `TransitiveDeps()` of `b` holds the ids 1 and 0 only. -/
theorem deps_have_smaller_ids_witness :
    build DiamondGraph = some (builtGraph DiamondGraph) ∧
    (builtGraph DiamondGraph).nodes_.map (fun n => (n.id_, n.deps_)) =
      [(0, []), (1, [0]), (2, [0]), (3, [1, 2])] ∧
    (builtGraph DiamondGraph).TransitiveDeps 1 = [1, 0] ∧
    ∀ p, ¬ Relation.TransGen (Dep (builtGraph DiamondGraph)) p p :=
  ⟨rfl, by decide, by decide,
    (deps_have_smaller_ids DiamondGraph (builtGraph DiamondGraph) rfl).2.2.1⟩

end ccproducers
